import Mathlib

/-!
Page-replacement simulators of `optimal.c`.

A shallow embedding of the reference-string generator and of the four page-replacement
simulators (`optimal`, `fifo`, `lru`, `second_chance`) together with their shared
helper `locate`.

Conventions of the embedding.

* C `int` values that hold page numbers, timestamps and reference bits are `Int`; loop
  counters and array positions that the program only ever counts upwards from zero are `Nat`.
* An array is a `List Int`; every read and write is bounds-checked and a violation is
  reported as a `Fault` instead of being silently ignored.
* The trace `ref_str` is a list and the constant `STRING_LEN` is its length (the program
  allocates exactly `STRING_LEN` entries, one million in the shipped configuration).  A loop
  `for (i = 0; i < STRING_LEN; i++) ... ref_str[i]` is a recursion over that list.
* `while` loops whose termination is not evident from a counter carry a budget of
  iterations; exhausting the budget is the fault `Fault.fuel`.
-/

namespace Paging

/-- Ways in which a run leaves the defined behaviour of the C program. -/
inductive Fault where
  /-- Read of `ref_str` at an index outside `[0, STRING_LEN)`. -/
  | traceIndex
  /-- Access of `frames`, `last_used` or `ref_bits` outside `[0, size)`. -/
  | frameIndex
  /-- Remainder taken with divisor zero. -/
  | divByZero
  /-- Shift `1 << size` whose count is not below the width of `int`. -/
  | shiftRange
  /-- Use of a local variable that was never assigned. -/
  | uninitialised
  /-- A `while` loop used up its iteration budget. -/
  | fuel
  deriving DecidableEq, Repr

/-- Checked array read `a[i]`. -/
def rd (a : List Int) (i : Nat) : Except Fault Int :=
  match a[i]? with
  | some v => .ok v
  | none => .error .frameIndex

/-- Checked array write `a[i] = v`. -/
def wr (a : List Int) (i : Nat) (v : Int) : Except Fault (List Int) :=
  if i < a.length then .ok (a.set i v) else .error .frameIndex

/-- A C `int` used as an array subscript: it has to be non-negative. -/
def idx (i : Int) : Except Fault Nat :=
  if 0 ≤ i then .ok i.toNat else .error .frameIndex

/-- The loop of `locate`: `n` iterations remain and the loop variable is `i`. -/
def locate_from (frames : List Int) (page_no : Int) : Nat → Nat → Except Fault Int
  | 0, _ => .ok (-1)
  | n + 1, i => do
      let f ← rd frames i
      if f = page_no then .ok (i : Int) else locate_from frames page_no n (i + 1)

/-- The function `locate(frames, size, page_no)`: first index holding `page_no`, or `-1`. -/
def locate (frames : List Int) (size : Nat) (page_no : Int) : Except Fault Int :=
  locate_from frames page_no size 0

/-! ## FIFO -/

/-- Local variables of `fifo` that live across iterations of its main loop. -/
structure FifoState where
  frames : List Int
  front : Nat
  page_faults : Nat
  deriving DecidableEq, Repr

/-- State of `fifo` on entry to the main loop. -/
def fifo_init (size : Nat) : FifoState :=
  { frames := List.replicate size (-1), front := 0, page_faults := 0 }

/-- One iteration of the main loop of `fifo`. -/
def fifo_step (size : Nat) (s : FifoState) (page_no : Int) : Except Fault FifoState := do
  let frame_no ← locate s.frames size page_no
  if frame_no ≥ 0 then
    .ok s
  else do
    let frames ← wr s.frames s.front page_no
    if size = 0 then
      .error .divByZero
    else
      .ok { frames := frames, front := (s.front + 1) % size, page_faults := s.page_faults + 1 }

/-- The main loop of `fifo` over the references that are still to be processed. -/
def fifo_run (size : Nat) : FifoState → List Int → Except Fault FifoState
  | s, [] => .ok s
  | s, page_no :: rest => do
      let s ← fifo_step size s page_no
      fifo_run size s rest

/-- The function `fifo(ref_str, size)`. -/
def fifo (ref_str : List Int) (size : Nat) : Except Fault Nat := do
  let s ← fifo_run size (fifo_init size) ref_str
  .ok s.page_faults

/-! ## LRU -/

/-- Local variables of `lru` that live across iterations of its main loop. -/
structure LruState where
  frames : List Int
  last_used : List Int
  page_faults : Nat
  deriving DecidableEq, Repr

/-- State of `lru` on entry to the main loop. -/
def lru_init (size : Nat) : LruState :=
  { frames := List.replicate size (-1), last_used := List.replicate size (-1), page_faults := 0 }

/-- The victim search of `lru`: `n` iterations remain, the loop variable is `j`. -/
def lru_scan (last_used : List Int) : Nat → Nat → Nat → Except Fault Nat
  | 0, _, lru_index => .ok lru_index
  | n + 1, j, lru_index => do
      let a ← rd last_used j
      let b ← rd last_used lru_index
      lru_scan last_used n (j + 1) (if a < b then j else lru_index)

/-- One iteration of the main loop of `lru`, at trace index `i`. -/
def lru_step (size : Nat) (s : LruState) (i : Nat) (page_no : Int) : Except Fault LruState := do
  let frame_no ← locate s.frames size page_no
  if frame_no ≥ 0 then do
    let k ← idx frame_no
    let last_used ← wr s.last_used k (i : Int)
    .ok { s with last_used := last_used }
  else do
    let lru_index ← lru_scan s.last_used (size - 1) 1 0
    let frames ← wr s.frames lru_index page_no
    let last_used ← wr s.last_used lru_index (i : Int)
    .ok { frames := frames, last_used := last_used, page_faults := s.page_faults + 1 }

/-- The main loop of `lru` from trace index `i` on. -/
def lru_run (size : Nat) : LruState → Nat → List Int → Except Fault LruState
  | s, _, [] => .ok s
  | s, i, page_no :: rest => do
      let s ← lru_step size s i page_no
      lru_run size s (i + 1) rest

/-- The function `lru(ref_str, size)`. -/
def lru (ref_str : List Int) (size : Nat) : Except Fault Nat := do
  let s ← lru_run size (lru_init size) 0 ref_str
  .ok s.page_faults

/-! ## Second chance -/

/-- Local variables of `second_chance` that live across iterations of its main loop. -/
structure ScState where
  frames : List Int
  ref_bits : List Int
  pointer : Nat
  page_faults : Nat
  deriving DecidableEq, Repr

/-- State of `second_chance` on entry to the main loop. -/
def sc_init (size : Nat) : ScState :=
  { frames := List.replicate size (-1), ref_bits := List.replicate size 0,
    pointer := 0, page_faults := 0 }

/-- The victim search `while (ref_bits[pointer] == 1)`.  The first argument is the number of
pointer advances the loop may still make. -/
def sc_scan (size : Nat) : Nat → List Int → Nat → Except Fault (List Int × Nat)
  | 0, ref_bits, pointer => do
      let b ← rd ref_bits pointer
      if b = 1 then .error .fuel else .ok (ref_bits, pointer)
  | fuel + 1, ref_bits, pointer => do
      let b ← rd ref_bits pointer
      if b = 1 then do
        let ref_bits ← wr ref_bits pointer 0
        if size = 0 then .error .divByZero
        else sc_scan size fuel ref_bits ((pointer + 1) % size)
      else .ok (ref_bits, pointer)

/-- One iteration of the main loop of `second_chance`. -/
def sc_step (fuel size : Nat) (s : ScState) (page_no : Int) : Except Fault ScState := do
  let frame_no ← locate s.frames size page_no
  if frame_no ≥ 0 then do
    let k ← idx frame_no
    let ref_bits ← wr s.ref_bits k 1
    .ok { s with ref_bits := ref_bits }
  else do
    let (ref_bits, pointer) ← sc_scan size fuel s.ref_bits s.pointer
    let frames ← wr s.frames pointer page_no
    let ref_bits ← wr ref_bits pointer 1
    if size = 0 then
      .error .divByZero
    else
      .ok { frames := frames, ref_bits := ref_bits, pointer := (pointer + 1) % size,
            page_faults := s.page_faults + 1 }

/-- The main loop of `second_chance`. -/
def sc_run (fuel size : Nat) : ScState → List Int → Except Fault ScState
  | s, [] => .ok s
  | s, page_no :: rest => do
      let s ← sc_step fuel size s page_no
      sc_run fuel size s rest

/-- The function `second_chance(ref_str, size)`, every victim search being allowed `fuel` pointer
advances. -/
def second_chance (fuel : Nat) (ref_str : List Int) (size : Nat) : Except Fault Nat := do
  let s ← sc_run fuel size (sc_init size) ref_str
  .ok s.page_faults

/-! ## Optimal (bounded lookahead) -/

/-- Result of the warm-up loop of `optimal`: the frames, the trace position `cur` reached
and the faults counted. -/
structure WarmState where
  frames : List Int
  cur : Nat
  page_faults : Nat
  deriving DecidableEq, Repr

/-- The warm-up loop `for (i = 0, cur = 0; i < size; i++, cur++)` of `optimal`.  The first
argument is the part of the trace from position `cur` on; the read `ref_str[cur]` is not
guarded by `cur < STRING_LEN`, so reading past the end is a fault. -/
def optimal_warmup (size : Nat) : List Int → Nat → Nat → List Int → Nat → Except Fault WarmState
  | [], i, cur, frames, page_faults =>
      if i < size then .error .traceIndex
      else .ok { frames := frames, cur := cur, page_faults := page_faults }
  | page_no :: rest, i, cur, frames, page_faults =>
      if i < size then do
        let frame_no ← locate frames size page_no
        if frame_no ≥ 0 then
          optimal_warmup size rest i (cur + 1) frames page_faults
        else do
          let frames ← wr frames i page_no
          optimal_warmup size rest (i + 1) (cur + 1) frames (page_faults + 1)
      else .ok { frames := frames, cur := cur, page_faults := page_faults }

/-- The lookahead loop `for (k = 1; k <= limit && unused && cur + k < STRING_LEN; k++)`.
The first argument counts the values of `k` still allowed by `limit`, the second is the
trace from position `cur + k` on.  `victim` is `none` until its first assignment. -/
def optimal_scan (frames : List Int) (size : Nat) :
    Nat → List Int → Nat → Option Int → Except Fault (Nat × Option Int)
  | 0, _, unused, victim => .ok (unused, victim)
  | _ + 1, [], unused, victim => .ok (unused, victim)
  | n + 1, r :: future, unused, victim =>
      if unused = 0 then .ok (unused, victim)
      else do
        let v ← locate frames size r
        let unused := if v ≥ 0 then unused &&& (0xFFFFFFFF ^^^ (1 <<< v.toNat)) else unused
        optimal_scan frames size n future unused (some v)

/-- The loop `while (unused % 2 == 0) { unused = unused >> 1; victim++; }`; the first
argument bounds the number of evaluations of its condition. -/
def optimal_first_unused : Nat → Nat → Nat → Except Fault Nat
  | 0, _, _ => .error .fuel
  | fuel + 1, unused, victim =>
      if unused % 2 = 0 then optimal_first_unused fuel (unused >>> 1) (victim + 1)
      else .ok victim

/-- One iteration of the steady-state loop of `optimal`: `page_no` is `ref_str[cur]` and
`future` is the trace from position `cur + 1` on.  `(1 << size) - 1` is taken in 32-bit
two's complement, which gives `2 ^ size - 1` up to `size = 31`; a larger shift count is a
fault.  `unused` is a 32-bit `unsigned`, so 32 tests suffice for the final loop. -/
def optimal_step (size : Nat) (limit : Int) (frames : List Int) (page_faults : Nat)
    (page_no : Int) (future : List Int) : Except Fault (List Int × Nat) := do
  let frame_no ← locate frames size page_no
  if frame_no ≥ 0 then
    .ok (frames, page_faults)
  else if 32 ≤ size then
    .error .shiftRange
  else do
    let (unused, victim) ← optimal_scan frames size limit.toNat future (2 ^ size - 1) none
    if unused = 0 then
      match victim with
      | none => .error .uninitialised
      | some v => do
          let k ← idx v
          let frames ← wr frames k page_no
          .ok (frames, page_faults + 1)
    else do
      let v ← optimal_first_unused 32 unused 0
      let frames ← wr frames v page_no
      .ok (frames, page_faults + 1)

/-- The steady-state loop `for (; cur < STRING_LEN; cur++)` of `optimal` over the trace
from position `cur` on. -/
def optimal_steady (size : Nat) (limit : Int) : List Int → List Int → Nat → Except Fault Nat
  | [], _, page_faults => .ok page_faults
  | page_no :: future, frames, page_faults => do
      let (frames, page_faults) ← optimal_step size limit frames page_faults page_no future
      optimal_steady size limit future frames page_faults

/-- The function `optimal(ref_str, size, limit)`. -/
def optimal (ref_str : List Int) (size : Nat) (limit : Int) : Except Fault Nat := do
  let w ← optimal_warmup size ref_str 0 0 (List.replicate size (-1)) 0
  optimal_steady size limit (ref_str.drop w.cur) w.frames w.page_faults

/-! ## The reference-string generator

`rand()` is a stream: `rand k` is the value returned by the `k`-th call, a natural number.
`lrand()` makes two calls, `(long)rand() * RAND_MAX + (long)rand()`, taken in a `long` wide
enough to hold the result.  The test `rand() < t * RAND_MAX` on the `double` `t` is a
predicate `jump` on the value drawn.  The buffer `ref_str` starts with arbitrary contents. -/

/-- The C remainder `a % b`: truncated, undefined for `b = 0`. -/
def c_rem (a b : Int) : Except Fault Int :=
  if b = 0 then .error .divByZero else .ok (Int.tmod a b)

/-- The value of `lrand()` when `calls` calls of `rand()` have been made so far. -/
def lrand (RAND_MAX : Nat) (rand : Nat → Nat) (calls : Nat) : Int :=
  (rand calls : Int) * (RAND_MAX : Int) + (rand (calls + 1) : Int)

/-- Local variables of `ref_string_generator`, with the buffer it fills and the number of
calls of `rand()` made so far. -/
structure GenState where
  ref_str : List Int
  ref_count : Nat
  locus_position : Int
  calls : Nat

/-- State of `ref_string_generator` on entry to its loop. -/
def gen_init (buffer : List Int) : GenState :=
  { ref_str := buffer, ref_count := 0, locus_position := 0, calls := 0 }

/-- Checked read of the trace buffer. -/
def rd_trace (a : List Int) (i : Nat) : Except Fault Int :=
  match a[i]? with
  | some v => .ok v
  | none => .error .traceIndex

/-- Checked write of the trace buffer. -/
def wr_trace (a : List Int) (i : Nat) (v : Int) : Except Fault (List Int) :=
  if i < a.length then .ok (a.set i v) else .error .traceIndex

/-- One iteration of the body of `while (ref_count < STRING_LEN)`.  The `int` expressions
`P - e + 1`, `locus + 1` and `locus + lrand() % e` are computed in unbounded integers: they
stay in the range of `int` whenever `0 < e ≤ P`, and the model does not follow the code on
parameters for which they leave it. -/
def gen_step (RAND_MAX : Nat) (rand : Nat → Nat) (jump : Nat → Bool) (P e m : Int)
    (s : GenState) : Except Fault GenState := do
  let r ← c_rem (lrand RAND_MAX rand s.calls) e
  let next_ref := r + s.locus_position
  let calls := s.calls + 2
  let fresh ←
    if s.ref_count = 0 then (.ok true : Except Fault Bool)
    else do
      let prev ← rd_trace s.ref_str (s.ref_count - 1)
      .ok (decide (next_ref ≠ prev))
  if fresh then do
    let ref_str ← wr_trace s.ref_str s.ref_count next_ref
    let ref_count := s.ref_count + 1
    let c ← c_rem (ref_count : Int) m
    if c = 0 then
      if jump (rand calls) then do
        let l ← c_rem (lrand RAND_MAX rand (calls + 1)) (P - e + 1)
        .ok { ref_str := ref_str, ref_count := ref_count, locus_position := l,
              calls := calls + 3 }
      else do
        let l ← c_rem (s.locus_position + 1) (P - e + 1)
        .ok { ref_str := ref_str, ref_count := ref_count, locus_position := l,
              calls := calls + 1 }
    else
      .ok { ref_str := ref_str, ref_count := ref_count,
            locus_position := s.locus_position, calls := calls }
  else
    .ok { s with calls := calls }

/-- The state of `ref_string_generator` after at most `n` iterations of its loop (fewer when
the loop condition `ref_count < STRING_LEN` fails earlier). -/
def gen_iterate (RAND_MAX : Nat) (rand : Nat → Nat) (jump : Nat → Bool) (P e m : Int) :
    Nat → GenState → Except Fault GenState
  | 0, s => .ok s
  | n + 1, s =>
      if s.ref_count < s.ref_str.length then do
        let s ← gen_step RAND_MAX rand jump P e m s
        gen_iterate RAND_MAX rand jump P e m n s
      else .ok s

/-! ## Notions used to state properties of the simulators -/

/-- The pages of a trace that are not in `seen`, each listed once, in order of first
occurrence. -/
def fresh : List Int → List Int → List Int
  | _, [] => []
  | seen, p :: t => if p ∈ seen then fresh seen t else p :: fresh (seen ++ [p]) t

/-- The distinct pages of a trace, in order of first occurrence. -/
def distinct_pages (tr : List Int) : List Int := fresh [] tr

/-- The number of positions `i ≥ 1` of a trace with `tr[i] ≠ tr[i-1]`. -/
def changes : List Int → Nat
  | [] => 0
  | [_] => 0
  | a :: b :: t => (if a ≠ b then 1 else 0) + changes (b :: t)

/-- The recency stack of LRU after a reference to `p` at index `i`: pairs of a page and the
index of its last reference, most recent first. -/
def touch (p i : Int) (st : List (Int × Int)) : List (Int × Int) :=
  (p, i) :: st.filter (fun x => x.1 ≠ p)

/-- The contents of the `s` frames of LRU that belong to the recency stack `st`, as pairs of
a frame and its timestamp, up to the order of the frames. -/
def lru_target (s : Nat) (st : List (Int × Int)) : List (Int × Int) :=
  st.take s ++ List.replicate (s - (st.take s).length) (-1, -1)

/-- The number of references of a trace outside the top `s` entries of the recency stack. -/
def stack_faults (s : Nat) : List (Int × Int) → Nat → List Int → Nat
  | _, _, [] => 0
  | st, i, p :: t =>
      (if p ∈ (st.take s).map Prod.fst then 0 else 1) + stack_faults s (touch p i st) (i + 1) t

/-- What one iteration of `fifo` does when no access is out of range. -/
def fifo_next (size : Nat) (s : FifoState) (p : Int) : FifoState :=
  if p ∈ s.frames then s
  else { frames := s.frames.set s.front p, front := (s.front + 1) % size,
         page_faults := s.page_faults + 1 }

/-- Well-formedness of the state of `fifo`. -/
def FifoInv (size : Nat) (s : FifoState) : Prop :=
  s.frames.length = size ∧ s.front < size

/-- Well-formedness of the state of `lru`. -/
def LruInv (size : Nat) (s : LruState) : Prop :=
  s.frames.length = size ∧ s.last_used.length = size

/-- Well-formedness of the state of `second_chance`. -/
def ScInv (size : Nat) (s : ScState) : Prop :=
  s.frames.length = size ∧ s.ref_bits.length = size ∧ s.pointer < size

/-- What holds of the generator between iterations: the entries written so far lie in
`[0, P)` and differ from their predecessor, and the locus lies in `[0, P - e]`. -/
def GenInv (P e : Int) (s : GenState) : Prop :=
  s.ref_count ≤ s.ref_str.length ∧ 0 ≤ s.locus_position ∧ s.locus_position ≤ P - e ∧
    (∀ i, i + 1 < s.ref_count → s.ref_str.getD (i + 1) 0 ≠ s.ref_str.getD i 0) ∧
    (∀ i, i < s.ref_count → 0 ≤ s.ref_str.getD i 0 ∧ s.ref_str.getD i 0 < P)

/-- Well-formedness of a recency stack at trace index `i`: pages are pairwise distinct and
non-negative, timestamps strictly decrease and lie in `[0, i)`. -/
def StackInv (i : Nat) (st : List (Int × Int)) : Prop :=
  st.Pairwise (fun x y => x.1 ≠ y.1 ∧ y.2 < x.2) ∧
    ∀ x ∈ st, 0 ≤ x.1 ∧ 0 ≤ x.2 ∧ x.2 < (i : Int)

/-- The state of `lru` with `s` frames holds the top of the recency stack `st`. -/
def LruRel (s : Nat) (c : LruState) (st : List (Int × Int)) : Prop :=
  c.frames.length = s ∧ c.last_used.length = s ∧
    (c.frames.zip c.last_used).Perm (lru_target s st)

/-- The effect of one reference on the frames and the fault count that the three
single-pass simulators have in common: a resident page changes neither, any other page is
written into some frame and counted. -/
def PageStep (size : Nat) (fr : List Int) (pf : Nat) (p : Int) (fr2 : List Int) (pf2 : Nat) :
    Prop :=
  fr2.length = size ∧
    ((p ∈ fr ∧ fr2 = fr ∧ pf2 = pf) ∨
      (p ∉ fr ∧ (∃ v, v < size ∧ fr2 = fr.set v p) ∧ pf2 = pf + 1))

/-- A sequence of `PageStep`s along a trace. -/
inductive PageRun (size : Nat) : List Int → Nat → List Int → List Int → Nat → Prop where
  | nil (fr : List Int) (pf : Nat) : PageRun size fr pf [] fr pf
  | cons {fr fr1 fr2 : List Int} {pf pf1 pf2 : Nat} {p : Int} {t : List Int} :
      PageStep size fr pf p fr1 pf1 → PageRun size fr1 pf1 t fr2 pf2 →
      PageRun size fr pf (p :: t) fr2 pf2

/-- The pages of a trace at which `fifo`, started in state `s`, counts a fault, in order. -/
def fifo_fault_pages (size : Nat) : FifoState → List Int → List Int
  | _, [] => []
  | s, p :: t =>
      match fifo_step size s p with
      | .ok s2 =>
          (if s2.page_faults = s.page_faults then [] else [p]) ++ fifo_fault_pages size s2 t
      | .error _ => []

/-- The pages on which a first-in first-out queue of `size` pages misses along a trace, after
the misses `L` so far, in order: a reference is a hit when its page is one of the last `size`
misses, and otherwise it is the next miss.  It is stated on the trace alone, without the
frames. -/
def fifo_queue_faults (size : Nat) : List Int → List Int → List Int
  | L, [] => L
  | L, p :: t =>
      if p ∈ L.drop (L.length - size) then fifo_queue_faults size L t
      else fifo_queue_faults size (L ++ [p]) t

/-- The state of `fifo` after the faults listed in `L` (fault number `f` being on page
`L[f]`): the pointer is the number of faults modulo `size`, and every frame is either still
empty or holds the page of one of the last `size` faults, the one whose number is congruent
to the index of the frame. -/
def FifoHist (size : Nat) (s : FifoState) (L : List Int) : Prop :=
  s.frames.length = size ∧ s.front = L.length % size ∧ s.page_faults = L.length ∧
    (∀ x ∈ L, 0 ≤ x) ∧
    ∀ j, j < size →
      (L.length ≤ j ∧ s.frames.getD j 0 = -1) ∨
        ∃ f, f < L.length ∧ L.length ≤ f + size ∧ f % size = j ∧
          s.frames.getD j 0 = L.getD f 0

/-- Every timestamp of the recency stack is the index of the last reference to its page in
the part `pre` of the trace processed so far. -/
def StackTs (pre : List Int) (st : List (Int × Int)) : Prop :=
  ∀ x ∈ st, ∃ t : Nat, x.2 = (t : Int) ∧ t < pre.length ∧ pre.getD t 0 = x.1 ∧
    ∀ t2, t < t2 → t2 < pre.length → pre.getD t2 0 ≠ x.1

/-- What holds of the state `c` of `lru` with `s` frames after the references `pre`: it holds
the top of a well-formed recency stack whose pages are the distinct pages of `pre`, most
recent first, with the index of their last reference. -/
def LruFull (s : Nat) (pre : List Int) (c : LruState) : Prop :=
  ∃ st, LruRel s c st ∧ StackInv pre.length st ∧
    st.map Prod.fst = distinct_pages pre.reverse ∧ StackTs pre st

/-- The meaning of the bit mask `unused` of `optimal` once the references `S` have been
scanned: bit `j` is set exactly for the frames `j < size` whose page is not in `S`. -/
def MaskInv (frames : List Int) (size : Nat) (u : Nat) (S : List Int) : Prop :=
  ∀ j, u.testBit j = true ↔ (j < size ∧ frames.getD j 0 ∉ S)

/-- Local variables of `optimal` that live across the iterations of its two loops. -/
structure OptState where
  frames : List Int
  i : Nat
  cur : Nat
  page_faults : Nat

/-- State of `optimal` on entry to the warm-up loop. -/
def optimal_init (size : Nat) : OptState :=
  { frames := List.replicate size (-1), i := 0, cur := 0, page_faults := 0 }

/-- One iteration of `optimal` on the reference `page_no = ref_str[cur]`, `future` being the
trace from position `cur + 1` on: the body of the warm-up loop while `i < size`, the body of
the steady-state loop afterwards. -/
def optimal_iter (size : Nat) (limit : Int) (s : OptState) (page_no : Int)
    (future : List Int) : Except Fault OptState :=
  if s.i < size then do
    let frame_no ← locate s.frames size page_no
    if frame_no ≥ 0 then
      .ok { s with cur := s.cur + 1 }
    else do
      let frames ← wr s.frames s.i page_no
      .ok { frames := frames, i := s.i + 1, cur := s.cur + 1,
            page_faults := s.page_faults + 1 }
  else do
    let (frames, page_faults) ← optimal_step size limit s.frames s.page_faults page_no future
    .ok { s with frames := frames, cur := s.cur + 1, page_faults := page_faults }

/-- The state of `optimal` after its loops have processed the first `n` references of the
trace (all of them when the trace is shorter). -/
def optimal_upto (size : Nat) (limit : Int) : Nat → List Int → OptState → Except Fault OptState
  | 0, _, s => .ok s
  | _ + 1, [], s => .ok s
  | n + 1, page_no :: future, s => do
      let s ← optimal_iter size limit s page_no future
      optimal_upto size limit n future s

/-- No page is resident in two frames: a frame that is not empty holds a page different from
the contents of every other frame. -/
def ResidentOnce (frames : List Int) : Prop :=
  ∀ j k, j < frames.length → k < frames.length → j ≠ k → frames.getD j 0 ≠ -1 →
    frames.getD j 0 ≠ frames.getD k 0

/-- What holds of the state of `optimal` between iterations: the first `i` frames hold
pairwise distinct non-negative pages and the other frames are empty. -/
def OptInv (size : Nat) (s : OptState) : Prop :=
  s.i ≤ size ∧ ∃ F : List Int, F.length = s.i ∧
    s.frames = F ++ List.replicate (size - s.i) (-1) ∧ F.Nodup ∧ ∀ q ∈ F, 0 ≤ q

/-! ## Array accesses and `locate` -/

theorem rd_eq {a : List Int} {i : Nat} (h : i < a.length) : rd a i = .ok a[i] := by
  simp [rd, List.getElem?_eq_getElem h]

theorem wr_eq {a : List Int} {i : Nat} (h : i < a.length) (v : Int) :
    wr a i v = .ok (a.set i v) := by
  simp [wr, h]

theorem idx_eq {i : Int} (h : 0 ≤ i) : idx i = .ok i.toNat := by
  simp [idx, h]

theorem locate_from_eq (frames : List Int) (p : Int) :
    ∀ n i, i + n = frames.length →
      locate_from frames p n i =
        .ok (if p ∈ frames.drop i then ((i + (frames.drop i).indexOf p : Nat) : Int) else -1) := by
  intro n
  induction n with
  | zero =>
    intro i h
    have : frames.drop i = [] := by
      apply List.drop_eq_nil_of_le; omega
    simp [locate_from, this]
  | succ n ih =>
    intro i h
    have hi : i < frames.length := by omega
    have hd : frames.drop i = frames[i] :: frames.drop (i + 1) := List.drop_eq_getElem_cons hi
    rw [locate_from, rd_eq hi]
    by_cases hp : frames[i] = p
    · simp [hd, hp, bind, Except.bind]
    · have hp' : ¬ p = frames[i] := fun h => hp h.symm
      simp only [bind, Except.bind, hp, if_false]
      rw [ih (i + 1) (by omega), hd]
      generalize frames.drop (i + 1) = t
      by_cases hm : p ∈ t
      · simp only [hm, List.mem_cons, or_true, if_true, List.indexOf_cons_ne _ hp]
        congr 2
        omega
      · simp [hm, hp']

theorem locate_eq (frames : List Int) (p : Int) :
    locate frames frames.length p =
      .ok (if p ∈ frames then (frames.indexOf p : Int) else -1) := by
  have := locate_from_eq frames p frames.length 0 (by simp)
  simpa [locate] using this

theorem locate_mem {frames : List Int} {p : Int} (h : p ∈ frames) :
    locate frames frames.length p = .ok (frames.indexOf p : Int) := by
  rw [locate_eq, if_pos h]

theorem locate_not_mem {frames : List Int} {p : Int} (h : p ∉ frames) :
    locate frames frames.length p = .ok (-1) := by
  rw [locate_eq, if_neg h]

/-! ## FIFO: shape of a step -/

theorem fifo_step_eq {size : Nat} {s : FifoState} (p : Int)
    (hl : s.frames.length = size) (hf : s.front < size) :
    fifo_step size s p = .ok (fifo_next size s p) := by
  subst hl
  unfold fifo_step fifo_next
  by_cases hm : p ∈ s.frames
  · simp [locate_mem hm, hm, bind, Except.bind]
  · have h0 : s.frames.length ≠ 0 := by omega
    simp [locate_not_mem hm, hm, bind, Except.bind, wr_eq hf, h0]

theorem rd_getD {a : List Int} {i : Nat} (h : i < a.length) : rd a i = .ok (a.getD i 0) := by
  simp [rd, List.getD, List.getElem?_eq_getElem h]

/-! ## LRU: shape of a step -/

theorem lru_scan_spec (lu : List Int) :
    ∀ n j c, j + n = lu.length → c < j → (∀ k, k < j → lu.getD c 0 ≤ lu.getD k 0) →
      ∃ r, lru_scan lu n j c = .ok r ∧ r < lu.length ∧
        ∀ k, k < lu.length → lu.getD r 0 ≤ lu.getD k 0 := by
  intro n
  induction n with
  | zero =>
    intro j c hj hc hmin
    refine ⟨c, by simp [lru_scan], by omega, fun k hk => hmin k (by omega)⟩
  | succ n ih =>
    intro j c hj hc hmin
    have h1 : j < lu.length := by omega
    have h2 : c < lu.length := by omega
    rw [lru_scan, rd_getD h1, rd_getD h2]
    simp only [bind, Except.bind]
    by_cases hlt : lu.getD j 0 < lu.getD c 0
    · rw [if_pos hlt]
      apply ih (j + 1) j (by omega) (by omega)
      intro k hk
      rcases Nat.lt_succ_iff_lt_or_eq.mp hk with h | h
      · have := hmin k h; omega
      · subst h; exact le_refl _
    · rw [if_neg hlt]
      apply ih (j + 1) c (by omega) (by omega)
      intro k hk
      rcases Nat.lt_succ_iff_lt_or_eq.mp hk with h | h
      · exact hmin k h
      · subst h; omega

theorem lru_step_hit {size : Nat} {s : LruState} (i : Nat) {p : Int}
    (hl : s.frames.length = size) (hu : s.last_used.length = size) (hm : p ∈ s.frames) :
    lru_step size s i p =
      .ok { s with last_used := s.last_used.set (s.frames.indexOf p) (i : Int) } := by
  subst hl
  have hk : s.frames.indexOf p < s.last_used.length := by
    rw [hu]; exact List.indexOf_lt_length.mpr hm
  unfold lru_step
  simp [locate_mem hm, bind, Except.bind, idx, wr_eq hk]

theorem lru_step_miss {size : Nat} {s : LruState} (i : Nat) {p : Int}
    (hl : s.frames.length = size) (hu : s.last_used.length = size) (h1 : 1 ≤ size)
    (hm : p ∉ s.frames) :
    ∃ r, r < size ∧ (∀ k, k < size → s.last_used.getD r 0 ≤ s.last_used.getD k 0) ∧
      lru_step size s i p =
        .ok { frames := s.frames.set r p, last_used := s.last_used.set r (i : Int),
              page_faults := s.page_faults + 1 } := by
  subst hl
  obtain ⟨r, hr, hrl, hmin⟩ := lru_scan_spec s.last_used (s.frames.length - 1) 1 0
    (by omega) (by omega) (by
      intro k hk
      have : k = 0 := by omega
      subst this; exact le_refl _)
  refine ⟨r, by omega, fun k hk => hmin k (by omega), ?_⟩
  unfold lru_step
  have hr1 : r < s.frames.length := by omega
  simp [locate_not_mem hm, bind, Except.bind, hr, wr_eq hrl, wr_eq hr1]

/-! ## Second chance: shape of a step -/

theorem count_set_zero (bits : List Int) (k : Nat) (hk : k < bits.length)
    (h1 : bits.getD k 0 = 1) : (bits.set k 0).count 1 + 1 = bits.count 1 := by
  induction bits generalizing k with
  | nil => simp at hk
  | cons b t ih =>
    cases k with
    | zero =>
      simp at h1
      subst h1
      simp
    | succ k =>
      simp at hk h1
      have := ih k hk (by simpa using h1)
      simp only [List.set_cons_succ, List.count_cons]
      omega

theorem sc_scan_stop (size fuel : Nat) {bits : List Int} {ptr : Nat}
    (hp : ptr < bits.length) (h : bits.getD ptr 0 ≠ 1) :
    sc_scan size fuel bits ptr = .ok (bits, ptr) := by
  cases fuel <;> simp only [sc_scan, rd_getD hp, bind, Except.bind, h, ↓reduceIte]

theorem sc_scan_spec (size : Nat) (h1 : 1 ≤ size) :
    ∀ fuel bits ptr, bits.length = size → ptr < size → bits.count 1 ≤ fuel →
      ∃ bits2 ptr2, sc_scan size fuel bits ptr = .ok (bits2, ptr2) ∧
        bits2.length = size ∧ ptr2 < size ∧ bits2.getD ptr2 0 ≠ 1 := by
  intro fuel
  induction fuel with
  | zero =>
    intro bits ptr hl hp hc
    have hp' : ptr < bits.length := by omega
    have hne : bits.getD ptr 0 ≠ 1 := by
      intro h
      have hmem : (1 : Int) ∈ bits := by
        rw [← h, List.getD_eq_getElem _ _ hp']
        exact List.getElem_mem _
      have := List.count_pos_iff.mpr hmem
      omega
    exact ⟨bits, ptr, sc_scan_stop size 0 hp' hne, hl, hp, hne⟩
  | succ fuel ih =>
    intro bits ptr hl hp hc
    have hp' : ptr < bits.length := by omega
    by_cases hb : bits.getD ptr 0 = 1
    · have hs0 : size ≠ 0 := by omega
      have hcnt := count_set_zero bits ptr hp' hb
      obtain ⟨b2, p2, hscan, hl2, hp2, hne2⟩ := ih (bits.set ptr 0) ((ptr + 1) % size)
        (by simpa using hl) (Nat.mod_lt _ (by omega)) (by omega)
      refine ⟨b2, p2, ?_, hl2, hp2, hne2⟩
      rw [sc_scan, rd_getD hp']
      simp only [bind, Except.bind, hb, wr_eq hp', hs0, hscan, ↓reduceIte]
    · exact ⟨bits, ptr, sc_scan_stop size _ hp' hb, hl, hp, hb⟩

theorem sc_step_hit (fuel : Nat) {size : Nat} {s : ScState} {p : Int}
    (hl : s.frames.length = size) (hb : s.ref_bits.length = size) (hm : p ∈ s.frames) :
    sc_step fuel size s p =
      .ok { s with ref_bits := s.ref_bits.set (s.frames.indexOf p) 1 } := by
  subst hl
  have hk : s.frames.indexOf p < s.ref_bits.length := by
    rw [hb]; exact List.indexOf_lt_length.mpr hm
  unfold sc_step
  simp [locate_mem hm, bind, Except.bind, idx, wr_eq hk]

theorem sc_step_miss {fuel size : Nat} {s : ScState} {p : Int}
    (hl : s.frames.length = size) (hb : s.ref_bits.length = size) (hp : s.pointer < size)
    (hf : size ≤ fuel) (hm : p ∉ s.frames) :
    ∃ bits2 ptr2, sc_scan size fuel s.ref_bits s.pointer = .ok (bits2, ptr2) ∧
      bits2.length = size ∧ ptr2 < size ∧
      sc_step fuel size s p =
        .ok { frames := s.frames.set ptr2 p, ref_bits := bits2.set ptr2 1,
              pointer := (ptr2 + 1) % size, page_faults := s.page_faults + 1 } := by
  have h1 : 1 ≤ size := by omega
  have hc : s.ref_bits.count 1 ≤ fuel := by
    have := List.count_le_length (1 : Int) s.ref_bits
    omega
  obtain ⟨b2, p2, hscan, hl2, hp2, _⟩ := sc_scan_spec size h1 fuel s.ref_bits s.pointer hb hp hc
  refine ⟨b2, p2, hscan, hl2, hp2, ?_⟩
  subst hl
  have hs0 : s.frames.length ≠ 0 := by omega
  have hp3 : p2 < b2.length := by omega
  unfold sc_step
  simp [locate_not_mem hm, bind, Except.bind, hscan, wr_eq hp2, wr_eq hp3, hs0]

theorem sc_step_miss_free (fuel : Nat) {size : Nat} {s : ScState} {p : Int}
    (hl : s.frames.length = size) (hb : s.ref_bits.length = size) (hp : s.pointer < size)
    (h0 : s.ref_bits.getD s.pointer 0 ≠ 1) (hm : p ∉ s.frames) :
    sc_step fuel size s p =
      .ok { frames := s.frames.set s.pointer p, ref_bits := s.ref_bits.set s.pointer 1,
            pointer := (s.pointer + 1) % size, page_faults := s.page_faults + 1 } := by
  subst hl
  have hs0 : s.frames.length ≠ 0 := by omega
  have hp3 : s.pointer < s.ref_bits.length := by omega
  unfold sc_step
  simp [locate_not_mem hm, bind, Except.bind, sc_scan_stop _ fuel hp3 h0, wr_eq hp, wr_eq hp3,
    hs0]

/-! ## The three single-pass simulators never leave defined behaviour -/

theorem fifo_next_inv {size : Nat} {s : FifoState} (p : Int) (h : FifoInv size s) :
    FifoInv size (fifo_next size s p) := by
  obtain ⟨hl, hf⟩ := h
  unfold fifo_next
  split
  · exact ⟨hl, hf⟩
  · exact ⟨by simpa using hl, Nat.mod_lt _ (by omega)⟩

theorem fifo_run_cons {size : Nat} {s : FifoState} (p : Int) (rest : List Int)
    (h : FifoInv size s) :
    fifo_run size s (p :: rest) = fifo_run size (fifo_next size s p) rest := by
  rw [fifo_run, fifo_step_eq p h.1 h.2]
  rfl

theorem fifo_run_ok {size : Nat} (tr : List Int) :
    ∀ s, FifoInv size s → ∃ s2, fifo_run size s tr = .ok s2 ∧ FifoInv size s2 := by
  induction tr with
  | nil => intro s h; exact ⟨s, rfl, h⟩
  | cons p rest ih =>
    intro s h
    rw [fifo_run_cons p rest h]
    exact ih _ (fifo_next_inv p h)

theorem fifo_init_inv {size : Nat} (h : 1 ≤ size) : FifoInv size (fifo_init size) := by
  refine ⟨by simp [fifo_init], ?_⟩
  show 0 < size
  omega

theorem lru_step_ok {size : Nat} {s : LruState} (i : Nat) (p : Int) (h1 : 1 ≤ size)
    (h : LruInv size s) : ∃ s2, lru_step size s i p = .ok s2 ∧ LruInv size s2 := by
  obtain ⟨hl, hu⟩ := h
  by_cases hm : p ∈ s.frames
  · exact ⟨_, lru_step_hit i hl hu hm, hl, by simpa using hu⟩
  · obtain ⟨r, _, _, hs⟩ := lru_step_miss i hl hu h1 hm
    exact ⟨_, hs, by simpa using hl, by simpa using hu⟩

theorem lru_run_ok {size : Nat} (h1 : 1 ≤ size) (tr : List Int) :
    ∀ s i, LruInv size s → ∃ s2, lru_run size s i tr = .ok s2 ∧ LruInv size s2 := by
  induction tr with
  | nil => intro s i h; exact ⟨s, rfl, h⟩
  | cons p rest ih =>
    intro s i h
    obtain ⟨s1, hs, hi⟩ := lru_step_ok i p h1 h
    obtain ⟨s2, hr, hi2⟩ := ih s1 (i + 1) hi
    refine ⟨s2, ?_, hi2⟩
    rw [lru_run, hs]
    exact hr

theorem sc_scan_succ (size : Nat) :
    ∀ fuel bits ptr r, sc_scan size fuel bits ptr = .ok r →
      sc_scan size (fuel + 1) bits ptr = .ok r := by
  intro fuel
  induction fuel with
  | zero =>
    intro bits ptr r h
    rw [sc_scan] at h
    rw [sc_scan]
    cases hrd : rd bits ptr with
    | error e => simp [hrd, bind, Except.bind] at h
    | ok b =>
      by_cases hb : b = 1
      · simp [hrd, bind, Except.bind, hb] at h
      · simpa [hrd, bind, Except.bind, hb] using h
  | succ fuel ih =>
    intro bits ptr r h
    rw [sc_scan] at h
    rw [sc_scan]
    cases hrd : rd bits ptr with
    | error e => simp [hrd, bind, Except.bind] at h
    | ok b =>
      by_cases hb : b = 1
      · cases hwr : wr bits ptr 0 with
        | error e => simp [hrd, bind, Except.bind, hb, hwr] at h
        | ok bits2 =>
          by_cases hs : size = 0
          · simp [hrd, bind, Except.bind, hb, hwr, hs] at h
          · simp only [hrd, bind, Except.bind, hb, hwr, hs, ↓reduceIte] at h ⊢
            exact ih _ _ _ h
      · simpa [hrd, bind, Except.bind, hb] using h

theorem sc_scan_mono (size : Nat) {fuel fuel2 : Nat} (hle : fuel ≤ fuel2) {bits : List Int}
    {ptr : Nat} {r : List Int × Nat} (h : sc_scan size fuel bits ptr = .ok r) :
    sc_scan size fuel2 bits ptr = .ok r := by
  induction hle with
  | refl => exact h
  | step _ ih => exact sc_scan_succ size _ _ _ _ ih

theorem sc_step_mono {size fuel fuel2 : Nat} (hle : fuel ≤ fuel2) {s s2 : ScState} {p : Int}
    (h : sc_step fuel size s p = .ok s2) : sc_step fuel2 size s p = .ok s2 := by
  unfold sc_step at h ⊢
  cases hloc : locate s.frames size p with
  | error e => simp [hloc, bind, Except.bind] at h
  | ok f =>
    by_cases hf : f ≥ 0
    · simpa [hloc, bind, Except.bind, hf] using h
    · cases hsc : sc_scan size fuel s.ref_bits s.pointer with
      | error e => simp [hloc, bind, Except.bind, hf, hsc] at h
      | ok r =>
        have := sc_scan_mono size hle hsc
        simpa [hloc, bind, Except.bind, hf, hsc, this] using h

theorem sc_run_mono {size fuel fuel2 : Nat} (hle : fuel ≤ fuel2) (tr : List Int) :
    ∀ s s2, sc_run fuel size s tr = .ok s2 → sc_run fuel2 size s tr = .ok s2 := by
  induction tr with
  | nil => intro s s2 h; exact h
  | cons p rest ih =>
    intro s s2 h
    rw [sc_run] at h ⊢
    cases hst : sc_step fuel size s p with
    | error e => simp [hst, bind, Except.bind] at h
    | ok s1 =>
      rw [sc_step_mono hle hst]
      simp only [hst, bind, Except.bind] at h ⊢
      exact ih _ _ h

theorem second_chance_mono {size fuel fuel2 : Nat} (hle : fuel ≤ fuel2) {tr : List Int}
    {n : Nat} (h : second_chance fuel tr size = .ok n) :
    second_chance fuel2 tr size = .ok n := by
  unfold second_chance at h ⊢
  cases hr : sc_run fuel size (sc_init size) tr with
  | error e => simp [hr, bind, Except.bind] at h
  | ok s =>
    rw [sc_run_mono hle tr _ _ hr]
    simpa [hr, bind, Except.bind] using h

theorem sc_step_ok {size : Nat} {s : ScState} (p : Int) (h1 : 1 ≤ size) (h : ScInv size s) :
    ∃ s2, sc_step size size s p = .ok s2 ∧ ScInv size s2 := by
  obtain ⟨hl, hb, hp⟩ := h
  by_cases hm : p ∈ s.frames
  · exact ⟨_, sc_step_hit size hl hb hm, hl, by simpa using hb, hp⟩
  · obtain ⟨b2, p2, _, hl2, hp2, hs⟩ := sc_step_miss hl hb hp (le_refl size) hm
    exact ⟨_, hs, by simpa using hl, by simpa using hl2, Nat.mod_lt _ (by omega)⟩

theorem sc_run_ok {size : Nat} (h1 : 1 ≤ size) (tr : List Int) :
    ∀ s, ScInv size s → ∃ s2, sc_run size size s tr = .ok s2 ∧ ScInv size s2 := by
  induction tr with
  | nil => intro s h; exact ⟨s, rfl, h⟩
  | cons p rest ih =>
    intro s h
    obtain ⟨s1, hs, hi⟩ := sc_step_ok p h1 h
    obtain ⟨s2, hr, hi2⟩ := ih s1 hi
    refine ⟨s2, ?_, hi2⟩
    rw [sc_run, hs]
    exact hr

theorem lru_init_inv (size : Nat) : LruInv size (lru_init size) := by
  simp [LruInv, lru_init]

theorem sc_init_inv {size : Nat} (h1 : 1 ≤ size) : ScInv size (sc_init size) := by
  refine ⟨by simp [sc_init], by simp [sc_init], ?_⟩
  show 0 < size
  omega

/-- C10: with at least one frame `fifo`, `lru` and `second_chance` return a fault count on
every trace: no array access is out of range, no remainder is taken by zero, and a budget of
`size` pointer advances per victim search is enough for `second_chance` (a larger budget
gives the same count). -/
theorem single_pass_simulators_total (tr : List Int) (size : Nat) (h1 : 1 ≤ size) :
    (∃ n, fifo tr size = .ok n) ∧ (∃ n, lru tr size = .ok n) ∧
      (∃ n, ∀ fuel, size ≤ fuel → second_chance fuel tr size = .ok n) := by
  refine ⟨?_, ?_, ?_⟩
  · obtain ⟨s, hs, _⟩ := fifo_run_ok tr _ (fifo_init_inv h1)
    exact ⟨s.page_faults, by simp [fifo, hs, bind, Except.bind]⟩
  · obtain ⟨s, hs, _⟩ := lru_run_ok h1 tr _ 0 (lru_init_inv size)
    exact ⟨s.page_faults, by simp [lru, hs, bind, Except.bind]⟩
  · obtain ⟨s, hs, _⟩ := sc_run_ok h1 tr _ (sc_init_inv h1)
    refine ⟨s.page_faults, fun fuel hf => second_chance_mono hf ?_⟩
    simp [second_chance, hs, bind, Except.bind]

/-! ## A single frame -/

theorem changes_cons_cons (a b : Int) (t : List Int) :
    changes (a :: b :: t) = (if a ≠ b then 1 else 0) + changes (b :: t) := rfl

theorem changes_chain (tr : List Int) (h : tr.Chain' (fun a b => a ≠ b)) (hne : tr ≠ []) :
    1 + changes tr = tr.length := by
  induction tr with
  | nil => exact absurd rfl hne
  | cons a t ih =>
    cases t with
    | nil => simp [changes]
    | cons b t =>
      rw [List.chain'_cons] at h
      have := ih h.2 (by simp)
      rw [changes_cons_cons, if_pos h.1]
      simp only [List.length_cons] at this ⊢
      omega

theorem fifo_one (tr : List Int) :
    ∀ q pf, ∃ q2, fifo_run 1 ⟨[q], 0, pf⟩ tr = .ok ⟨[q2], 0, pf + changes (q :: tr)⟩ := by
  induction tr with
  | nil => intro q pf; exact ⟨q, rfl⟩
  | cons p rest ih =>
    intro q pf
    rw [@fifo_run_cons 1 ⟨[q], 0, pf⟩ p rest ⟨rfl, Nat.zero_lt_one⟩,
      changes_cons_cons]
    by_cases h : q = p
    · subst h
      obtain ⟨q2, h2⟩ := ih q pf
      exact ⟨q2, by simpa [fifo_next] using h2⟩
    · have hp : ¬ p = q := fun e => h e.symm
      obtain ⟨q2, h2⟩ := ih p (pf + 1)
      refine ⟨q2, ?_⟩
      simp only [fifo_next, List.mem_singleton, hp, if_false, List.set_cons_zero]
      rw [h2, if_pos h]
      congr 2
      omega

theorem lru_one (tr : List Int) :
    ∀ q t i pf, ∃ q2 t2,
      lru_run 1 ⟨[q], [t], pf⟩ i tr = .ok ⟨[q2], [t2], pf + changes (q :: tr)⟩ := by
  induction tr with
  | nil => intro q t i pf; exact ⟨q, t, rfl⟩
  | cons p rest ih =>
    intro q t i pf
    rw [lru_run, changes_cons_cons]
    by_cases h : q = p
    · subst h
      rw [@lru_step_hit 1 ⟨[q], [t], pf⟩ i q rfl rfl (by simp)]
      obtain ⟨q2, t2, h2⟩ := ih q (i : Int) (i + 1) pf
      exact ⟨q2, t2, by simpa [bind, Except.bind] using h2⟩
    · have hp : p ∉ [q] := by simpa using fun e => h e.symm
      obtain ⟨r, hr, _, hs⟩ :=
        @lru_step_miss 1 ⟨[q], [t], pf⟩ i p rfl rfl (le_refl 1) hp
      have hr0 : r = 0 := by omega
      subst hr0
      rw [hs]
      obtain ⟨q2, t2, h2⟩ := ih p (i : Int) (i + 1) (pf + 1)
      refine ⟨q2, t2, ?_⟩
      simp only [bind, Except.bind, List.set_cons_zero]
      rw [h2, if_pos h]
      congr 2
      omega

theorem sc_one (tr : List Int) :
    ∀ q b pf, ∃ q2 b2,
      sc_run 1 1 ⟨[q], [b], 0, pf⟩ tr = .ok ⟨[q2], [b2], 0, pf + changes (q :: tr)⟩ := by
  induction tr with
  | nil => intro q b pf; exact ⟨q, b, rfl⟩
  | cons p rest ih =>
    intro q b pf
    rw [sc_run, changes_cons_cons]
    by_cases h : q = p
    · subst h
      rw [@sc_step_hit 1 1 ⟨[q], [b], 0, pf⟩ q rfl rfl (by simp)]
      obtain ⟨q2, b2, h2⟩ := ih q 1 pf
      exact ⟨q2, b2, by simpa [bind, Except.bind] using h2⟩
    · have hp : p ∉ [q] := by simpa using fun e => h e.symm
      obtain ⟨bits2, ptr2, _, hl2, hp2, hs⟩ :=
        @sc_step_miss 1 1 ⟨[q], [b], 0, pf⟩ p rfl rfl Nat.zero_lt_one (le_refl 1) hp
      have hr0 : ptr2 = 0 := by omega
      subst hr0
      rw [hs]
      obtain ⟨c, hc⟩ : ∃ c, bits2 = [c] := by
        match bits2, hl2 with
        | [c], _ => exact ⟨c, rfl⟩
      subst hc
      obtain ⟨q2, b2, h2⟩ := ih p 1 (pf + 1)
      refine ⟨q2, b2, ?_⟩
      simp only [bind, Except.bind, List.set_cons_zero]
      rw [h2, if_pos h]
      congr 2
      omega

theorem optimal_scan_zero (frames : List Int) (size n : Nat) (fut : List Int)
    (v : Option Int) : optimal_scan frames size n fut 0 v = .ok (0, v) := by
  cases n with
  | zero => rfl
  | succ n =>
    cases fut with
    | nil => rfl
    | cons r fut => simp [optimal_scan]

theorem optimal_scan_one (q : Int) (fut : List Int) :
    ∀ n v0, ∃ u v, optimal_scan [q] 1 n fut 1 v0 = .ok (u, v) ∧
      (u = 1 ∨ (u = 0 ∧ v = some 0)) := by
  induction fut with
  | nil =>
    intro n v0
    cases n <;> exact ⟨1, v0, rfl, Or.inl rfl⟩
  | cons r fut ih =>
    intro n v0
    cases n with
    | zero => exact ⟨1, v0, rfl, Or.inl rfl⟩
    | succ n =>
      have hloc := locate_eq [q] r
      simp only [List.length_singleton] at hloc
      by_cases h : r = q
      · subst h
        refine ⟨0, some 0, ?_, Or.inr ⟨rfl, rfl⟩⟩
        simp only [optimal_scan, hloc, bind, Except.bind]
        simp
        exact optimal_scan_zero _ _ _ _ _
      · obtain ⟨u, v, huv, hcase⟩ := ih n (some (-1))
        refine ⟨u, v, ?_, hcase⟩
        simp only [optimal_scan, hloc, bind, Except.bind]
        simpa [h] using huv

theorem optimal_step_one (limit : Int) (q x : Int) (pf : Nat) (fut : List Int) :
    optimal_step 1 limit [q] pf x fut =
      .ok (if x = q then ([q], pf) else ([x], pf + 1)) := by
  have hloc := locate_eq [q] x
  simp only [List.length_singleton] at hloc
  unfold optimal_step
  by_cases h : x = q
  · subst h
    simp [hloc, bind, Except.bind]
  · obtain ⟨u, v, huv, hcase⟩ := optimal_scan_one q fut limit.toNat none
    have h2 : (2 : Nat) ^ 1 - 1 = 1 := rfl
    rcases hcase with hu | ⟨hu, hv⟩
    · subst hu
      simp [hloc, bind, Except.bind, h, huv, optimal_first_unused, wr]
    · subst hu; subst hv
      simp [hloc, bind, Except.bind, h, huv, idx, wr]

theorem optimal_steady_one (limit : Int) (fut : List Int) :
    ∀ q pf, optimal_steady 1 limit fut [q] pf = .ok (pf + changes (q :: fut)) := by
  induction fut with
  | nil => intro q pf; rfl
  | cons x fut ih =>
    intro q pf
    rw [optimal_steady, optimal_step_one, changes_cons_cons]
    by_cases h : x = q
    · subst h
      simpa [bind, Except.bind] using ih x pf
    · have hq : q ≠ x := fun e => h e.symm
      simp only [bind, Except.bind, h, if_false, if_pos hq]
      rw [ih x (pf + 1)]
      congr 1
      omega

theorem optimal_one (limit : Int) (p : Int) (rest : List Int) (hp : 0 ≤ p) :
    optimal (p :: rest) 1 limit = .ok (1 + changes (p :: rest)) := by
  have hm : p ∉ [(-1 : Int)] := by
    simp only [List.mem_singleton]; omega
  have hloc := locate_not_mem hm
  simp only [List.length_singleton] at hloc
  have hw : optimal_warmup 1 (p :: rest) 0 0 [-1] 0 = .ok ⟨[p], 1, 1⟩ := by
    rw [optimal_warmup]
    simp only [Nat.zero_lt_one, if_true, hloc, bind, Except.bind]
    cases rest <;> simp [optimal_warmup, wr]
  unfold optimal
  simp only [List.replicate_one, hw, bind, Except.bind, List.drop_succ_cons, List.drop_zero]
  exact optimal_steady_one limit rest p 1

theorem fifo_single (p : Int) (rest : List Int) (hp : 0 ≤ p) :
    fifo (p :: rest) 1 = .ok (1 + changes (p :: rest)) := by
  have hm : p ∉ [(-1 : Int)] := by
    simp only [List.mem_singleton]; omega
  obtain ⟨q2, h2⟩ := fifo_one rest p 1
  unfold fifo
  rw [show fifo_init 1 = ⟨[-1], 0, 0⟩ from rfl,
    @fifo_run_cons 1 ⟨[-1], 0, 0⟩ p rest ⟨rfl, Nat.zero_lt_one⟩]
  simp only [fifo_next, hm, if_false, List.set_cons_zero]
  simp [h2, bind, Except.bind]

theorem lru_single (p : Int) (rest : List Int) (hp : 0 ≤ p) :
    lru (p :: rest) 1 = .ok (1 + changes (p :: rest)) := by
  have hm : p ∉ [(-1 : Int)] := by
    simp only [List.mem_singleton]; omega
  obtain ⟨q2, t2, h2⟩ := lru_one rest p 0 1 1
  obtain ⟨r, hr, _, hs⟩ :=
    @lru_step_miss 1 ⟨[-1], [-1], 0⟩ 0 p rfl rfl (le_refl 1) hm
  have hr0 : r = 0 := by omega
  subst hr0
  unfold lru
  rw [show lru_init 1 = ⟨[-1], [-1], 0⟩ from rfl, lru_run, hs]
  simp only [bind, Except.bind, List.set_cons_zero]
  simp [h2, bind, Except.bind]

theorem sc_single (p : Int) (rest : List Int) (hp : 0 ≤ p) :
    second_chance 1 (p :: rest) 1 = .ok (1 + changes (p :: rest)) := by
  have hm : p ∉ [(-1 : Int)] := by
    simp only [List.mem_singleton]; omega
  obtain ⟨q2, b2, h2⟩ := sc_one rest p 1 1
  have hs := @sc_step_miss_free 1 1 ⟨[-1], [0], 0, 0⟩ p rfl rfl
    Nat.zero_lt_one (by simp) hm
  unfold second_chance
  rw [show sc_init 1 = ⟨[-1], [0], 0, 0⟩ from rfl, sc_run, hs]
  simp only [bind, Except.bind, List.set_cons_zero]
  simp [h2, bind, Except.bind]

/-- C6: with a single frame and a non-empty trace of non-negative pages, each of the four
simulators returns one plus the number of positions whose page differs from the page just
before, whatever the lookahead limit of `optimal` and for every search budget of at least one
advance in `second_chance`; when no two consecutive entries are equal this is the length of
the trace. -/
theorem single_frame_fault_count (tr : List Int) (limit : Int) (hne : tr ≠ [])
    (hnn : ∀ p ∈ tr, 0 ≤ p) :
    optimal tr 1 limit = .ok (1 + changes tr) ∧
      fifo tr 1 = .ok (1 + changes tr) ∧
      lru tr 1 = .ok (1 + changes tr) ∧
      (∀ fuel, 1 ≤ fuel → second_chance fuel tr 1 = .ok (1 + changes tr)) ∧
      (tr.Chain' (fun a b => a ≠ b) → 1 + changes tr = tr.length) := by
  cases tr with
  | nil => exact absurd rfl hne
  | cons p rest =>
    have hp : 0 ≤ p := hnn p (by simp)
    exact ⟨optimal_one limit p rest hp, fifo_single p rest hp, lru_single p rest hp,
      fun fuel hf => second_chance_mono hf (sc_single p rest hp),
      fun h => changes_chain _ h hne⟩

/-! ## The generator -/

theorem lrand_nonneg (RAND_MAX : Nat) (rand : Nat → Nat) (calls : Nat) :
    0 ≤ lrand RAND_MAX rand calls := by
  unfold lrand
  positivity

theorem c_rem_eq (a : Int) {b : Int} (hb : 0 < b) : c_rem a b = .ok (Int.tmod a b) := by
  have : b ≠ 0 := by omega
  simp [c_rem, this]

theorem getD_set (l : List Int) (k i : Nat) (v : Int) (hk : k < l.length) :
    (l.set k v).getD i 0 = if i = k then v else l.getD i 0 := by
  simp only [List.getD_eq_getElem?_getD, List.getElem?_set]
  by_cases h : k = i
  · subst h; simp [hk]
  · have h2 : ¬ i = k := fun e => h e.symm
    simp [h, h2]

theorem rd_trace_getD {a : List Int} {i : Nat} (h : i < a.length) :
    rd_trace a i = .ok (a.getD i 0) := by
  simp [rd_trace, List.getD, List.getElem?_eq_getElem h]

theorem gen_inv_write {P e : Int} {s : GenState} {v l : Int} (c : Nat)
    (h : GenInv P e s) (hlt : s.ref_count < s.ref_str.length)
    (hv0 : 0 ≤ v) (hvP : v < P)
    (hne : s.ref_count ≠ 0 → v ≠ s.ref_str.getD (s.ref_count - 1) 0)
    (hl0 : 0 ≤ l) (hl1 : l ≤ P - e) :
    GenInv P e { ref_str := s.ref_str.set s.ref_count v, ref_count := s.ref_count + 1,
                 locus_position := l, calls := c } := by
  obtain ⟨_, _, _, hadj, hrange⟩ := h
  refine ⟨by simpa using hlt, hl0, hl1, ?_, ?_⟩
  · intro i hi
    simp only [getD_set _ _ _ _ hlt]
    have h1 : ¬ i = s.ref_count := by simp only at hi; omega
    rw [if_neg h1]
    by_cases h2 : i + 1 = s.ref_count
    · rw [if_pos h2]
      have := hne (by omega)
      have e2 : s.ref_count - 1 = i := by omega
      rwa [e2] at this
    · rw [if_neg h2]
      exact hadj i (by simp only at hi; omega)
  · intro i hi
    simp only [getD_set _ _ _ _ hlt]
    by_cases h1 : i = s.ref_count
    · rw [if_pos h1]; exact ⟨hv0, hvP⟩
    · rw [if_neg h1]
      exact hrange i (by simp only at hi; omega)

theorem gen_step_inv (RAND_MAX : Nat) (rand : Nat → Nat) (jump : Nat → Bool) {P e m : Int}
    (he : 0 < e) (hP : e ≤ P) (hm : 0 < m) {s : GenState} (h : GenInv P e s)
    (hlt : s.ref_count < s.ref_str.length) :
    ∃ s2, gen_step RAND_MAX rand jump P e m s = .ok s2 ∧ GenInv P e s2 := by
  have hr0 : 0 ≤ Int.tmod (lrand RAND_MAX rand s.calls) e :=
    Int.tmod_nonneg _ (lrand_nonneg _ _ _)
  have hr1 : Int.tmod (lrand RAND_MAX rand s.calls) e < e := Int.tmod_lt_of_pos _ he
  have hw : 0 < P - e + 1 := by omega
  have hj0 : 0 ≤ Int.tmod (lrand RAND_MAX rand (s.calls + 2 + 1)) (P - e + 1) :=
    Int.tmod_nonneg _ (lrand_nonneg _ _ _)
  have hj1 : Int.tmod (lrand RAND_MAX rand (s.calls + 2 + 1)) (P - e + 1) < P - e + 1 :=
    Int.tmod_lt_of_pos _ hw
  have hs0 : 0 ≤ Int.tmod (s.locus_position + 1) (P - e + 1) :=
    Int.tmod_nonneg _ (by have := h.2.1; omega)
  have hs1 : Int.tmod (s.locus_position + 1) (P - e + 1) < P - e + 1 :=
    Int.tmod_lt_of_pos _ hw
  have hloc0 := h.2.1
  have hloc1 := h.2.2.1
  unfold gen_step
  simp only [c_rem_eq _ he, c_rem_eq _ hm, c_rem_eq _ hw, bind, Except.bind]
  by_cases hz : s.ref_count = 0
  · rw [if_pos hz]
    simp only [if_true, wr_trace, hlt]
    split <;> [split; skip]
    all_goals
      refine ⟨_, rfl, ?_⟩
      apply gen_inv_write _ h hlt (by omega) (by omega) (fun hc => absurd hz hc) <;> omega
  · have hprev : s.ref_count - 1 < s.ref_str.length := by omega
    simp only [hz, if_false, rd_trace_getD hprev]
    by_cases hfresh : Int.tmod (lrand RAND_MAX rand s.calls) e + s.locus_position
        = s.ref_str.getD (s.ref_count - 1) 0
    · refine ⟨{ s with calls := s.calls + 2 }, by simp [hfresh], ?_⟩
      exact h
    · simp only [ne_eq, hfresh, not_false_eq_true, decide_True, if_true, wr_trace, hlt]
      split <;> [split; skip]
      all_goals
        refine ⟨_, rfl, ?_⟩
        apply gen_inv_write _ h hlt (by omega) (by omega) (fun _ => hfresh) <;> omega

theorem gen_iterate_inv (RAND_MAX : Nat) (rand : Nat → Nat) (jump : Nat → Bool) {P e m : Int}
    (he : 0 < e) (hP : e ≤ P) (hm : 0 < m) (n : Nat) :
    ∀ s, GenInv P e s →
      ∃ s2, gen_iterate RAND_MAX rand jump P e m n s = .ok s2 ∧ GenInv P e s2 := by
  induction n with
  | zero => intro s h; exact ⟨s, rfl, h⟩
  | succ n ih =>
    intro s h
    rw [gen_iterate]
    by_cases hlt : s.ref_count < s.ref_str.length
    · obtain ⟨s1, hs, h1⟩ := gen_step_inv RAND_MAX rand jump he hP hm h hlt
      obtain ⟨s2, hr, h2⟩ := ih s1 h1
      exact ⟨s2, by simp [hlt, hs, bind, Except.bind, hr], h2⟩
    · exact ⟨s, by simp [hlt], h⟩

theorem gen_init_inv {P e : Int} (hP : e ≤ P) (buffer : List Int) :
    GenInv P e (gen_init buffer) := by
  refine ⟨by simp [gen_init], by simp [gen_init], by simp [gen_init]; omega, ?_, ?_⟩ <;>
    intro i hi <;> simp [gen_init] at hi

/-- C4: for parameters with `0 < e ≤ P` and `0 < m`, whatever the draws of `rand()` and the
outcome of the jump test, after any number of iterations the generator has not faulted and
every entry it has written differs from the entry written just before it. -/
theorem generator_no_immediate_repeat (RAND_MAX : Nat) (rand : Nat → Nat) (jump : Nat → Bool)
    (P e m : Int) (buffer : List Int) (n : Nat) (he : 0 < e) (hP : e ≤ P) (hm : 0 < m) :
    ∃ s, gen_iterate RAND_MAX rand jump P e m n (gen_init buffer) = .ok s ∧
      s.ref_count ≤ s.ref_str.length ∧
      ∀ i, 1 ≤ i → i < s.ref_count → s.ref_str.getD i 0 ≠ s.ref_str.getD (i - 1) 0 := by
  obtain ⟨s, hs, hc, _, _, hadj, _⟩ :=
    gen_iterate_inv RAND_MAX rand jump he hP hm n _ (gen_init_inv hP buffer)
  refine ⟨s, hs, hc, fun i h1 hi => ?_⟩
  have := hadj (i - 1) (by omega)
  rwa [show i - 1 + 1 = i by omega] at this

/-- C5: for parameters with `0 < e ≤ P` and `0 < m`, whatever the draws of `rand()` and the
outcome of the jump test, after any number of iterations the generator has not faulted, the
locus lies in `[0, P - e]` and every entry written lies in `[0, P)`. -/
theorem generator_range (RAND_MAX : Nat) (rand : Nat → Nat) (jump : Nat → Bool)
    (P e m : Int) (buffer : List Int) (n : Nat) (he : 0 < e) (hP : e ≤ P) (hm : 0 < m) :
    ∃ s, gen_iterate RAND_MAX rand jump P e m n (gen_init buffer) = .ok s ∧
      s.ref_count ≤ s.ref_str.length ∧
      0 ≤ s.locus_position ∧ s.locus_position ≤ P - e ∧
      ∀ i, i < s.ref_count → 0 ≤ s.ref_str.getD i 0 ∧ s.ref_str.getD i 0 < P := by
  obtain ⟨s, hs, hc, h0, h1, _, hr⟩ :=
    gen_iterate_inv RAND_MAX rand jump he hP hm n _ (gen_init_inv hP buffer)
  exact ⟨s, hs, hc, h0, h1, hr⟩

/-! ## Distinct pages and the warm-up of `optimal` -/

theorem fresh_cons_mem {seen : List Int} {p : Int} (t : List Int) (h : p ∈ seen) :
    fresh seen (p :: t) = fresh seen t := by
  simp [fresh, h]

theorem fresh_cons_not_mem {seen : List Int} {p : Int} (t : List Int) (h : p ∉ seen) :
    fresh seen (p :: t) = p :: fresh (seen ++ [p]) t := by
  simp [fresh, h]

theorem fresh_length_card (l : List Int) :
    ∀ seen : List Int, (fresh seen l).length = (l.toFinset \ seen.toFinset).card := by
  induction l with
  | nil => intro seen; simp [fresh]
  | cons p t ih =>
    intro seen
    by_cases h : p ∈ seen
    · rw [fresh_cons_mem t h, ih, List.toFinset_cons,
        Finset.insert_sdiff_of_mem _ (List.mem_toFinset.mpr h)]
    · rw [fresh_cons_not_mem t h, List.length_cons, ih]
      have hs : (p :: t).toFinset \ seen.toFinset =
          insert p (t.toFinset \ (seen ++ [p]).toFinset) := by
        ext x
        simp only [List.toFinset_cons, Finset.mem_sdiff, Finset.mem_insert, List.mem_toFinset,
          List.mem_append, List.mem_singleton, not_or]
        constructor
        · rintro ⟨hx | hx, hns⟩
          · exact Or.inl hx
          · by_cases hxp : x = p
            · exact Or.inl hxp
            · exact Or.inr ⟨hx, hns, hxp⟩
        · rintro (hx | ⟨hx, hns, _⟩)
          · subst hx; exact ⟨Or.inl rfl, h⟩
          · exact ⟨Or.inr hx, hns⟩
      rw [hs, Finset.card_insert_of_not_mem]
      simp

theorem distinct_pages_length (l : List Int) : (distinct_pages l).length = l.toFinset.card := by
  simp [distinct_pages, fresh_length_card]

theorem mem_frames_iff (F : List Int) (n : Nat) {p : Int} (hp : 0 ≤ p) :
    p ∈ F ++ List.replicate n (-1) ↔ p ∈ F := by
  simp only [List.mem_append, List.mem_replicate]
  constructor
  · rintro (h | ⟨_, h⟩)
    · exact h
    · omega
  · exact Or.inl

theorem set_frames (F : List Int) (n : Nat) (p : Int) :
    (F ++ List.replicate (n + 1) (-1)).set F.length p = (F ++ [p]) ++ List.replicate n (-1) := by
  rw [List.set_append_right _ _ (le_refl _)]
  simp [List.replicate_succ]

theorem warmup_spec (size : Nat) (rest : List Int) :
    ∀ (F : List Int) (cur pf : Nat), F.length ≤ size →
      size ≤ F.length + (fresh F rest).length → (∀ p ∈ rest, 0 ≤ p) →
      ∃ c, c ≤ rest.length ∧
        optimal_warmup size rest F.length cur (F ++ List.replicate (size - F.length) (-1)) pf
          = .ok ⟨F ++ fresh F (rest.take c), cur + c, pf + (size - F.length)⟩ ∧
        fresh F (rest.take c) = (fresh F rest).take (size - F.length) ∧
        ∀ c2, c2 < c → F.length + (fresh F (rest.take c2)).length < size := by
  induction rest with
  | nil =>
    intro F cur pf hF hd _
    have he : F.length = size := by simp [fresh] at hd; omega
    refine ⟨0, le_refl _, ?_, by simp [fresh], fun c2 hc => absurd hc (Nat.not_lt_zero _)⟩
    rw [optimal_warmup]
    simp [he, fresh]
  | cons p t ih =>
    intro F cur pf hF hd hnn
    have hp : 0 ≤ p := hnn p (by simp)
    have hnt : ∀ q ∈ t, 0 ≤ q := fun q hq => hnn q (by simp [hq])
    by_cases hlt : F.length < size
    · have hlen : (F ++ List.replicate (size - F.length) (-1)).length = size := by
        simp; omega
      rw [optimal_warmup, if_pos hlt]
      by_cases hm : p ∈ F
      · have hm2 : p ∈ F ++ List.replicate (size - F.length) (-1) :=
          (mem_frames_iff F _ hp).mpr hm
        have hloc := locate_mem hm2
        rw [hlen] at hloc
        rw [fresh_cons_mem t hm] at hd
        obtain ⟨c, hc, hw, hfr, hmin⟩ := ih F (cur + 1) pf hF hd hnt
        refine ⟨c + 1, by simpa using hc, ?_, ?_, ?_⟩
        · simp only [hloc, bind, Except.bind]
          rw [if_pos (by omega), hw, List.take_succ_cons, fresh_cons_mem _ hm]
          congr 2
          omega
        · rw [List.take_succ_cons, fresh_cons_mem _ hm, fresh_cons_mem _ hm, hfr]
        · intro c2 hc2
          cases c2 with
          | zero => simpa [fresh] using hlt
          | succ c2 =>
            rw [List.take_succ_cons, fresh_cons_mem _ hm]
            exact hmin c2 (by omega)
      · have hm2 : p ∉ F ++ List.replicate (size - F.length) (-1) :=
          fun h => hm ((mem_frames_iff F _ hp).mp h)
        have hloc := locate_not_mem hm2
        rw [hlen] at hloc
        rw [fresh_cons_not_mem t hm, List.length_cons] at hd
        obtain ⟨n, hn⟩ : ∃ n, size - F.length = n + 1 := ⟨size - F.length - 1, by omega⟩
        have hF2 : (F ++ [p]).length = F.length + 1 := by simp
        have hn2 : size - (F.length + 1) = n := by omega
        obtain ⟨c, hc, hw, hfr, hmin⟩ := ih (F ++ [p]) (cur + 1) (pf + 1) (by omega)
          (by omega) hnt
        rw [hF2] at hw hfr hmin
        rw [hn2] at hw hfr
        refine ⟨c + 1, by simpa using hc, ?_, ?_, ?_⟩
        · simp only [hloc, bind, Except.bind]
          rw [if_neg (by omega), hn, wr_eq (by simp), set_frames]
          simp only []
          rw [hw, List.take_succ_cons, fresh_cons_not_mem _ hm]
          simp only [List.append_assoc, List.singleton_append]
          congr 2 <;> omega
        · rw [List.take_succ_cons, fresh_cons_not_mem _ hm, fresh_cons_not_mem _ hm, hn,
            List.take_succ_cons, hfr]
        · intro c2 hc2
          cases c2 with
          | zero => simpa [fresh] using hlt
          | succ c2 =>
            rw [List.take_succ_cons, fresh_cons_not_mem _ hm, List.length_cons]
            have := hmin c2 (by omega)
            omega
    · have he : F.length = size := by omega
      refine ⟨0, Nat.zero_le _, ?_, by simp [fresh, he], fun c2 hc => absurd hc (Nat.not_lt_zero _)⟩
      rw [optimal_warmup, if_neg hlt]
      simp [he, fresh]

theorem fresh_getElem (tr : List Int) :
    ∀ (seen : List Int) (j : Nat) (p : Int), (fresh seen tr)[j]? = some p →
      ∃ k, tr[k]? = some p ∧ p ∉ seen ∧ p ∉ tr.take k ∧ (fresh seen (tr.take k)).length = j := by
  induction tr with
  | nil => intro seen j p h; simp [fresh] at h
  | cons a t ih =>
    intro seen j p h
    by_cases ha : a ∈ seen
    · rw [fresh_cons_mem t ha] at h
      obtain ⟨k, hk, hps, hpt, hlen⟩ := ih seen j p h
      refine ⟨k + 1, by simpa using hk, hps, ?_, ?_⟩
      · rw [List.take_succ_cons, List.mem_cons, not_or]
        exact ⟨fun e => hps (e ▸ ha), hpt⟩
      · rw [List.take_succ_cons, fresh_cons_mem _ ha]
        exact hlen
    · rw [fresh_cons_not_mem t ha] at h
      cases j with
      | zero =>
        have hpa : a = p := by simpa using h
        subst hpa
        exact ⟨0, by simp, ha, by simp, by simp [fresh]⟩
      | succ j =>
        have h2 : (fresh (seen ++ [a]) t)[j]? = some p := by simpa using h
        obtain ⟨k, hk, hps, hpt, hlen⟩ := ih (seen ++ [a]) j p h2
        rw [List.mem_append, not_or, List.mem_singleton] at hps
        refine ⟨k + 1, by simpa using hk, hps.1, ?_, ?_⟩
        · rw [List.take_succ_cons, List.mem_cons, not_or]
          exact ⟨hps.2, hpt⟩
        · rw [List.take_succ_cons, fresh_cons_not_mem _ ha, List.length_cons, hlen]

theorem distinct_pages_getElem (tr : List Int) (j : Nat) (p : Int)
    (h : (distinct_pages tr)[j]? = some p) :
    ∃ k, k < tr.length ∧ tr[k]? = some p ∧ p ∉ tr.take k ∧ (tr.take k).toFinset.card = j := by
  obtain ⟨k, hk, _, hpt, hlen⟩ := fresh_getElem tr [] j p h
  refine ⟨k, ?_, hk, hpt, ?_⟩
  · by_contra hge
    rw [List.getElem?_eq_none (by omega)] at hk
    exact Option.noConfusion hk
  · rw [← distinct_pages_length]
    exact hlen

/-- C7: on a trace of non-negative pages with at least `size` distinct pages, the warm-up loop
of `optimal` stops at the position `cur` that ends the shortest prefix with `size` distinct
pages, has counted `size` faults, and leaves in frame `j` the `j`-th distinct page in order of
first occurrence (the page that first occurs at a position before which exactly `j` distinct
pages occur); the loop does not read the lookahead limit, so `optimal` continues from this
state for every limit. -/
theorem optimal_warmup_distinct (tr : List Int) (size : Nat) (_h1 : 1 ≤ size)
    (hnn : ∀ p ∈ tr, 0 ≤ p) (hd : size ≤ tr.toFinset.card) :
    ∃ cur, cur ≤ tr.length ∧
      optimal_warmup size tr 0 0 (List.replicate size (-1)) 0 =
        .ok ⟨(distinct_pages tr).take size, cur, size⟩ ∧
      distinct_pages (tr.take cur) = (distinct_pages tr).take size ∧
      (tr.take cur).toFinset.card = size ∧
      (∀ c, c < cur → (tr.take c).toFinset.card < size) ∧
      (∀ j p, ((distinct_pages tr).take size)[j]? = some p →
        ∃ k, k < cur ∧ tr[k]? = some p ∧ p ∉ tr.take k ∧ (tr.take k).toFinset.card = j) ∧
      ∀ limit, optimal tr size limit =
        optimal_steady size limit (tr.drop cur) ((distinct_pages tr).take size) size := by
  obtain ⟨c, hc, hw, hfr, hmin⟩ := warmup_spec size tr [] 0 0 (Nat.zero_le _)
    (by simpa [← distinct_pages_length, distinct_pages] using hd) hnn
  simp only [List.length_nil, Nat.sub_zero, List.nil_append, Nat.zero_add] at hw hfr hmin
  have hlen : ((distinct_pages tr).take size).length = size := by
    rw [List.length_take, distinct_pages_length]; omega
  have hw2 : optimal_warmup size tr 0 0 (List.replicate size (-1)) 0 =
      .ok ⟨(distinct_pages tr).take size, c, size⟩ := by
    rw [hw, hfr]; rfl
  have hfr2 : distinct_pages (tr.take c) = (distinct_pages tr).take size := hfr
  refine ⟨c, hc, hw2, hfr2, ?_, ?_, ?_, ?_⟩
  · rw [← distinct_pages_length, hfr2]
    exact hlen
  · intro c2 hc2
    rw [← distinct_pages_length]
    exact hmin c2 hc2
  · intro j p hj
    rw [← hfr2] at hj
    obtain ⟨k, hk, hget, hnot, hcard⟩ := distinct_pages_getElem (tr.take c) j p hj
    have hkc : k < c := by
      rw [List.length_take] at hk; omega
    have hkk : (tr.take c).take k = tr.take k := by
      rw [List.take_take, Nat.min_eq_left (by omega)]
    rw [hkk] at hnot hcard
    rw [List.getElem?_take_of_lt hkc] at hget
    exact ⟨k, hkc, hget, hnot, hcard⟩
  · intro limit
    unfold optimal
    simp [hw2, bind, Except.bind]

/-! ## The warm-up of `optimal` on traces with few distinct pages -/

theorem warmup_overrun (size : Nat) (rest : List Int) :
    ∀ (F : List Int) (cur pf : Nat), F.length + (fresh F rest).length < size →
      (∀ p ∈ rest, 0 ≤ p) →
      optimal_warmup size rest F.length cur (F ++ List.replicate (size - F.length) (-1)) pf
        = .error .traceIndex := by
  induction rest with
  | nil =>
    intro F cur pf hd _
    have hlt : F.length < size := by omega
    rw [optimal_warmup, if_pos hlt]
  | cons p t ih =>
    intro F cur pf hd hnn
    have hp : 0 ≤ p := hnn p (by simp)
    have hnt : ∀ q ∈ t, 0 ≤ q := fun q hq => hnn q (by simp [hq])
    have hlt : F.length < size := by omega
    have hlen : (F ++ List.replicate (size - F.length) (-1)).length = size := by
      simp; omega
    rw [optimal_warmup, if_pos hlt]
    by_cases hm : p ∈ F
    · have hm2 : p ∈ F ++ List.replicate (size - F.length) (-1) :=
        (mem_frames_iff F _ hp).mpr hm
      have hloc := locate_mem hm2
      rw [hlen] at hloc
      rw [fresh_cons_mem t hm] at hd
      simp only [hloc, bind, Except.bind]
      rw [if_pos (by omega)]
      exact ih F (cur + 1) pf hd hnt
    · have hm2 : p ∉ F ++ List.replicate (size - F.length) (-1) :=
        fun h => hm ((mem_frames_iff F _ hp).mp h)
      have hloc := locate_not_mem hm2
      rw [hlen] at hloc
      rw [fresh_cons_not_mem t hm, List.length_cons] at hd
      obtain ⟨n, hn⟩ : ∃ n, size - F.length = n + 1 := ⟨size - F.length - 1, by omega⟩
      have hF2 : (F ++ [p]).length = F.length + 1 := by simp
      have hn2 : size - (F.length + 1) = n := by omega
      have := ih (F ++ [p]) (cur + 1) (pf + 1) (by omega) hnt
      rw [hF2, hn2] at this
      simp only [hloc, bind, Except.bind]
      rw [if_neg (by omega), hn, wr_eq (by simp), set_frames]
      exact this

/-- On a trace of non-negative pages with fewer than `size` distinct pages the warm-up loop of
`optimal` runs off the end of the trace, whatever the lookahead limit. -/
theorem optimal_overrun (tr : List Int) (size : Nat) (limit : Int) (hnn : ∀ p ∈ tr, 0 ≤ p)
    (hd : tr.toFinset.card < size) : optimal tr size limit = .error .traceIndex := by
  have := warmup_overrun size tr [] 0 0
    (by simpa [← distinct_pages_length, distinct_pages] using hd) hnn
  simp only [List.length_nil, Nat.sub_zero, List.nil_append] at this
  unfold optimal
  simp [this, bind, Except.bind]

/-! ## LRU keeps the most recently used pages -/

theorem zip_set (l1 l2 : List Int) (k : Nat) (a b : Int) :
    (l1.set k a).zip (l2.set k b) = (l1.zip l2).set k (a, b) := by
  induction l1 generalizing l2 k with
  | nil => simp
  | cons x t ih =>
    cases l2 with
    | nil => simp
    | cons y u =>
      cases k with
      | zero => simp
      | succ k => simp [ih]

theorem set_perm_eraseIdx (l : List (Int × Int)) (k : Nat) (y : Int × Int)
    (hk : k < l.length) : (l.set k y).Perm (y :: l.eraseIdx k) := by
  induction l generalizing k with
  | nil => simp at hk
  | cons a t ih =>
    cases k with
    | zero => simp
    | succ k =>
      have hk2 : k < t.length := by simpa using hk
      simp only [List.set_cons_succ, List.eraseIdx_cons_succ]
      exact (List.Perm.cons _ (ih k hk2)).trans (List.Perm.swap _ _ _)

theorem perm_getD_eraseIdx (l : List (Int × Int)) (k : Nat) (d : Int × Int)
    (hk : k < l.length) : l.Perm (l.getD k d :: l.eraseIdx k) := by
  induction l generalizing k with
  | nil => simp at hk
  | cons a t ih =>
    cases k with
    | zero => simp
    | succ k =>
      have hk2 : k < t.length := by simpa using hk
      simp only [List.getD_cons_succ, List.eraseIdx_cons_succ]
      exact (List.Perm.cons _ (ih k hk2)).trans (List.Perm.swap _ _ _)

/-- Replacing the entry `x` at position `k` by `y`, up to the order of the entries. -/
theorem perm_replace {l M : List (Int × Int)} {k : Nat} {x : Int × Int} (y d : Int × Int)
    (hk : k < l.length) (hx : l.getD k d = x) (h : l.Perm (x :: M)) :
    (l.set k y).Perm (y :: M) := by
  have h1 := perm_getD_eraseIdx l k d hk
  rw [hx] at h1
  have h2 : (l.eraseIdx k).Perm M := (h1.symm.trans h).cons_inv
  exact (set_perm_eraseIdx l k y hk).trans (List.Perm.cons _ h2)

theorem take_filter_of_forall (q : Int × Int → Bool) (st : List (Int × Int)) :
    ∀ n, (∀ x ∈ st.take n, q x = true) → (st.filter q).take n = st.take n := by
  induction st with
  | nil => intro n _; simp
  | cons a t ih =>
    intro n h
    cases n with
    | zero => simp
    | succ n =>
      have ha : q a = true := h a (by simp)
      rw [List.filter_cons_of_pos ha, List.take_succ_cons, List.take_succ_cons,
        ih n (fun x hx => h x (by simp [hx]))]

theorem take_perm_filter (p t : Int) (st : List (Int × Int)) :
    ∀ n, st.Pairwise (fun x y => x.1 ≠ y.1 ∧ y.2 < x.2) → (p, t) ∈ st.take n →
      (st.take n).Perm ((p, t) :: (st.filter (fun x => x.1 ≠ p)).take (n - 1)) := by
  induction st with
  | nil => intro n _ h; simp at h
  | cons a u ih =>
    intro n hpw hm
    cases n with
    | zero => simp at hm
    | succ n =>
      rw [List.pairwise_cons] at hpw
      rw [List.take_succ_cons] at hm ⊢
      by_cases ha : a = (p, t)
      · subst ha
        have hkeep : ∀ x ∈ u.take n, (fun x : Int × Int => decide (x.1 ≠ p)) x = true := by
          intro x hx
          have := (hpw.1 x (List.take_subset _ _ hx)).1
          simpa using fun e => this e.symm
        simp only [ne_eq, not_true_eq_false, decide_False, Bool.false_eq_true,
          not_false_eq_true, List.filter_cons_of_neg, Nat.add_sub_cancel]
        rw [take_filter_of_forall _ u n hkeep]
      · have hmu : (p, t) ∈ u.take n := by
          rcases List.mem_cons.mp hm with h | h
          · exact absurd h.symm ha
          · exact h
        have hap : a.1 ≠ p := (hpw.1 (p, t) (List.take_subset _ _ hmu)).1
        have hn : 0 < n := by
          cases n with
          | zero => simp at hmu
          | succ n => omega
        obtain ⟨n2, rfl⟩ : ∃ n2, n = n2 + 1 := ⟨n - 1, by omega⟩
        rw [List.filter_cons_of_pos (by simpa using hap), Nat.add_sub_cancel,
          List.take_succ_cons]
        have := ih (n2 + 1) hpw.2 hmu
        rw [Nat.add_sub_cancel] at this
        exact (List.Perm.cons _ this).trans (List.Perm.swap _ _ _)

theorem stackInv_touch {i : Nat} {st : List (Int × Int)} {p : Int} (hp : 0 ≤ p)
    (h : StackInv i st) : StackInv (i + 1) (touch p (i : Int) st) := by
  obtain ⟨hpw, hel⟩ := h
  refine ⟨?_, ?_⟩
  · unfold touch
    rw [List.pairwise_cons]
    refine ⟨?_, hpw.sublist (List.filter_sublist _)⟩
    intro y hy
    rw [List.mem_filter] at hy
    have := hel y hy.1
    have hne : y.1 ≠ p := of_decide_eq_true hy.2
    exact ⟨fun e => hne e.symm, this.2.2⟩
  · intro x hx
    unfold touch at hx
    rcases List.mem_cons.mp hx with h | h
    · subst h
      exact ⟨hp, by positivity, by push_cast; omega⟩
    · have := hel x (List.mem_filter.mp h).1
      exact ⟨this.1, this.2.1, by push_cast; omega⟩

theorem touch_take {s : Nat} (h1 : 1 ≤ s) (p i : Int) (st : List (Int × Int)) :
    (touch p i st).take s = (p, i) :: (st.filter (fun x => x.1 ≠ p)).take (s - 1) := by
  obtain ⟨n, rfl⟩ : ∃ n, s = n + 1 := ⟨s - 1, by omega⟩
  simp [touch]

theorem target_hit {s : Nat} (h1 : 1 ≤ s) {i : Nat} {st : List (Int × Int)} (p t j : Int)
    (hst : StackInv i st) (hx : (p, t) ∈ st.take s) :
    ∃ M, (lru_target s st).Perm ((p, t) :: M) ∧ lru_target s (touch p j st) = (p, j) :: M := by
  have hperm := take_perm_filter p t st s hst.1 hx
  have hlen := hperm.length_eq
  refine ⟨(st.filter (fun x => x.1 ≠ p)).take (s - 1) ++
      List.replicate (s - (st.take s).length) (-1, -1), ?_, ?_⟩
  · unfold lru_target
    exact (hperm.append_right _).trans (by simp)
  · unfold lru_target
    rw [touch_take h1, hlen]
    simp

theorem target_miss {s : Nat} (h1 : 1 ≤ s) {i : Nat} {st : List (Int × Int)} (p j : Int)
    (x : Int × Int) (hst : StackInv i st) (hp : p ∉ (st.take s).map Prod.fst)
    (hx : x ∈ lru_target s st) (hmin : ∀ y ∈ lru_target s st, x.2 ≤ y.2) :
    ∃ M, (lru_target s st).Perm (x :: M) ∧ lru_target s (touch p j st) = (p, j) :: M := by
  have hkeep : ∀ y ∈ st.take (s - 1), (fun y : Int × Int => decide (y.1 ≠ p)) y = true := by
    intro y hy
    have hy2 : y ∈ st.take s := (List.take_prefix_take_left st (Nat.sub_le s 1)).subset hy
    have : y.1 ≠ p := fun e => hp (List.mem_map.mpr ⟨y, hy2, e⟩)
    simpa using this
  have hF := take_filter_of_forall _ st (s - 1) hkeep
  by_cases hlt : st.length < s
  · -- an empty frame is left, and it is the one chosen
    have hT : st.take s = st := List.take_of_length_le (by omega)
    have hT1 : st.take (s - 1) = st := List.take_of_length_le (by omega)
    obtain ⟨m, hm⟩ : ∃ m, s - st.length = m + 1 := ⟨s - st.length - 1, by omega⟩
    have htarget : lru_target s st = st ++ (-1, -1) :: List.replicate m (-1, -1) := by
      unfold lru_target
      rw [hT, hm, List.replicate_succ]
    have hxe : x = (-1, -1) := by
      have h2 := hmin (-1, -1) (by rw [htarget]; simp)
      rw [htarget] at hx
      rcases List.mem_append.mp hx with h | h
      · have := (hst.2 x h).2.1
        simp only at h2
        omega
      · rcases List.mem_cons.mp h with h | h
        · exact h
        · exact (List.mem_replicate.mp h).2
    subst hxe
    refine ⟨st ++ List.replicate m (-1, -1), ?_, ?_⟩
    · rw [htarget]
      exact List.perm_middle
    · unfold lru_target
      rw [touch_take h1, hF, hT1]
      have : s - ((p, j) :: st).length = m := by
        rw [List.length_cons]; omega
      rw [this]
      rfl
  · -- all frames are in use: the last entry of the top of the stack is chosen
    have hs : s - 1 + 1 = s := by omega
    have hlast : s - 1 < st.length := by omega
    have hT : st.take s = st.take (s - 1) ++ [st.get ⟨s - 1, hlast⟩] := by
      conv_lhs => rw [← hs]
      rw [List.take_succ, List.getElem?_eq_getElem hlast]
      rfl
    have hlenT : (st.take s).length = s := by
      rw [List.length_take]; omega
    have htarget : lru_target s st = st.take s := by
      unfold lru_target
      rw [hlenT]; simp
    have hpw : (st.take s).Pairwise (fun x y => x.1 ≠ y.1 ∧ y.2 < x.2) :=
      hst.1.sublist (List.take_sublist _ _)
    rw [hT, List.pairwise_append] at hpw
    have hxe : x = st.get ⟨s - 1, hlast⟩ := by
      have h2 := hmin (st.get ⟨s - 1, hlast⟩) (by
        rw [htarget, hT]; exact List.mem_append_right _ (List.mem_singleton.mpr rfl))
      rw [htarget, hT] at hx
      rcases List.mem_append.mp hx with h | h
      · have := (hpw.2.2 x h _ (List.mem_singleton.mpr rfl)).2
        omega
      · exact List.mem_singleton.mp h
    refine ⟨st.take (s - 1), ?_, ?_⟩
    · rw [htarget, hT, hxe]
      exact List.perm_append_singleton _ _
    · unfold lru_target
      rw [touch_take h1, hF]
      have : ((p, j) :: st.take (s - 1)).length = s := by
        rw [List.length_cons, List.length_take]; omega
      rw [this]
      simp

theorem zip_getD (l1 l2 : List Int) (k : Nat) (h1 : k < l1.length) (h2 : k < l2.length) :
    (l1.zip l2).getD k (0, 0) = (l1.getD k 0, l2.getD k 0) := by
  have hk : k < (l1.zip l2).length := by simp; omega
  rw [List.getD_eq_getElem _ _ hk, List.getD_eq_getElem _ _ h1, List.getD_eq_getElem _ _ h2,
    List.getElem_zip]

theorem mem_zip_getD {l1 l2 : List Int} {y : Int × Int} (h : y ∈ l1.zip l2) :
    ∃ k, k < l1.length ∧ k < l2.length ∧ y = (l1.getD k 0, l2.getD k 0) := by
  obtain ⟨k, hk, hy⟩ := List.getElem_of_mem h
  have hk2 : k < l1.length ∧ k < l2.length := by simpa using hk
  refine ⟨k, hk2.1, hk2.2, ?_⟩
  rw [← hy, ← zip_getD l1 l2 k hk2.1 hk2.2, List.getD_eq_getElem _ _ hk]

theorem getD_mem_zip (l1 l2 : List Int) (k : Nat) (h1 : k < l1.length) (h2 : k < l2.length) :
    (l1.getD k 0, l2.getD k 0) ∈ l1.zip l2 := by
  have hk : k < (l1.zip l2).length := by simp; omega
  rw [← zip_getD l1 l2 k h1 h2, List.getD_eq_getElem _ _ hk]
  exact List.getElem_mem _

theorem getD_indexOf {l : List Int} {p : Int} (h : p ∈ l) : l.getD (l.indexOf p) 0 = p := by
  have hk : l.indexOf p < l.length := List.indexOf_lt_length.mpr h
  rw [List.getD_eq_getElem _ _ hk]
  exact List.getElem_indexOf hk

theorem set_getD_self (l : List Int) (k : Nat) (hk : k < l.length) :
    l.set k (l.getD k 0) = l := by
  induction l generalizing k with
  | nil => simp at hk
  | cons a t ih =>
    cases k with
    | zero => simp
    | succ k =>
      have hk2 : k < t.length := by simpa using hk
      simp only [List.getD_cons_succ, List.set_cons_succ, ih k hk2]

theorem mem_target_nonneg {s : Nat} {st : List (Int × Int)} {x : Int × Int}
    (h : x ∈ lru_target s st) (hx : 0 ≤ x.1) : x ∈ st.take s := by
  unfold lru_target at h
  rcases List.mem_append.mp h with h | h
  · exact h
  · have := (List.mem_replicate.mp h).2
    subst this
    simp at hx

theorem lru_step_rel {s i : Nat} {c : LruState} {st : List (Int × Int)} {p : Int}
    (h1 : 1 ≤ s) (hp : 0 ≤ p) (hst : StackInv i st) (hrel : LruRel s c st) :
    ∃ c2, lru_step s c i p = .ok c2 ∧ LruRel s c2 (touch p (i : Int) st) ∧
      c2.page_faults = c.page_faults + (if p ∈ (st.take s).map Prod.fst then 0 else 1) := by
  obtain ⟨hl, hu, hperm⟩ := hrel
  by_cases hm : p ∈ c.frames
  · -- a hit refreshes the timestamp of the frame that holds the page
    have hk : c.frames.indexOf p < c.frames.length := List.indexOf_lt_length.mpr hm
    have hk2 : c.frames.indexOf p < c.last_used.length := by omega
    have hfp := getD_indexOf hm
    have hxZ := zip_getD c.frames c.last_used _ hk hk2
    rw [hfp] at hxZ
    have hxt : (p, c.last_used.getD (c.frames.indexOf p) 0) ∈ lru_target s st := by
      have := getD_mem_zip c.frames c.last_used _ hk hk2
      rw [hfp] at this
      exact hperm.subset this
    have hxT := mem_target_nonneg hxt hp
    obtain ⟨M, hM1, hM2⟩ := target_hit h1 p _ (i : Int) hst hxT
    refine ⟨_, lru_step_hit i hl hu hm, ⟨hl, by simpa using hu, ?_⟩, ?_⟩
    · have hz : c.frames.zip (c.last_used.set (c.frames.indexOf p) (i : Int)) =
          (c.frames.zip c.last_used).set (c.frames.indexOf p) (p, (i : Int)) := by
        rw [← zip_set]
        congr 1
        have := set_getD_self c.frames _ hk
        rw [hfp] at this
        exact this.symm
      simp only [hz, hM2]
      exact perm_replace _ (0, 0) (by simp; omega) hxZ (hperm.trans hM1)
    · have : p ∈ (st.take s).map Prod.fst := List.mem_map.mpr ⟨_, hxT, rfl⟩
      rw [if_pos this]
      rfl
  · -- a fault replaces the frame with the smallest timestamp
    obtain ⟨r, hr, hmin, hstep⟩ := lru_step_miss i hl hu h1 hm
    have hr1 : r < c.frames.length := by omega
    have hr2 : r < c.last_used.length := by omega
    have hxZ := zip_getD c.frames c.last_used r hr1 hr2
    have hxt : (c.frames.getD r 0, c.last_used.getD r 0) ∈ lru_target s st :=
      hperm.subset (getD_mem_zip c.frames c.last_used r hr1 hr2)
    have hmin2 : ∀ y ∈ lru_target s st, (c.frames.getD r 0, c.last_used.getD r 0).2 ≤ y.2 := by
      intro y hy
      obtain ⟨k, hk1, _, hyk⟩ := mem_zip_getD (hperm.symm.subset hy)
      rw [hyk]
      exact hmin k (by omega)
    have hpT : p ∉ (st.take s).map Prod.fst := by
      intro hmem
      obtain ⟨y, hy, hy1⟩ := List.mem_map.mp hmem
      have hyt : y ∈ lru_target s st := by
        unfold lru_target; exact List.mem_append_left _ hy
      obtain ⟨k, hk1, _, hyk⟩ := mem_zip_getD (hperm.symm.subset hyt)
      apply hm
      rw [← hy1, hyk, List.getD_eq_getElem _ _ hk1]
      exact List.getElem_mem _
    obtain ⟨M, hM1, hM2⟩ := target_miss h1 p (i : Int) _ hst hpT hxt hmin2
    refine ⟨_, hstep, ⟨by simpa using hl, by simpa using hu, ?_⟩, ?_⟩
    · simp only [zip_set, hM2]
      exact perm_replace _ (0, 0) (by simp; omega) hxZ (hperm.trans hM1)
    · rw [if_neg hpT]

theorem lru_run_rel {s : Nat} (h1 : 1 ≤ s) (tr : List Int) :
    ∀ (i : Nat) (c : LruState) (st : List (Int × Int)), (∀ p ∈ tr, 0 ≤ p) → StackInv i st →
      LruRel s c st →
      ∃ c2, lru_run s c i tr = .ok c2 ∧
        c2.page_faults = c.page_faults + stack_faults s st i tr := by
  induction tr with
  | nil => intro i c st _ _ _; exact ⟨c, rfl, rfl⟩
  | cons p rest ih =>
    intro i c st hnn hst hrel
    have hp : 0 ≤ p := hnn p (by simp)
    obtain ⟨c1, hs1, hrel1, hpf1⟩ := lru_step_rel h1 hp hst hrel
    obtain ⟨c2, hs2, hpf2⟩ := ih (i + 1) c1 _ (fun q hq => hnn q (by simp [hq]))
      (stackInv_touch hp hst) hrel1
    refine ⟨c2, ?_, ?_⟩
    · rw [lru_run, hs1]; exact hs2
    · rw [hpf2, hpf1, stack_faults]; omega

theorem stack_faults_mono {s1 s2 : Nat} (h : s1 ≤ s2) (tr : List Int) :
    ∀ (st : List (Int × Int)) (i : Nat), stack_faults s2 st i tr ≤ stack_faults s1 st i tr := by
  induction tr with
  | nil => intro st i; exact le_refl _
  | cons p rest ih =>
    intro st i
    rw [stack_faults, stack_faults]
    have hsub : (st.take s1).map Prod.fst ⊆ (st.take s2).map Prod.fst :=
      List.map_subset _ (List.take_prefix_take_left st h).subset
    have := ih (touch p (i : Int) st) (i + 1)
    by_cases hm : p ∈ (st.take s1).map Prod.fst
    · rw [if_pos hm, if_pos (hsub hm)]; omega
    · rw [if_neg hm]
      split <;> omega

theorem lru_init_rel (s : Nat) : LruRel s (lru_init s) [] := by
  refine ⟨by simp [lru_init], by simp [lru_init], ?_⟩
  simp [lru_init, lru_target, List.zip_replicate]

theorem lru_eq_stack_faults {s : Nat} (h1 : 1 ≤ s) (tr : List Int) (hnn : ∀ p ∈ tr, 0 ≤ p) :
    lru tr s = .ok (stack_faults s [] 0 tr) := by
  obtain ⟨c, hc, hpf⟩ := lru_run_rel h1 tr 0 (lru_init s) [] hnn
    ⟨List.Pairwise.nil, fun x hx => by simp at hx⟩ (lru_init_rel s)
  unfold lru
  rw [hc]
  simp [bind, Except.bind, hpf, lru_init]

/-- C1: on a trace of non-negative pages, `lru` with `s2` frames returns a fault count that
is at most the count it returns with `s1` frames, whenever `1 ≤ s1 ≤ s2`. -/
theorem lru_monotone (tr : List Int) (s1 s2 : Nat) (h1 : 1 ≤ s1) (h12 : s1 ≤ s2)
    (hnn : ∀ p ∈ tr, 0 ≤ p) :
    ∃ n1 n2, lru tr s1 = .ok n1 ∧ lru tr s2 = .ok n2 ∧ n2 ≤ n1 :=
  ⟨_, _, lru_eq_stack_faults h1 tr hnn, lru_eq_stack_faults (le_trans h1 h12) tr hnn,
    stack_faults_mono h12 tr [] 0⟩

/-! ## Bounds shared by the single-pass simulators -/

theorem pageRun_lower {size : Nat} {fr fr2 : List Int} {pf pf2 : Nat} {tr : List Int}
    (h : PageRun size fr pf tr fr2 pf2) :
    ∀ seen : List Int, (∀ q ∈ fr, q = -1 ∨ q ∈ seen) → (∀ p ∈ tr, 0 ≤ p) →
      pf + (fresh seen tr).length ≤ pf2 := by
  induction h with
  | nil fr pf => intro seen _ _; simp [fresh]
  | @cons fr fr1 fr2 pf pf1 pf2 p t hstep _ ih =>
    intro seen hsub hnn
    have hp : 0 ≤ p := hnn p (by simp)
    have hnt : ∀ q ∈ t, 0 ≤ q := fun q hq => hnn q (by simp [hq])
    obtain ⟨_, hcase⟩ := hstep
    by_cases hs : p ∈ seen
    · rw [fresh_cons_mem t hs]
      have hsub1 : ∀ q ∈ fr1, q = -1 ∨ q ∈ seen := by
        rcases hcase with ⟨_, he, _⟩ | ⟨_, ⟨v, _, he⟩, _⟩
        · rw [he]; exact hsub
        · intro q hq
          rw [he] at hq
          rcases List.mem_or_eq_of_mem_set hq with h | h
          · exact hsub q h
          · exact Or.inr (h ▸ hs)
      have := ih seen hsub1 hnt
      rcases hcase with ⟨_, _, he⟩ | ⟨_, _, he⟩ <;> omega
    · rw [fresh_cons_not_mem t hs, List.length_cons]
      have hnot : p ∉ fr := by
        intro hm
        rcases hsub p hm with h | h
        · omega
        · exact hs h
      rcases hcase with ⟨hm, _, _⟩ | ⟨_, ⟨v, _, he⟩, hpf⟩
      · exact absurd hm hnot
      · have hsub1 : ∀ q ∈ fr1, q = -1 ∨ q ∈ seen ++ [p] := by
          intro q hq
          rw [he] at hq
          rcases List.mem_or_eq_of_mem_set hq with h | h
          · rcases hsub q h with h2 | h2
            · exact Or.inl h2
            · exact Or.inr (List.mem_append_left _ h2)
          · exact Or.inr (by simp [h])
        have := ih (seen ++ [p]) hsub1 hnt
        omega

theorem pageRun_upper {size : Nat} {fr fr2 : List Int} {pf pf2 : Nat} {tr : List Int}
    (h : PageRun size fr pf tr fr2 pf2) :
    ∀ q, fr.length = size → q ∈ fr → pf2 ≤ pf + changes (q :: tr) := by
  induction h with
  | nil fr pf => intro q _ _; simp [changes]
  | @cons fr fr1 fr2 pf pf1 pf2 p t hstep _ ih =>
    intro q hl hq
    obtain ⟨hl1, hcase⟩ := hstep
    rw [changes_cons_cons]
    rcases hcase with ⟨hm, he, hpf⟩ | ⟨hm, ⟨v, hv, he⟩, hpf⟩
    · have := ih p hl1 (he ▸ hm)
      omega
    · have hne : q ≠ p := fun e => hm (e ▸ hq)
      have hmem : p ∈ fr1 := by
        rw [he]; exact List.mem_set _ _ (by omega) _
      have := ih p hl1 hmem
      rw [if_pos hne]
      omega

theorem pageRun_upper_init {size : Nat} {fr fr2 : List Int} {pf2 : Nat} {tr : List Int}
    (h : PageRun size fr 0 tr fr2 pf2) (hl : fr.length = size) (hne : tr ≠ []) :
    pf2 ≤ 1 + changes tr := by
  cases h with
  | nil => exact absurd rfl hne
  | @cons _ fr1 _ _ pf1 _ p t hstep hrun =>
    obtain ⟨hl1, hcase⟩ := hstep
    have hmem : p ∈ fr1 ∧ pf1 ≤ 1 := by
      rcases hcase with ⟨hm, he, hpf⟩ | ⟨_, ⟨v, hv, he⟩, hpf⟩
      · exact ⟨he ▸ hm, by omega⟩
      · exact ⟨by rw [he]; exact List.mem_set _ _ (by omega) _, by omega⟩
    have := pageRun_upper hrun p hl1 hmem.1
    omega

theorem fifo_run_pageRun {size : Nat} (tr : List Int) :
    ∀ s, FifoInv size s →
      ∃ s2, fifo_run size s tr = .ok s2 ∧
        PageRun size s.frames s.page_faults tr s2.frames s2.page_faults := by
  induction tr with
  | nil => intro s _; exact ⟨s, rfl, PageRun.nil _ _⟩
  | cons p rest ih =>
    intro s h
    obtain ⟨s2, hr, hrun⟩ := ih _ (fifo_next_inv p h)
    refine ⟨s2, by rw [fifo_run_cons p rest h]; exact hr, PageRun.cons ?_ hrun⟩
    refine ⟨(fifo_next_inv p h).1, ?_⟩
    unfold fifo_next
    by_cases hm : p ∈ s.frames
    · rw [if_pos hm]; exact Or.inl ⟨hm, rfl, rfl⟩
    · rw [if_neg hm]; exact Or.inr ⟨hm, ⟨s.front, h.2, rfl⟩, rfl⟩

theorem sc_run_pageRun {size : Nat} (h1 : 1 ≤ size) (tr : List Int) :
    ∀ s, ScInv size s →
      ∃ s2, sc_run size size s tr = .ok s2 ∧
        PageRun size s.frames s.page_faults tr s2.frames s2.page_faults := by
  induction tr with
  | nil => intro s _; exact ⟨s, rfl, PageRun.nil _ _⟩
  | cons p rest ih =>
    intro s h
    obtain ⟨hl, hb, hp⟩ := h
    by_cases hm : p ∈ s.frames
    · have hs := sc_step_hit size hl hb hm
      obtain ⟨s2, hr, hrun⟩ :=
        ih { s with ref_bits := s.ref_bits.set (s.frames.indexOf p) 1 }
          ⟨hl, by simpa using hb, hp⟩
      refine ⟨s2, by rw [sc_run, hs]; exact hr, PageRun.cons ?_ hrun⟩
      exact ⟨hl, Or.inl ⟨hm, rfl, rfl⟩⟩
    · obtain ⟨b2, p2, _, hl2, hp2, hs⟩ := sc_step_miss hl hb hp (le_refl size) hm
      obtain ⟨s2, hr, hrun⟩ :=
        ih { frames := s.frames.set p2 p, ref_bits := b2.set p2 1,
             pointer := (p2 + 1) % size, page_faults := s.page_faults + 1 }
          ⟨by simpa using hl, by simpa using hl2, Nat.mod_lt _ (by omega)⟩
      refine ⟨s2, by rw [sc_run, hs]; exact hr, PageRun.cons ?_ hrun⟩
      exact ⟨by simpa using hl, Or.inr ⟨hm, ⟨p2, hp2, rfl⟩, rfl⟩⟩

theorem lru_run_pageRun {size : Nat} (h1 : 1 ≤ size) (tr : List Int) :
    ∀ s i, LruInv size s →
      ∃ s2, lru_run size s i tr = .ok s2 ∧
        PageRun size s.frames s.page_faults tr s2.frames s2.page_faults := by
  induction tr with
  | nil => intro s i _; exact ⟨s, rfl, PageRun.nil _ _⟩
  | cons p rest ih =>
    intro s i h
    obtain ⟨hl, hu⟩ := h
    by_cases hm : p ∈ s.frames
    · have hs := lru_step_hit i hl hu hm
      obtain ⟨s2, hr, hrun⟩ :=
        ih { s with last_used := s.last_used.set (s.frames.indexOf p) (i : Int) } (i + 1)
          ⟨hl, by simpa using hu⟩
      refine ⟨s2, by rw [lru_run, hs]; exact hr, PageRun.cons ?_ hrun⟩
      exact ⟨hl, Or.inl ⟨hm, rfl, rfl⟩⟩
    · obtain ⟨r, hr1, _, hs⟩ := lru_step_miss i hl hu h1 hm
      obtain ⟨s2, hr, hrun⟩ :=
        ih { frames := s.frames.set r p, last_used := s.last_used.set r (i : Int),
             page_faults := s.page_faults + 1 } (i + 1)
          ⟨by simpa using hl, by simpa using hu⟩
      refine ⟨s2, by rw [lru_run, hs]; exact hr, PageRun.cons ?_ hrun⟩
      exact ⟨by simpa using hl, Or.inr ⟨hm, ⟨r, hr1, rfl⟩, rfl⟩⟩

/-! ## Traces that fit into the frames -/

theorem set_fill (F : List Int) (n : Nat) (d p : Int) :
    (F ++ List.replicate (n + 1) d).set F.length p = (F ++ [p]) ++ List.replicate n d := by
  rw [List.set_append_right _ _ (le_refl _)]
  simp [List.replicate_succ]

theorem fifo_run_fill {size : Nat} (h1 : 1 ≤ size) (tr : List Int) :
    ∀ (F : List Int) (pf : Nat), F.length + (fresh F tr).length ≤ size →
      (∀ p ∈ tr, 0 ≤ p) →
      ∃ s2, fifo_run size ⟨F ++ List.replicate (size - F.length) (-1), F.length % size, pf⟩ tr
          = .ok s2 ∧ s2.page_faults = pf + (fresh F tr).length := by
  induction tr with
  | nil => intro F pf _ _; exact ⟨_, rfl, by simp [fresh]⟩
  | cons p t ih =>
    intro F pf hd hnn
    have hp : 0 ≤ p := hnn p (by simp)
    have hnt : ∀ q ∈ t, 0 ≤ q := fun q hq => hnn q (by simp [hq])
    have hFl : F.length ≤ size := by omega
    have hinv : FifoInv size
        ⟨F ++ List.replicate (size - F.length) (-1), F.length % size, pf⟩ :=
      ⟨by simp; omega, Nat.mod_lt _ (by omega)⟩
    rw [fifo_run_cons p t hinv]
    by_cases hm : p ∈ F
    · have hm2 : p ∈ F ++ List.replicate (size - F.length) (-1) :=
        (mem_frames_iff F _ hp).mpr hm
      rw [fresh_cons_mem t hm] at hd ⊢
      simp only [fifo_next, hm2, if_true]
      exact ih F pf hd hnt
    · have hm2 : p ∉ F ++ List.replicate (size - F.length) (-1) :=
        fun h => hm ((mem_frames_iff F _ hp).mp h)
      rw [fresh_cons_not_mem t hm, List.length_cons] at hd ⊢
      obtain ⟨n, hn⟩ : ∃ n, size - F.length = n + 1 := ⟨size - F.length - 1, by omega⟩
      have hmod : F.length % size = F.length := Nat.mod_eq_of_lt (by omega)
      have hF2 : (F ++ [p]).length = F.length + 1 := by simp
      have hn2 : size - (F ++ [p]).length = n := by omega
      obtain ⟨s2, hr, hpf⟩ := ih (F ++ [p]) (pf + 1) (by omega) hnt
      refine ⟨s2, ?_, by omega⟩
      unfold fifo_next
      rw [if_neg hm2]
      simp only [hmod, hn, set_fill]
      rw [hn2, hF2] at hr
      exact hr

theorem sc_run_fill (fuel : Nat) {size : Nat} (h1 : 1 ≤ size) (tr : List Int) :
    ∀ (F B : List Int) (pf : Nat), B.length = F.length →
      F.length + (fresh F tr).length ≤ size → (∀ p ∈ tr, 0 ≤ p) →
      ∃ s2, sc_run fuel size ⟨F ++ List.replicate (size - F.length) (-1),
          B ++ List.replicate (size - F.length) 0, F.length % size, pf⟩ tr = .ok s2 ∧
        s2.page_faults = pf + (fresh F tr).length := by
  induction tr with
  | nil => intro F B pf _ _ _; exact ⟨_, rfl, by simp [fresh]⟩
  | cons p t ih =>
    intro F B pf hB hd hnn
    have hp : 0 ≤ p := hnn p (by simp)
    have hnt : ∀ q ∈ t, 0 ≤ q := fun q hq => hnn q (by simp [hq])
    have hFl : F.length ≤ size := by omega
    have hl : (F ++ List.replicate (size - F.length) (-1)).length = size := by simp; omega
    have hb : (B ++ List.replicate (size - F.length) (0 : Int)).length = size := by
      simp; omega
    have hptr : F.length % size < size := Nat.mod_lt _ (by omega)
    rw [sc_run]
    by_cases hm : p ∈ F
    · have hm2 : p ∈ F ++ List.replicate (size - F.length) (-1) :=
        (mem_frames_iff F _ hp).mpr hm
      have hk : (F ++ List.replicate (size - F.length) (-1)).indexOf p = F.indexOf p :=
        List.indexOf_append_of_mem hm
      have hkl : F.indexOf p < B.length := by
        rw [hB]; exact List.indexOf_lt_length.mpr hm
      rw [fresh_cons_mem t hm] at hd ⊢
      rw [sc_step_hit fuel (s := ⟨_, _, _, pf⟩) hl hb hm2]
      simp only [bind, Except.bind, hk, List.set_append_left _ _ hkl]
      exact ih F (B.set (F.indexOf p) 1) pf (by simpa using hB) hd hnt
    · have hm2 : p ∉ F ++ List.replicate (size - F.length) (-1) :=
        fun h => hm ((mem_frames_iff F _ hp).mp h)
      rw [fresh_cons_not_mem t hm, List.length_cons] at hd ⊢
      obtain ⟨n, hn⟩ : ∃ n, size - F.length = n + 1 := ⟨size - F.length - 1, by omega⟩
      have hmod : F.length % size = F.length := Nat.mod_eq_of_lt (by omega)
      have hF2 : (F ++ [p]).length = F.length + 1 := by simp
      have hn2 : size - (F ++ [p]).length = n := by omega
      have hbit : (B ++ List.replicate (size - F.length) (0 : Int)).getD (F.length % size) 0
          ≠ 1 := by
        rw [hmod, hn, ← hB, List.getD_append_right _ _ _ _ (le_refl _)]
        simp
      rw [sc_step_miss_free fuel (s := ⟨_, _, _, pf⟩) hl hb hptr hbit hm2]
      obtain ⟨s2, hr, hpf⟩ := ih (F ++ [p]) (B ++ [1]) (pf + 1) (by simp [hB]) (by omega) hnt
      refine ⟨s2, ?_, by omega⟩
      simp only [bind, Except.bind, hmod, hn, set_fill]
      rw [hn2, hF2] at hr
      rw [← hB, set_fill, hB]
      exact hr

/-! ## Fault counts of FIFO and second chance against the number of distinct pages -/

theorem fifo_nil (size : Nat) : fifo [] size = .ok 0 := rfl

theorem second_chance_nil (fuel size : Nat) : second_chance fuel [] size = .ok 0 := rfl

theorem fifo_result {size : Nat} {tr : List Int} {s2 : FifoState}
    (h : fifo_run size (fifo_init size) tr = .ok s2) : fifo tr size = .ok s2.page_faults := by
  simp [fifo, h, bind, Except.bind]

theorem sc_result {fuel size : Nat} {tr : List Int} {s2 : ScState}
    (h : sc_run fuel size (sc_init size) tr = .ok s2) :
    second_chance fuel tr size = .ok s2.page_faults := by
  simp [second_chance, h, bind, Except.bind]

theorem init_frames_seen (size : Nat) :
    ∀ q ∈ List.replicate size (-1 : Int), q = -1 ∨ q ∈ ([] : List Int) :=
  fun _ hq => Or.inl (List.mem_replicate.mp hq).2

theorem fifo_lower {size : Nat} (h1 : 1 ≤ size) (tr : List Int) (hnn : ∀ p ∈ tr, 0 ≤ p) :
    ∃ n, fifo tr size = .ok n ∧ tr.toFinset.card ≤ n := by
  obtain ⟨s2, hr, hrun⟩ := fifo_run_pageRun tr _ (fifo_init_inv h1)
  refine ⟨_, fifo_result hr, ?_⟩
  have := pageRun_lower hrun [] (init_frames_seen size) hnn
  rw [← distinct_pages_length]
  simpa [fifo_init, distinct_pages] using this

theorem fifo_upper {size : Nat} (h1 : 1 ≤ size) (tr : List Int) (hne : tr ≠ []) :
    ∃ n, fifo tr size = .ok n ∧ n ≤ 1 + changes tr := by
  obtain ⟨s2, hr, hrun⟩ := fifo_run_pageRun tr _ (fifo_init_inv h1)
  exact ⟨_, fifo_result hr, pageRun_upper_init hrun (by simp [fifo_init]) hne⟩

theorem fifo_exact {size : Nat} (h1 : 1 ≤ size) (tr : List Int) (hnn : ∀ p ∈ tr, 0 ≤ p)
    (hc : tr.toFinset.card ≤ size) : fifo tr size = .ok tr.toFinset.card := by
  obtain ⟨s2, hr, hpf⟩ := fifo_run_fill h1 tr [] 0
    (by simpa [← distinct_pages_length, distinct_pages] using hc) hnn
  have hinit : fifo_init size = ⟨[] ++ List.replicate (size - ([] : List Int).length) (-1),
      ([] : List Int).length % size, 0⟩ := by
    simp [fifo_init]
  rw [← hinit] at hr
  rw [fifo_result hr, hpf, ← distinct_pages_length]
  simp [distinct_pages]

theorem sc_lower {size : Nat} (h1 : 1 ≤ size) (tr : List Int) (hnn : ∀ p ∈ tr, 0 ≤ p) :
    ∃ n, second_chance size tr size = .ok n ∧ tr.toFinset.card ≤ n := by
  obtain ⟨s2, hr, hrun⟩ := sc_run_pageRun h1 tr _ (sc_init_inv h1)
  refine ⟨_, sc_result hr, ?_⟩
  have := pageRun_lower hrun [] (init_frames_seen size) hnn
  rw [← distinct_pages_length]
  simpa [sc_init, distinct_pages] using this

theorem sc_upper {size : Nat} (h1 : 1 ≤ size) (tr : List Int) (hne : tr ≠ []) :
    ∃ n, second_chance size tr size = .ok n ∧ n ≤ 1 + changes tr := by
  obtain ⟨s2, hr, hrun⟩ := sc_run_pageRun h1 tr _ (sc_init_inv h1)
  exact ⟨_, sc_result hr, pageRun_upper_init hrun (by simp [sc_init]) hne⟩

theorem sc_exact {size : Nat} (h1 : 1 ≤ size) (tr : List Int) (hnn : ∀ p ∈ tr, 0 ≤ p)
    (hc : tr.toFinset.card ≤ size) :
    second_chance size tr size = .ok tr.toFinset.card := by
  obtain ⟨s2, hr, hpf⟩ := sc_run_fill size h1 tr [] [] 0 rfl
    (by simpa [← distinct_pages_length, distinct_pages] using hc) hnn
  have hinit : sc_init size = ⟨[] ++ List.replicate (size - ([] : List Int).length) (-1),
      [] ++ List.replicate (size - ([] : List Int).length) 0,
      ([] : List Int).length % size, 0⟩ := by
    simp [sc_init]
  rw [← hinit] at hr
  rw [sc_result hr, hpf, ← distinct_pages_length]
  simp [distinct_pages]

/-- C2, counterexample: on the trace `1 2 3 4 1 2 5 1 2 3 4 5` of non-negative pages `fifo`
counts 9 faults with 3 frames and 10 faults with 4 frames, so more frames gave more
faults. -/
theorem fifo_more_frames_more_faults :
    (∀ p ∈ [1, 2, 3, 4, 1, 2, 5, 1, 2, 3, 4, 5], (0 : Int) ≤ p) ∧
      fifo [1, 2, 3, 4, 1, 2, 5, 1, 2, 3, 4, 5] 3 = .ok 9 ∧
      fifo [1, 2, 3, 4, 1, 2, 5, 1, 2, 3, 4, 5] 4 = .ok 10 ∧
      ¬ ∃ n1 n2, fifo [1, 2, 3, 4, 1, 2, 5, 1, 2, 3, 4, 5] 3 = .ok n1 ∧
        fifo [1, 2, 3, 4, 1, 2, 5, 1, 2, 3, 4, 5] 4 = .ok n2 ∧ n2 ≤ n1 := by
  refine ⟨by decide, rfl, rfl, ?_⟩
  rintro ⟨n1, n2, h1, h2, hle⟩
  have e1 : (9 : Nat) = n1 := Except.ok.inj h1
  have e2 : (10 : Nat) = n2 := Except.ok.inj h2
  omega

/-- C2, amended: on a trace of non-negative pages and for `1 ≤ s1 ≤ s2`, `fifo` with `s2`
frames returns at most the fault count it returns with `s1` frames when `s1 = 1`, when
`s1 = s2`, or when the trace has at most `s2` distinct pages. -/
theorem fifo_monotone_cases (tr : List Int) (s1 s2 : Nat) (h1 : 1 ≤ s1) (h12 : s1 ≤ s2)
    (hnn : ∀ p ∈ tr, 0 ≤ p) (hc : s1 = 1 ∨ s1 = s2 ∨ tr.toFinset.card ≤ s2) :
    ∃ n1 n2, fifo tr s1 = .ok n1 ∧ fifo tr s2 = .ok n2 ∧ n2 ≤ n1 := by
  have h2 : 1 ≤ s2 := le_trans h1 h12
  rcases hc with hc | hc | hc
  · subst hc
    cases tr with
    | nil => exact ⟨0, 0, fifo_nil _, fifo_nil _, le_refl _⟩
    | cons p rest =>
      obtain ⟨n2, hn2, hle⟩ := fifo_upper h2 (p :: rest) (by simp)
      exact ⟨_, n2, fifo_single p rest (hnn p (by simp)), hn2, hle⟩
  · subst hc
    obtain ⟨n, hn, _⟩ := fifo_lower h1 tr hnn
    exact ⟨n, n, hn, hn, le_refl _⟩
  · obtain ⟨n1, hn1, hle⟩ := fifo_lower h1 tr hnn
    exact ⟨n1, _, hn1, fifo_exact h2 tr hnn hc, hle⟩

/-- C3, counterexample: on the trace `0 1 2 3 1 0 1 4 0 1` of non-negative pages
`second_chance` counts 6 faults with 3 frames and 7 faults with 4 frames, whatever budget of
at least `size` advances its victim search is given. -/
theorem second_chance_more_frames_more_faults :
    (∀ p ∈ [0, 1, 2, 3, 1, 0, 1, 4, 0, 1], (0 : Int) ≤ p) ∧
      (∀ fuel, 3 ≤ fuel → second_chance fuel [0, 1, 2, 3, 1, 0, 1, 4, 0, 1] 3 = .ok 6) ∧
      (∀ fuel, 4 ≤ fuel → second_chance fuel [0, 1, 2, 3, 1, 0, 1, 4, 0, 1] 4 = .ok 7) ∧
      ¬ ∃ n1 n2, second_chance 3 [0, 1, 2, 3, 1, 0, 1, 4, 0, 1] 3 = .ok n1 ∧
        second_chance 4 [0, 1, 2, 3, 1, 0, 1, 4, 0, 1] 4 = .ok n2 ∧ n2 ≤ n1 := by
  refine ⟨by decide, fun fuel hf => second_chance_mono hf rfl,
    fun fuel hf => second_chance_mono hf rfl, ?_⟩
  rintro ⟨n1, n2, h1, h2, hle⟩
  have e1 : (6 : Nat) = n1 := Except.ok.inj h1
  have e2 : (7 : Nat) = n2 := Except.ok.inj h2
  omega

/-- C3, amended: on a trace of non-negative pages and for `1 ≤ s1 ≤ s2`, `second_chance`
with `s2` frames returns at most the fault count it returns with `s1` frames when `s1 = 1`,
when `s1 = s2`, or when the trace has at most `s2` distinct pages; the counts are those
obtained with any budget of at least `size` advances per victim search. -/
theorem second_chance_monotone_cases (tr : List Int) (s1 s2 : Nat) (h1 : 1 ≤ s1)
    (h12 : s1 ≤ s2) (hnn : ∀ p ∈ tr, 0 ≤ p)
    (hc : s1 = 1 ∨ s1 = s2 ∨ tr.toFinset.card ≤ s2) :
    ∃ n1 n2, (∀ fuel, s1 ≤ fuel → second_chance fuel tr s1 = .ok n1) ∧
      (∀ fuel, s2 ≤ fuel → second_chance fuel tr s2 = .ok n2) ∧ n2 ≤ n1 := by
  have h2 : 1 ≤ s2 := le_trans h1 h12
  rcases hc with hc | hc | hc
  · subst hc
    cases tr with
    | nil =>
      exact ⟨0, 0, fun _ _ => second_chance_nil _ _, fun _ _ => second_chance_nil _ _,
        le_refl _⟩
    | cons p rest =>
      obtain ⟨n2, hn2, hle⟩ := sc_upper h2 (p :: rest) (by simp)
      exact ⟨_, n2, fun fuel hf => second_chance_mono hf (sc_single p rest (hnn p (by simp))),
        fun fuel hf => second_chance_mono hf hn2, hle⟩
  · subst hc
    obtain ⟨n, hn, _⟩ := sc_lower h1 tr hnn
    exact ⟨n, n, fun fuel hf => second_chance_mono hf hn,
      fun fuel hf => second_chance_mono hf hn, le_refl _⟩
  · obtain ⟨n1, hn1, hle⟩ := sc_lower h1 tr hnn
    exact ⟨n1, _, fun fuel hf => second_chance_mono hf hn1,
      fun fuel hf => second_chance_mono hf (sc_exact h2 tr hnn hc), hle⟩

/-- C8, counterexample: on `1 2 3 1 2 3 1 2 3` with two frames `fifo` does not return 5. -/
theorem fifo_fixture_not_five : fifo [1, 2, 3, 1, 2, 3, 1, 2, 3] 2 ≠ .ok 5 := by
  intro h
  have e : (9 : Nat) = 5 := Except.ok.inj h
  omega

/-- C8, amended: on `1 2 3 1 2 3 1 2 3` with two frames `fifo` returns 9: every reference
is a fault. -/
theorem fifo_fixture_nine : fifo [1, 2, 3, 1, 2, 3, 1, 2, 3] 2 = .ok 9 := rfl

/-- C9, failing input: on the trace `0 1 0 1 0 1 0 1`, which has two distinct pages, with seven
frames and lookahead limit 2 the warm-up loop of `optimal` reads `ref_str` past its end. -/
theorem optimal_warmup_overrun :
    optimal [0, 1, 0, 1, 0, 1, 0, 1] 7 2 = .error .traceIndex := rfl

/-! ## Instances of the theorems above on concrete inputs -/

theorem lru_monotone_witness :
    ∃ n1 n2, lru [0, 1, 2, 0, 3, 1] 2 = .ok n1 ∧ lru [0, 1, 2, 0, 3, 1] 3 = .ok n2 ∧ n2 ≤ n1 :=
  lru_monotone [0, 1, 2, 0, 3, 1] 2 3 (by decide) (by decide) (by decide)

theorem fifo_monotone_cases_witness :
    ∃ n1 n2, fifo [0, 1, 2, 0, 3, 1] 2 = .ok n1 ∧ fifo [0, 1, 2, 0, 3, 1] 4 = .ok n2 ∧
      n2 ≤ n1 :=
  fifo_monotone_cases [0, 1, 2, 0, 3, 1] 2 4 (by decide) (by decide) (by decide)
    (Or.inr (Or.inr (by decide)))

theorem second_chance_monotone_cases_witness :
    ∃ n1 n2, (∀ fuel, 2 ≤ fuel → second_chance fuel [0, 1, 2, 0, 3, 1] 2 = .ok n1) ∧
      (∀ fuel, 4 ≤ fuel → second_chance fuel [0, 1, 2, 0, 3, 1] 4 = .ok n2) ∧ n2 ≤ n1 :=
  second_chance_monotone_cases [0, 1, 2, 0, 3, 1] 2 4 (by decide) (by decide) (by decide)
    (Or.inr (Or.inr (by decide)))

theorem generator_no_immediate_repeat_witness :
    ∃ s, gen_iterate 32767 (fun k => k * 7 + 3) (fun r => decide (r < 16000)) 10 3 2 6
        (gen_init (List.replicate 4 0)) = .ok s ∧
      s.ref_count ≤ s.ref_str.length ∧
      ∀ i, 1 ≤ i → i < s.ref_count → s.ref_str.getD i 0 ≠ s.ref_str.getD (i - 1) 0 :=
  generator_no_immediate_repeat 32767 (fun k => k * 7 + 3) (fun r => decide (r < 16000))
    10 3 2 (List.replicate 4 0) 6 (by decide) (by decide) (by decide)

theorem generator_range_witness :
    ∃ s, gen_iterate 32767 (fun k => k * 7 + 3) (fun r => decide (r < 16000)) 10 3 2 6
        (gen_init (List.replicate 4 0)) = .ok s ∧
      s.ref_count ≤ s.ref_str.length ∧
      0 ≤ s.locus_position ∧ s.locus_position ≤ 10 - 3 ∧
      ∀ i, i < s.ref_count → 0 ≤ s.ref_str.getD i 0 ∧ s.ref_str.getD i 0 < 10 :=
  generator_range 32767 (fun k => k * 7 + 3) (fun r => decide (r < 16000))
    10 3 2 (List.replicate 4 0) 6 (by decide) (by decide) (by decide)

theorem single_frame_fault_count_witness :
    optimal [4, 4, 2, 4] 1 3 = .ok (1 + changes [4, 4, 2, 4]) ∧
      fifo [4, 4, 2, 4] 1 = .ok (1 + changes [4, 4, 2, 4]) ∧
      lru [4, 4, 2, 4] 1 = .ok (1 + changes [4, 4, 2, 4]) ∧
      (∀ fuel, 1 ≤ fuel → second_chance fuel [4, 4, 2, 4] 1 = .ok (1 + changes [4, 4, 2, 4])) ∧
      (List.Chain' (fun a b => a ≠ b) ([4, 4, 2, 4] : List Int) →
        1 + changes [4, 4, 2, 4] = ([4, 4, 2, 4] : List Int).length) :=
  single_frame_fault_count [4, 4, 2, 4] 3 (by decide) (by decide)

theorem optimal_warmup_distinct_witness :
    ∃ cur, cur ≤ ([1, 1, 2, 1, 2, 3, 3, 4] : List Int).length ∧
      optimal_warmup 3 [1, 1, 2, 1, 2, 3, 3, 4] 0 0 (List.replicate 3 (-1)) 0 =
        .ok ⟨(distinct_pages [1, 1, 2, 1, 2, 3, 3, 4]).take 3, cur, 3⟩ ∧
      distinct_pages (List.take cur [1, 1, 2, 1, 2, 3, 3, 4]) =
        (distinct_pages [1, 1, 2, 1, 2, 3, 3, 4]).take 3 ∧
      (List.take cur ([1, 1, 2, 1, 2, 3, 3, 4] : List Int)).toFinset.card = 3 ∧
      (∀ c, c < cur → (List.take c ([1, 1, 2, 1, 2, 3, 3, 4] : List Int)).toFinset.card < 3) ∧
      (∀ j p, ((distinct_pages [1, 1, 2, 1, 2, 3, 3, 4]).take 3)[j]? = some p →
        ∃ k, k < cur ∧ ([1, 1, 2, 1, 2, 3, 3, 4] : List Int)[k]? = some p ∧
          p ∉ List.take k ([1, 1, 2, 1, 2, 3, 3, 4] : List Int) ∧
          (List.take k ([1, 1, 2, 1, 2, 3, 3, 4] : List Int)).toFinset.card = j) ∧
      ∀ limit, optimal [1, 1, 2, 1, 2, 3, 3, 4] 3 limit =
        optimal_steady 3 limit (List.drop cur [1, 1, 2, 1, 2, 3, 3, 4])
          ((distinct_pages [1, 1, 2, 1, 2, 3, 3, 4]).take 3) 3 :=
  optimal_warmup_distinct [1, 1, 2, 1, 2, 3, 3, 4] 3 (by decide) (by decide) (by decide)

theorem single_pass_simulators_total_witness :
    (∃ n, fifo [3, 1, 3, 2] 2 = .ok n) ∧ (∃ n, lru [3, 1, 3, 2] 2 = .ok n) ∧
      (∃ n, ∀ fuel, 2 ≤ fuel → second_chance fuel [3, 1, 3, 2] 2 = .ok n) :=
  single_pass_simulators_total [3, 1, 3, 2] 2 (by decide)

/-! ## Fault counts between the number of distinct pages and the length of the trace -/

theorem pageRun_le_length {size : Nat} {fr fr2 : List Int} {pf pf2 : Nat} {tr : List Int}
    (h : PageRun size fr pf tr fr2 pf2) : pf2 ≤ pf + tr.length := by
  induction h with
  | nil fr pf => simp
  | @cons fr fr1 fr2 pf pf1 pf2 p t hstep _ ih =>
    obtain ⟨_, hcase⟩ := hstep
    rw [List.length_cons]
    rcases hcase with ⟨_, _, he⟩ | ⟨_, _, he⟩ <;> omega

theorem lru_result {size : Nat} {tr : List Int} {s2 : LruState}
    (h : lru_run size (lru_init size) 0 tr = .ok s2) : lru tr size = .ok s2.page_faults := by
  simp [lru, h, bind, Except.bind]

theorem fifo_bounds {size : Nat} (h1 : 1 ≤ size) (tr : List Int) (hnn : ∀ p ∈ tr, 0 ≤ p) :
    ∃ n, fifo tr size = .ok n ∧ tr.toFinset.card ≤ n ∧ n ≤ tr.length := by
  obtain ⟨s2, hr, hrun⟩ := fifo_run_pageRun tr _ (fifo_init_inv h1)
  have hlo := pageRun_lower hrun [] (init_frames_seen size) hnn
  have hup := pageRun_le_length hrun
  rw [← distinct_pages_length]
  refine ⟨_, fifo_result hr, ?_, ?_⟩
  · simpa [fifo_init, distinct_pages] using hlo
  · simpa [fifo_init] using hup

theorem lru_bounds {size : Nat} (h1 : 1 ≤ size) (tr : List Int) (hnn : ∀ p ∈ tr, 0 ≤ p) :
    ∃ n, lru tr size = .ok n ∧ tr.toFinset.card ≤ n ∧ n ≤ tr.length := by
  obtain ⟨s2, hr, hrun⟩ := lru_run_pageRun h1 tr _ 0 (lru_init_inv size)
  have hlo := pageRun_lower hrun [] (init_frames_seen size) hnn
  have hup := pageRun_le_length hrun
  rw [← distinct_pages_length]
  refine ⟨_, lru_result hr, ?_, ?_⟩
  · simpa [lru_init, distinct_pages] using hlo
  · simpa [lru_init] using hup

theorem sc_bounds {size : Nat} (h1 : 1 ≤ size) (tr : List Int) (hnn : ∀ p ∈ tr, 0 ≤ p) :
    ∃ n, second_chance size tr size = .ok n ∧ tr.toFinset.card ≤ n ∧ n ≤ tr.length := by
  obtain ⟨s2, hr, hrun⟩ := sc_run_pageRun h1 tr _ (sc_init_inv h1)
  have hlo := pageRun_lower hrun [] (init_frames_seen size) hnn
  have hup := pageRun_le_length hrun
  rw [← distinct_pages_length]
  refine ⟨_, sc_result hr, ?_, ?_⟩
  · simpa [sc_init, distinct_pages] using hlo
  · simpa [sc_init] using hup

/-- C17: with at least one frame and a trace of non-negative pages, each of `fifo`, `lru` and
`second_chance` returns a fault count that is at least the number of distinct pages of the
trace and at most its length. -/
theorem fault_count_bounds (tr : List Int) (size : Nat) (h1 : 1 ≤ size)
    (hnn : ∀ p ∈ tr, 0 ≤ p) :
    (∃ n, fifo tr size = .ok n ∧ tr.toFinset.card ≤ n ∧ n ≤ tr.length) ∧
      (∃ n, lru tr size = .ok n ∧ tr.toFinset.card ≤ n ∧ n ≤ tr.length) ∧
      (∃ n, (∀ fuel, size ≤ fuel → second_chance fuel tr size = .ok n) ∧
        tr.toFinset.card ≤ n ∧ n ≤ tr.length) := by
  refine ⟨fifo_bounds h1 tr hnn, lru_bounds h1 tr hnn, ?_⟩
  obtain ⟨n, hn, hlo, hup⟩ := sc_bounds h1 tr hnn
  exact ⟨n, fun fuel hf => second_chance_mono hf hn, hlo, hup⟩

/-! ## Traces that fit into the frames: LRU -/

theorem fresh_congr (l : List Int) :
    ∀ s1 s2 : List Int, (∀ x, x ∈ s1 ↔ x ∈ s2) → fresh s1 l = fresh s2 l := by
  induction l with
  | nil => intro s1 s2 _; rfl
  | cons p t ih =>
    intro s1 s2 h
    by_cases hp : p ∈ s1
    · rw [fresh_cons_mem t hp, fresh_cons_mem t ((h p).mp hp)]
      exact ih s1 s2 h
    · rw [fresh_cons_not_mem t hp, fresh_cons_not_mem t (fun e => hp ((h p).mpr e))]
      congr 1
      apply ih
      intro x
      simp only [List.mem_append, List.mem_singleton, h x]

theorem mem_touch_pages (p i : Int) (st : List (Int × Int)) (x : Int) :
    x ∈ (touch p i st).map Prod.fst ↔ x = p ∨ x ∈ st.map Prod.fst := by
  unfold touch
  simp only [List.map_cons, List.mem_cons, List.mem_map, List.mem_filter, decide_eq_true_eq]
  constructor
  · rintro (h | ⟨y, ⟨hy, _⟩, rfl⟩)
    · exact Or.inl h
    · exact Or.inr ⟨y, hy, rfl⟩
  · rintro (h | ⟨y, hy, rfl⟩)
    · exact Or.inl h
    · by_cases e : y.1 = p
      · exact Or.inl e
      · exact Or.inr ⟨y, ⟨hy, e⟩, rfl⟩

theorem touch_length_le (p i : Int) (st : List (Int × Int)) :
    (touch p i st).length ≤ st.length + 1 := by
  unfold touch
  rw [List.length_cons]
  have := List.length_filter_le (fun x : Int × Int => decide (x.1 ≠ p)) st
  omega

theorem touch_length_mem (p i : Int) (st : List (Int × Int)) (h : p ∈ st.map Prod.fst) :
    (touch p i st).length ≤ st.length := by
  unfold touch
  rw [List.length_cons]
  obtain ⟨y, hy, hy1⟩ := List.mem_map.mp h
  have : (st.filter (fun x : Int × Int => decide (x.1 ≠ p))).length < st.length := by
    apply List.length_filter_lt_length_iff_exists.mpr
    exact ⟨y, hy, by simp [hy1]⟩
  omega

theorem stack_faults_fit (s : Nat) (tr : List Int) :
    ∀ (st : List (Int × Int)) (i : Nat),
      st.length + (fresh (st.map Prod.fst) tr).length ≤ s →
      stack_faults s st i tr = (fresh (st.map Prod.fst) tr).length := by
  induction tr with
  | nil => intro st i _; rfl
  | cons p t ih =>
    intro st i h
    have htake : st.take s = st := List.take_of_length_le (by omega)
    rw [stack_faults, htake]
    by_cases hp : p ∈ st.map Prod.fst
    · rw [fresh_cons_mem t hp] at h ⊢
      have hc : fresh ((touch p (i : Int) st).map Prod.fst) t = fresh (st.map Prod.fst) t := by
        apply fresh_congr
        intro x
        rw [mem_touch_pages]
        constructor
        · rintro (e | e)
          · exact e ▸ hp
          · exact e
        · exact Or.inr
      have hl := touch_length_mem p (i : Int) st hp
      rw [if_pos hp, ih _ (i + 1) (by rw [hc]; omega), hc]
      omega
    · rw [fresh_cons_not_mem t hp, List.length_cons] at h ⊢
      have hc : fresh ((touch p (i : Int) st).map Prod.fst) t =
          fresh (st.map Prod.fst ++ [p]) t := by
        apply fresh_congr
        intro x
        rw [mem_touch_pages]
        simp only [List.mem_append, List.mem_singleton]
        tauto
      have hl := touch_length_le p (i : Int) st
      rw [if_neg hp, ih _ (i + 1) (by rw [hc]; omega), hc]
      omega

theorem lru_exact {size : Nat} (h1 : 1 ≤ size) (tr : List Int) (hnn : ∀ p ∈ tr, 0 ≤ p)
    (hc : tr.toFinset.card ≤ size) : lru tr size = .ok tr.toFinset.card := by
  rw [lru_eq_stack_faults h1 tr hnn, stack_faults_fit size tr [] 0
    (by simpa [← distinct_pages_length, distinct_pages] using hc), ← distinct_pages_length]
  rfl

/-- C18: with at least one frame and a trace of non-negative pages that has at most as many
distinct pages as there are frames, each of `fifo`, `lru` and `second_chance` returns exactly
the number of distinct pages of the trace. -/
theorem fault_count_fits (tr : List Int) (size : Nat) (h1 : 1 ≤ size)
    (hnn : ∀ p ∈ tr, 0 ≤ p) (hc : tr.toFinset.card ≤ size) :
    fifo tr size = .ok tr.toFinset.card ∧ lru tr size = .ok tr.toFinset.card ∧
      ∀ fuel, size ≤ fuel → second_chance fuel tr size = .ok tr.toFinset.card :=
  ⟨fifo_exact h1 tr hnn hc, lru_exact h1 tr hnn hc,
    fun _ hf => second_chance_mono hf (sc_exact h1 tr hnn hc)⟩

/-- C19: on the trace `0 1 2 3 1 0 2 3` of non-negative pages with three frames and lookahead
limit 1, `optimal` counts 6 faults and `fifo` counts 5: some trace, frame count and limit make
`optimal` return strictly more faults than `fifo`. -/
theorem optimal_above_fifo :
    optimal [0, 1, 2, 3, 1, 0, 2, 3] 3 1 = .ok 6 ∧ fifo [0, 1, 2, 3, 1, 0, 2, 3] 3 = .ok 5 ∧
      ∃ (tr : List Int) (size : Nat) (limit : Int) (a b : Nat),
        (∀ p ∈ tr, 0 ≤ p) ∧ 1 ≤ size ∧ 0 ≤ limit ∧
          optimal tr size limit = .ok a ∧ fifo tr size = .ok b ∧ b < a :=
  ⟨rfl, rfl, [0, 1, 2, 3, 1, 0, 2, 3], 3, 1, 6, 5, by decide, by decide, by decide, rfl, rfl,
    by decide⟩

/-! ## FIFO: the frames in terms of the fault numbers -/

theorem mod_ne_of_lt_add {size f k : Nat} (h1 : f < k) (h2 : k < f + size) :
    f % size ≠ k % size := by
  intro h
  have h3 := Nat.sub_mod_eq_zero_of_mod_eq h.symm
  rw [Nat.mod_eq_of_lt (by omega)] at h3
  omega

theorem mod_inj_window {size k f g : Nat} (hf : f < k) (hfk : k ≤ f + size) (hg : g < k)
    (hgk : k ≤ g + size) (h : f % size = g % size) : f = g := by
  rcases Nat.lt_trichotomy f g with hlt | heq | hgt
  · exact absurd h (mod_ne_of_lt_add hlt (by omega))
  · exact heq
  · exact absurd h.symm (mod_ne_of_lt_add hgt (by omega))

theorem getD_mem {l : List Int} {j : Nat} (h : j < l.length) : l.getD j 0 ∈ l := by
  rw [List.getD_eq_getElem _ _ h]
  exact List.getElem_mem _

theorem exists_getD_of_mem {l : List Int} {q : Int} (h : q ∈ l) :
    ∃ j, j < l.length ∧ l.getD j 0 = q := by
  obtain ⟨j, hj, e⟩ := List.getElem_of_mem h
  exact ⟨j, hj, by rw [List.getD_eq_getElem _ _ hj]; exact e⟩

theorem fifo_fault_pages_cons {size : Nat} {s : FifoState} (p : Int) (t : List Int)
    (h : FifoInv size s) :
    fifo_fault_pages size s (p :: t) =
      (if p ∈ s.frames then [] else [p]) ++ fifo_fault_pages size (fifo_next size s p) t := by
  rw [fifo_fault_pages, fifo_step_eq p h.1 h.2]
  simp only
  unfold fifo_next
  by_cases hm : p ∈ s.frames
  · simp [hm]
  · simp [hm]

theorem fifoHist_fault {size : Nat} {s : FifoState} {L : List Int} {p : Int} (h1 : 1 ≤ size)
    (hp : 0 ≤ p) (h : FifoHist size s L) :
    FifoHist size ⟨s.frames.set s.front p, (s.front + 1) % size, s.page_faults + 1⟩
      (L ++ [p]) := by
  obtain ⟨hl, hf, hpf, hnn, hslot⟩ := h
  have hfl : s.front < s.frames.length := by
    rw [hl, hf]; exact Nat.mod_lt _ (by omega)
  refine ⟨by simpa using hl, ?_, by simp [hpf], ?_, ?_⟩
  · simp only [hf, List.length_append, List.length_singleton]
    exact Nat.mod_add_mod _ _ _
  · intro x hx
    rcases List.mem_append.mp hx with h | h
    · exact hnn x h
    · rw [List.mem_singleton.mp h]; exact hp
  · intro j hj
    simp only [List.length_append, List.length_singleton, getD_set _ _ _ _ hfl]
    by_cases hjf : j = s.front
    · right
      refine ⟨L.length, by omega, by omega, by rw [hjf, hf], ?_⟩
      rw [if_pos hjf, List.getD_append_right _ _ _ _ (le_refl _)]
      simp
    · rw [if_neg hjf]
      rcases hslot j hj with ⟨hle, he⟩ | ⟨f, hfk, hks, hmod, he⟩
      · left
        refine ⟨?_, he⟩
        have : L.length % size = L.length := Nat.mod_eq_of_lt (by omega)
        rw [hf, this] at hjf
        omega
      · right
        refine ⟨f, by omega, ?_, hmod, ?_⟩
        · by_contra hlt
          have hk : L.length = f + size := by omega
          apply hjf
          rw [hf, hk, Nat.add_mod_right, hmod]
        · rw [he, List.getD_append _ _ _ _ hfk]

theorem fifoHist_inv {size : Nat} {s : FifoState} {L : List Int} (h1 : 1 ≤ size)
    (h : FifoHist size s L) : FifoInv size s :=
  ⟨h.1, by rw [h.2.1]; exact Nat.mod_lt _ (by omega)⟩

theorem fifo_run_hist {size : Nat} (h1 : 1 ≤ size) (tr : List Int) :
    ∀ (s : FifoState) (L : List Int), FifoHist size s L → (∀ p ∈ tr, 0 ≤ p) →
      ∃ s2, fifo_run size s tr = .ok s2 ∧
        FifoHist size s2 (L ++ fifo_fault_pages size s tr) := by
  induction tr with
  | nil =>
    intro s L h _
    exact ⟨s, rfl, by simpa [fifo_fault_pages] using h⟩
  | cons p t ih =>
    intro s L h hnn
    have hinv := fifoHist_inv h1 h
    have hp : 0 ≤ p := hnn p (by simp)
    have hnt : ∀ q ∈ t, 0 ≤ q := fun q hq => hnn q (by simp [hq])
    rw [fifo_run_cons p t hinv, fifo_fault_pages_cons p t hinv]
    by_cases hm : p ∈ s.frames
    · have hnext : fifo_next size s p = s := by simp [fifo_next, hm]
      rw [hnext, if_pos hm]
      exact ih s L h hnt
    · have hnext : fifo_next size s p =
          ⟨s.frames.set s.front p, (s.front + 1) % size, s.page_faults + 1⟩ := by
        simp [fifo_next, hm]
      rw [hnext, if_neg hm]
      obtain ⟨s2, hr, hh⟩ := ih _ (L ++ [p]) (fifoHist_fault h1 hp h) hnt
      exact ⟨s2, hr, by simpa using hh⟩

theorem fifo_init_hist (size : Nat) : FifoHist size (fifo_init size) [] := by
  refine ⟨by simp [fifo_init], by simp [fifo_init], by simp [fifo_init],
    fun x hx => by simp at hx, ?_⟩
  intro j hj
  left
  refine ⟨Nat.zero_le _, ?_⟩
  simp [fifo_init, List.getD_eq_getElem?_getD, hj]

theorem fifoHist_resident {size : Nat} {s : FifoState} {L : List Int} (h1 : 1 ≤ size)
    (hh : FifoHist size s L) (q : Int) :
    (q ∈ s.frames ∧ q ≠ -1) ↔ q ∈ L.drop (L.length - size) := by
  obtain ⟨hl, hf, hpf, hLnn, hslot⟩ := hh
  constructor
  · rintro ⟨hq, hne⟩
    obtain ⟨j, hj, e⟩ := exists_getD_of_mem hq
    rcases hslot j (by omega) with ⟨_, he⟩ | ⟨f, hfk, hks, _, he⟩
    · rw [e] at he; exact absurd he hne
    · rw [List.mem_drop_iff_getElem]
      refine ⟨f - (L.length - size), by omega, ?_⟩
      have hidx : L.length - size + (f - (L.length - size)) = f := by omega
      simp only [hidx]
      rw [← e, he, List.getD_eq_getElem _ _ hfk]
  · intro hq
    rw [List.mem_drop_iff_getElem] at hq
    obtain ⟨i, hi, e⟩ := hq
    have hfk : L.length - size + i < L.length := by omega
    have hq0 : 0 ≤ q := by
      rw [← e]; exact hLnn _ (List.getElem_mem _)
    have hj : (L.length - size + i) % size < size := Nat.mod_lt _ (by omega)
    rcases hslot _ hj with ⟨hle, _⟩ | ⟨g, hgk, hgs, hgmod, he⟩
    · have := Nat.mod_le (L.length - size + i) size
      omega
    · have hg : g = L.length - size + i :=
        mod_inj_window hgk hgs hfk (by omega) hgmod
      have hqe : s.frames.getD ((L.length - size + i) % size) 0 = q := by
        rw [he, hg, List.getD_eq_getElem _ _ hfk]; exact e
      refine ⟨?_, by omega⟩
      rw [← hqe]
      exact getD_mem (by omega)

theorem fifo_queue_faults_hist {size : Nat} (h1 : 1 ≤ size) (tr : List Int) :
    ∀ (s : FifoState) (L : List Int), FifoHist size s L → (∀ p ∈ tr, 0 ≤ p) →
      fifo_queue_faults size L tr = L ++ fifo_fault_pages size s tr := by
  induction tr with
  | nil =>
    intro s L _ _
    simp [fifo_queue_faults, fifo_fault_pages]
  | cons p t ih =>
    intro s L h hnn
    have hinv := fifoHist_inv h1 h
    have hp : 0 ≤ p := hnn p (by simp)
    have hnt : ∀ q ∈ t, 0 ≤ q := fun q hq => hnn q (by simp [hq])
    have hres := fifoHist_resident h1 h p
    rw [fifo_queue_faults, fifo_fault_pages_cons p t hinv]
    by_cases hm : p ∈ s.frames
    · have hnext : fifo_next size s p = s := by simp [fifo_next, hm]
      have hd : p ∈ L.drop (L.length - size) := hres.mp ⟨hm, by omega⟩
      rw [hnext, if_pos hm, if_pos hd, List.nil_append]
      exact ih s L h hnt
    · have hnext : fifo_next size s p =
          ⟨s.frames.set s.front p, (s.front + 1) % size, s.page_faults + 1⟩ := by
        simp [fifo_next, hm]
      have hd : p ∉ L.drop (L.length - size) := fun hd => hm (hres.mpr hd).1
      rw [hnext, if_neg hm, if_neg hd, ih _ (L ++ [p]) (fifoHist_fault h1 hp h) hnt,
        List.append_assoc]

theorem fifo_run_snoc {size : Nat} (pre : List Int) (p : Int) :
    ∀ s s2, fifo_run size s pre = .ok s2 →
      fifo_run size s (pre ++ [p]) = fifo_step size s2 p := by
  induction pre with
  | nil =>
    intro s s2 h
    have e : s = s2 := Except.ok.inj h
    subst e
    show fifo_run size s [p] = _
    rw [fifo_run]
    cases fifo_step size s p <;> rfl
  | cons a t ih =>
    intro s s2 h
    rw [fifo_run] at h
    rw [List.cons_append, fifo_run]
    cases hs : fifo_step size s a with
    | error e => rw [hs] at h; cases h
    | ok s1 =>
      rw [hs] at h
      exact ih s1 s2 h

/-- C15: with at least one frame and a trace of non-negative pages, let `L` be the pages on
which a first-in first-out queue of `size` pages misses along the first `n` references
(`fifo_queue_faults`, stated on the trace alone; miss number `f` is on page `L[f]`).  After
`fifo` has processed these references, the faults it has counted are on exactly the pages
`L`, in order; its fault count is the length `k` of `L`, its pointer is `k mod size`, there
are `size` frames, frame `j` is empty when no fault number below `k` is congruent to `j` and
otherwise holds the page of the most recent such fault, and the resident pages are those of
the last `min k size` faults.  Processing one more reference `p` is one iteration from this
state: if `p` is resident the whole state is unchanged, and if `p` is not resident it is
written into the frame at the pointer, the pointer advances by one modulo `size` and the
fault count grows by one. -/
theorem fifo_frames_by_fault_number (tr : List Int) (size n : Nat) (h1 : 1 ≤ size)
    (hnn : ∀ p ∈ tr, 0 ≤ p) :
    ∃ s L, fifo_run size (fifo_init size) (tr.take n) = .ok s ∧
      L = fifo_queue_faults size [] (tr.take n) ∧
      fifo_fault_pages size (fifo_init size) (tr.take n) = L ∧
      s.page_faults = L.length ∧ s.front = L.length % size ∧ s.frames.length = size ∧
      (∀ j, j < size →
        ((∀ f, f < L.length → f % size ≠ j) → s.frames.getD j 0 = -1) ∧
        (∀ f, f < L.length → f % size = j →
          (∀ f2, f < f2 → f2 < L.length → f2 % size ≠ j) →
          s.frames.getD j 0 = L.getD f 0)) ∧
      (∀ q, (q ∈ s.frames ∧ q ≠ -1) ↔ q ∈ L.drop (L.length - size)) ∧
      (∀ p, fifo_run size (fifo_init size) (tr.take n ++ [p]) = fifo_step size s p) ∧
      (∀ p, p ∈ s.frames → fifo_step size s p = .ok s) ∧
      (∀ p, p ∉ s.frames →
        fifo_step size s p =
          .ok ⟨s.frames.set s.front p, (s.front + 1) % size, s.page_faults + 1⟩) := by
  have hnt : ∀ p ∈ tr.take n, 0 ≤ p := fun p hp => hnn p (List.take_subset _ _ hp)
  obtain ⟨s, hr, hh⟩ := fifo_run_hist h1 (tr.take n) _ [] (fifo_init_hist size) hnt
  have hq := fifo_queue_faults_hist h1 (tr.take n) _ [] (fifo_init_hist size) hnt
  rw [List.nil_append] at hh hq
  rw [← hq] at hh
  generalize fifo_queue_faults size [] (tr.take n) = L at hh hq
  have hinv := fifoHist_inv h1 hh
  have hres := fifoHist_resident h1 hh
  obtain ⟨hl, hf, hpf, hLnn, hslot⟩ := hh
  refine ⟨s, L, hr, rfl, hq.symm, hpf, hf, hl, ?_, hres, fun p => fifo_run_snoc _ p _ s hr,
    ?_, ?_⟩
  · intro j hj
    constructor
    · intro hno
      rcases hslot j hj with ⟨_, he⟩ | ⟨f, hfk, _, hmod, _⟩
      · exact he
      · exact absurd hmod (hno f hfk)
    · intro f hfk hmod hlast
      rcases hslot j hj with ⟨hle, _⟩ | ⟨g, hgk, hgs, hgmod, he⟩
      · have := Nat.mod_le f size
        omega
      · have hfg : f = g := by
          rcases Nat.lt_trichotomy f g with hlt | heq | hgt
          · exact absurd hgmod (hlast g hlt hgk)
          · exact heq
          · exact absurd (hgmod.trans hmod.symm) (mod_ne_of_lt_add hgt (by omega))
        rw [he, hfg]
  · intro p hp
    rw [fifo_step_eq p hinv.1 hinv.2]
    simp [fifo_next, hp]
  · intro p hp
    rw [fifo_step_eq p hinv.1 hinv.2]
    simp [fifo_next, hp]

/-! ## Second chance: the victim search in circular order -/

theorem mod_add_ne_self {size ptr e : Nat} (hp : ptr < size) (h0 : 0 < e) (h1 : e < size) :
    (ptr + e) % size ≠ ptr := by
  have := @mod_ne_of_lt_add size ptr (ptr + e) (by omega) (by omega)
  rw [Nat.mod_eq_of_lt hp] at this
  exact fun h => this h.symm

theorem mod_succ_add (size ptr e : Nat) :
    ((ptr + 1) % size + e) % size = (ptr + (e + 1)) % size := by
  rw [Nat.mod_add_mod]
  congr 1
  omega

theorem exists_offset {size ptr j : Nat} (hp : ptr < size) (hj : j < size) :
    ∃ e, e < size ∧ (ptr + e) % size = j := by
  by_cases h : ptr ≤ j
  · refine ⟨j - ptr, by omega, ?_⟩
    rw [show ptr + (j - ptr) = j by omega]
    exact Nat.mod_eq_of_lt hj
  · refine ⟨j + size - ptr, by omega, ?_⟩
    rw [show ptr + (j + size - ptr) = j + size by omega, Nat.add_mod_right]
    exact Nat.mod_eq_of_lt hj

theorem sc_scan_run (size : Nat) (h1 : 1 ≤ size) :
    ∀ (d fuel : Nat) (bits : List Int) (ptr : Nat), bits.length = size → ptr < size →
      d ≤ fuel → d ≤ size →
      (∀ e, e < d → bits.getD ((ptr + e) % size) 0 = 1) →
      (d = size ∨ bits.getD ((ptr + d) % size) 0 ≠ 1) →
      ∃ bits2, sc_scan size fuel bits ptr = .ok (bits2, (ptr + d) % size) ∧
        bits2.length = size ∧
        ∀ j, j < size →
          ((∃ e, e < d ∧ (ptr + e) % size = j) → bits2.getD j 0 = 0) ∧
          ((¬ ∃ e, e < d ∧ (ptr + e) % size = j) → bits2.getD j 0 = bits.getD j 0) := by
  intro d
  induction d with
  | zero =>
    intro fuel bits ptr hl hp _ _ _ hstop
    have hmod : (ptr + 0) % size = ptr := Nat.mod_eq_of_lt hp
    rw [hmod] at hstop ⊢
    have hne : bits.getD ptr 0 ≠ 1 := by
      rcases hstop with h | h
      · omega
      · exact h
    refine ⟨bits, sc_scan_stop size fuel (by omega) hne, hl, fun j _ => ⟨?_, fun _ => rfl⟩⟩
    rintro ⟨e, he, _⟩
    omega
  | succ d ih =>
    intro fuel bits ptr hl hp hfuel hsize hones hstop
    obtain ⟨f, rfl⟩ : ∃ f, fuel = f + 1 := ⟨fuel - 1, by omega⟩
    have hpl : ptr < bits.length := by omega
    have hb : bits.getD ptr 0 = 1 := by
      have := hones 0 (by omega)
      rwa [Nat.add_zero, Nat.mod_eq_of_lt hp] at this
    have hs0 : size ≠ 0 := by omega
    have hset : ∀ j, j ≠ ptr → (bits.set ptr 0).getD j 0 = bits.getD j 0 := by
      intro j hj
      rw [getD_set _ _ _ _ hpl, if_neg hj]
    have hset0 : (bits.set ptr 0).getD ptr 0 = 0 := by
      rw [getD_set _ _ _ _ hpl, if_pos rfl]
    obtain ⟨bits2, hscan, hl2, hpt⟩ := ih f (bits.set ptr 0) ((ptr + 1) % size)
      (by simpa using hl) (Nat.mod_lt _ (by omega)) (by omega) (by omega)
      (by
        intro e he
        rw [mod_succ_add, hset _ (mod_add_ne_self hp (by omega) (by omega))]
        exact hones (e + 1) (by omega))
      (by
        right
        rw [mod_succ_add]
        by_cases hds : d + 1 = size
        · rw [hds, Nat.add_mod_right, Nat.mod_eq_of_lt hp, hset0]
          decide
        · rw [hset _ (mod_add_ne_self hp (by omega) (by omega))]
          rcases hstop with h | h
          · exact absurd h hds
          · exact h)
    rw [mod_succ_add] at hscan
    refine ⟨bits2, ?_, hl2, ?_⟩
    · rw [sc_scan, rd_getD hpl]
      simp only [bind, Except.bind, hb, wr_eq hpl, hs0, hscan, ↓reduceIte]
    · intro j hj
      obtain ⟨hin, hout⟩ := hpt j hj
      constructor
      · rintro ⟨e, he, hej⟩
        cases e with
        | zero =>
          rw [Nat.add_zero, Nat.mod_eq_of_lt hp] at hej
          by_cases hex : ∃ e, e < d ∧ ((ptr + 1) % size + e) % size = j
          · exact hin hex
          · rw [hout hex, ← hej, hset0]
        | succ e =>
          exact hin ⟨e, by omega, by rw [mod_succ_add]; exact hej⟩
      · intro hno
        have hex : ¬ ∃ e, e < d ∧ ((ptr + 1) % size + e) % size = j := by
          rintro ⟨e, he, hej⟩
          exact hno ⟨e + 1, by omega, by rw [← mod_succ_add]; exact hej⟩
        have hjp : j ≠ ptr := by
          intro e
          exact hno ⟨0, by omega, by rw [Nat.add_zero, Nat.mod_eq_of_lt hp, e]⟩
        rw [hout hex, hset j hjp]

theorem exists_run_length (size ptr : Nat) (bits : List Int) :
    ∀ m, (∃ d, d < m ∧ (∀ e, e < d → bits.getD ((ptr + e) % size) 0 = 1) ∧
        bits.getD ((ptr + d) % size) 0 ≠ 1) ∨
      (∀ e, e < m → bits.getD ((ptr + e) % size) 0 = 1) := by
  intro m
  induction m with
  | zero => right; intro e he; omega
  | succ m ih =>
    rcases ih with ⟨d, hd, h1, h2⟩ | hall
    · exact Or.inl ⟨d, by omega, h1, h2⟩
    · by_cases hb : bits.getD ((ptr + m) % size) 0 = 1
      · right
        intro e he
        rcases Nat.lt_succ_iff_lt_or_eq.mp he with h | h
        · exact hall e h
        · rw [h]; exact hb
      · exact Or.inl ⟨m, by omega, hall, hb⟩

theorem sc_step_circular (fuel size : Nat) (s : ScState) (p : Int) (h1 : 1 ≤ size)
    (hf : size ≤ fuel) (hinv : ScInv size s) (hbits : ∀ b ∈ s.ref_bits, b = 0 ∨ b = 1) :
    (p ∉ s.frames →
      ∃ d v s2, d ≤ size ∧ v = (s.pointer + d) % size ∧ sc_step fuel size s p = .ok s2 ∧
        (∀ e, e < d → s.ref_bits.getD ((s.pointer + e) % size) 0 = 1) ∧
        (d < size → s.ref_bits.getD v 0 = 0) ∧
        (d = size ↔ ∀ b ∈ s.ref_bits, b = 1) ∧
        (d = size → v = s.pointer) ∧
        s2.frames = s.frames.set v p ∧
        s2.ref_bits.length = size ∧
        s2.ref_bits.getD v 0 = 1 ∧
        (∀ j, j < size → j ≠ v →
          ((∃ e, e < d ∧ (s.pointer + e) % size = j) → s2.ref_bits.getD j 0 = 0) ∧
          ((¬ ∃ e, e < d ∧ (s.pointer + e) % size = j) →
            s2.ref_bits.getD j 0 = s.ref_bits.getD j 0)) ∧
        s2.pointer = (v + 1) % size ∧ s2.page_faults = s.page_faults + 1) ∧
    (p ∈ s.frames →
      sc_step fuel size s p =
        .ok { s with ref_bits := s.ref_bits.set (s.frames.indexOf p) 1 }) := by
  obtain ⟨hl, hb, hp⟩ := hinv
  refine ⟨fun hm => ?_, fun hm => sc_step_hit fuel hl hb hm⟩
  -- the number of advances
  obtain ⟨d, hd, hones, hstop⟩ : ∃ d, d ≤ size ∧
      (∀ e, e < d → s.ref_bits.getD ((s.pointer + e) % size) 0 = 1) ∧
      (d = size ∨ s.ref_bits.getD ((s.pointer + d) % size) 0 ≠ 1) := by
    rcases exists_run_length size s.pointer s.ref_bits size with ⟨d, hd, h1, h2⟩ | hall
    · exact ⟨d, by omega, h1, Or.inr h2⟩
    · exact ⟨size, le_refl _, hall, Or.inl rfl⟩
  obtain ⟨bits2, hscan, hl2, hpt⟩ :=
    sc_scan_run size h1 d fuel s.ref_bits s.pointer hb hp (by omega) hd hones hstop
  obtain ⟨b3, p3, hscan3, _, _, hstep⟩ := sc_step_miss hl hb hp hf hm
  rw [hscan] at hscan3
  have e1 : bits2 = b3 := by injection hscan3 with h; exact (Prod.mk.inj h).1
  have e2 : (s.pointer + d) % size = p3 := by
    injection hscan3 with h; exact (Prod.mk.inj h).2
  subst e1; subst e2
  have hv : (s.pointer + d) % size < size := Nat.mod_lt _ (by omega)
  have hall : d = size ↔ ∀ b ∈ s.ref_bits, b = 1 := by
    constructor
    · intro hds b hbm
      obtain ⟨j, hj, e⟩ := exists_getD_of_mem hbm
      obtain ⟨e0, he0, hej⟩ := exists_offset hp (show j < size by omega)
      rw [← e, ← hej]
      exact hones e0 (by omega)
    · intro hone
      rcases hstop with h | h
      · exact h
      · exact absurd (hone _ (getD_mem (by omega))) h
  refine ⟨d, _, _, hd, rfl, hstep, hones, ?_, hall, ?_, rfl, by simpa using hl2, ?_, ?_, rfl,
    rfl⟩
  · intro hlt
    rcases hstop with h | h
    · omega
    · rcases hbits _ (getD_mem (show (s.pointer + d) % size < s.ref_bits.length by omega))
        with h0 | h0
      · exact h0
      · exact absurd h0 h
  · intro hds
    rw [hds, Nat.add_mod_right, Nat.mod_eq_of_lt hp]
  · simp only
    rw [getD_set _ _ _ _ (by omega), if_pos rfl]
  · intro j hj hjv
    simp only
    rw [getD_set _ _ _ _ (by omega), if_neg hjv]
    exact hpt j hj

theorem sc_scan_bits (size : Nat) :
    ∀ (fuel : Nat) (bits : List Int) (ptr : Nat) (bits2 : List Int) (ptr2 : Nat),
      sc_scan size fuel bits ptr = .ok (bits2, ptr2) → (∀ b ∈ bits, b = 0 ∨ b = 1) →
      ∀ b ∈ bits2, b = 0 ∨ b = 1 := by
  intro fuel
  induction fuel with
  | zero =>
    intro bits ptr bits2 ptr2 h hb
    rw [sc_scan] at h
    cases hrd : rd bits ptr with
    | error e => simp [hrd, bind, Except.bind] at h
    | ok b =>
      by_cases hb1 : b = 1
      · simp [hrd, bind, Except.bind, hb1] at h
      · simp only [hrd, bind, Except.bind, hb1, ↓reduceIte] at h
        injection h with h
        rw [← (Prod.mk.inj h).1]
        exact hb
  | succ fuel ih =>
    intro bits ptr bits2 ptr2 h hb
    rw [sc_scan] at h
    cases hrd : rd bits ptr with
    | error e => simp [hrd, bind, Except.bind] at h
    | ok b =>
      by_cases hb1 : b = 1
      · cases hwr : wr bits ptr 0 with
        | error e => simp [hrd, bind, Except.bind, hb1, hwr] at h
        | ok bits3 =>
          by_cases hs : size = 0
          · simp [hrd, bind, Except.bind, hb1, hwr, hs] at h
          · simp only [hrd, bind, Except.bind, hb1, hwr, hs, ↓reduceIte] at h
            apply ih _ _ _ _ h
            intro x hx
            unfold wr at hwr
            split at hwr
            · injection hwr with hwr
              rw [← hwr] at hx
              rcases List.mem_or_eq_of_mem_set hx with h2 | h2
              · exact hb x h2
              · exact Or.inl h2
            · exact Except.noConfusion hwr
      · simp only [hrd, bind, Except.bind, hb1, ↓reduceIte] at h
        injection h with h
        rw [← (Prod.mk.inj h).1]
        exact hb

theorem sc_run_wellformed {size : Nat} (h1 : 1 ≤ size) (tr : List Int) :
    ∀ s, ScInv size s → (∀ b ∈ s.ref_bits, b = 0 ∨ b = 1) →
      ∃ s2, sc_run size size s tr = .ok s2 ∧ ScInv size s2 ∧
        ∀ b ∈ s2.ref_bits, b = 0 ∨ b = 1 := by
  induction tr with
  | nil => intro s h hb; exact ⟨s, rfl, h, hb⟩
  | cons p rest ih =>
    intro s h hb
    obtain ⟨hl, hbl, hp⟩ := h
    rw [sc_run]
    by_cases hm : p ∈ s.frames
    · rw [sc_step_hit size hl hbl hm]
      apply ih { s with ref_bits := s.ref_bits.set (s.frames.indexOf p) 1 }
        ⟨hl, by simpa using hbl, hp⟩
      intro x hx
      rcases List.mem_or_eq_of_mem_set hx with h2 | h2
      · exact hb x h2
      · exact Or.inr h2
    · obtain ⟨b2, p2, hscan, hl2, hp2, hs⟩ := sc_step_miss hl hbl hp (le_refl size) hm
      rw [hs]
      apply ih { frames := s.frames.set p2 p, ref_bits := b2.set p2 1,
                 pointer := (p2 + 1) % size, page_faults := s.page_faults + 1 }
        ⟨by simpa using hl, by simpa using hl2, Nat.mod_lt _ (by omega)⟩
      intro x hx
      rcases List.mem_or_eq_of_mem_set hx with h2 | h2
      · exact sc_scan_bits size _ _ _ _ _ hscan hb x h2
      · exact Or.inr h2

theorem sc_init_bits (size : Nat) : ∀ b ∈ (sc_init size).ref_bits, b = 0 ∨ b = 1 :=
  fun _ hb => Or.inl (List.mem_replicate.mp hb).2

/-- C16: one iteration of `second_chance`, with a budget of at least `size` advances, in the
state `s` reached after any trace, which is well formed and has reference bits 0 or 1.  On a
fault the search advances `d ≤ size` times from the pointer over frames whose bit is 1 and
stops at the victim `v = (pointer + d) mod size`: the first frame at or after the pointer, in
circular order, whose bit is 0, or the pointer frame itself (`d = size`) exactly when every
bit is 1.  The page is written into the victim, whose bit becomes 1, the bits of the other
frames passed over become 0, all other frames keep page and bit, and the pointer becomes
`(v + 1) mod size`.  On a hit only the bit of the frame that holds the page is set to 1. -/
theorem second_chance_step_spec (tr : List Int) (fuel size : Nat) (p : Int) (h1 : 1 ≤ size)
    (hf : size ≤ fuel) :
    ∃ s, sc_run fuel size (sc_init size) tr = .ok s ∧ ScInv size s ∧
      (∀ b ∈ s.ref_bits, b = 0 ∨ b = 1) ∧
      (p ∉ s.frames →
        ∃ d v s2, d ≤ size ∧ v = (s.pointer + d) % size ∧ sc_step fuel size s p = .ok s2 ∧
          (∀ e, e < d → s.ref_bits.getD ((s.pointer + e) % size) 0 = 1) ∧
          (d < size → s.ref_bits.getD v 0 = 0) ∧
          (d = size ↔ ∀ b ∈ s.ref_bits, b = 1) ∧
          (d = size → v = s.pointer) ∧
          s2.frames = s.frames.set v p ∧
          s2.ref_bits.length = size ∧
          s2.ref_bits.getD v 0 = 1 ∧
          (∀ j, j < size → j ≠ v →
            ((∃ e, e < d ∧ (s.pointer + e) % size = j) → s2.ref_bits.getD j 0 = 0) ∧
            ((¬ ∃ e, e < d ∧ (s.pointer + e) % size = j) →
              s2.ref_bits.getD j 0 = s.ref_bits.getD j 0)) ∧
          s2.pointer = (v + 1) % size ∧ s2.page_faults = s.page_faults + 1) ∧
      (p ∈ s.frames →
        sc_step fuel size s p =
          .ok { s with ref_bits := s.ref_bits.set (s.frames.indexOf p) 1 }) := by
  obtain ⟨s, hr, hinv, hb⟩ := sc_run_wellformed h1 tr _ (sc_init_inv h1) (sc_init_bits size)
  obtain ⟨hfault, hhit⟩ := sc_step_circular fuel size s p h1 hf hinv hb
  exact ⟨s, sc_run_mono hf tr _ _ hr, hinv, hb, hfault, hhit⟩

/-! ## The generator does not validate its parameters -/

theorem gen_iterate_succ_of_error (RAND_MAX : Nat) (rand : Nat → Nat) (jump : Nat → Bool)
    (P e m : Int) (n : Nat) {s : GenState} {f : Fault} (hlt : s.ref_count < s.ref_str.length)
    (h : gen_step RAND_MAX rand jump P e m s = .error f) :
    gen_iterate RAND_MAX rand jump P e m (n + 1) s = .error f := by
  rw [gen_iterate, if_pos hlt, h]
  rfl

theorem gen_step_zero_e (RAND_MAX : Nat) (rand : Nat → Nat) (jump : Nat → Bool) (P m : Int)
    (s : GenState) : gen_step RAND_MAX rand jump P 0 m s = .error .divByZero := by
  simp [gen_step, c_rem, bind, Except.bind]

theorem gen_step_zero_m (RAND_MAX : Nat) (rand : Nat → Nat) (jump : Nat → Bool) (P e : Int)
    (he : e ≠ 0) (buffer : List Int) (hb : buffer ≠ []) :
    gen_step RAND_MAX rand jump P e 0 (gen_init buffer) = .error .divByZero := by
  have hlen : 0 < buffer.length := List.length_pos.mpr hb
  simp [gen_step, c_rem, bind, Except.bind, he, gen_init, wr_trace, hlen]

/-- C11, counterexample: with `e = 0` (and `P = 5`, `m = 1`) the first iteration of the
generator takes a remainder by zero; with `e = 7 > P = 5` (and `m = 1`) the first iteration
is not rejected and writes the page 6, which is not below `P`. -/
theorem generator_accepts_invalid_parameters :
    gen_iterate 32767 (fun k => 6 * k) (fun _ => false) 5 0 1 1 (gen_init [0, 0, 0]) =
        .error .divByZero ∧
      ∃ s, gen_iterate 32767 (fun k => 6 * k) (fun _ => false) 5 7 1 1 (gen_init [0, 0, 0]) =
          .ok s ∧ s.ref_count = 1 ∧ s.ref_str = [6, 0, 0] :=
  ⟨rfl, ⟨_, rfl, rfl, rfl⟩⟩

/-- C11, amended: the generator performs no validation of its parameters and has no outcome
for an invalid configuration.  On a non-empty buffer, with `e = 0` the first iteration takes
`lrand() % e` with divisor zero, and with `m = 0` and `e ≠ 0` it takes `ref_count % m` with
divisor zero; under the caller's preconditions `0 < e ≤ P` and `0 < m` no iteration
faults. -/
theorem generator_unchecked_parameters (RAND_MAX : Nat) (rand : Nat → Nat) (jump : Nat → Bool)
    (P e m : Int) (buffer : List Int) (n : Nat) (hb : buffer ≠ []) :
    (e = 0 →
      gen_iterate RAND_MAX rand jump P e m (n + 1) (gen_init buffer) = .error .divByZero) ∧
    (e ≠ 0 → m = 0 →
      gen_iterate RAND_MAX rand jump P e m (n + 1) (gen_init buffer) = .error .divByZero) ∧
    (0 < e → e ≤ P → 0 < m →
      ∃ s, gen_iterate RAND_MAX rand jump P e m n (gen_init buffer) = .ok s) := by
  have hlen : (gen_init buffer).ref_count < (gen_init buffer).ref_str.length :=
    List.length_pos.mpr hb
  refine ⟨?_, ?_, ?_⟩
  · intro he
    subst he
    exact gen_iterate_succ_of_error _ _ _ _ _ _ n hlen (gen_step_zero_e _ _ _ _ _ _)
  · intro he hm
    subst hm
    exact gen_iterate_succ_of_error _ _ _ _ _ _ n hlen (gen_step_zero_m _ _ _ _ _ he _ hb)
  · intro he hP hm
    obtain ⟨s, hs, _⟩ :=
      gen_iterate_inv RAND_MAX rand jump he hP hm n _ (gen_init_inv hP buffer)
    exact ⟨s, hs⟩

/-! ## LRU: the resident pages are the most recently referenced ones -/

theorem fresh_not_mem_seen (l : List Int) :
    ∀ (seen : List Int) (x : Int), x ∈ fresh seen l → x ∉ seen := by
  induction l with
  | nil => intro seen x h; simp [fresh] at h
  | cons a t ih =>
    intro seen x h
    by_cases ha : a ∈ seen
    · rw [fresh_cons_mem t ha] at h
      exact ih seen x h
    · rw [fresh_cons_not_mem t ha] at h
      rcases List.mem_cons.mp h with e | h2
      · rw [e]; exact ha
      · exact fun hx => ih _ x h2 (List.mem_append_left _ hx)

theorem fresh_snoc_seen (l : List Int) (p : Int) :
    ∀ seen : List Int, p ∉ seen →
      fresh (seen ++ [p]) l = (fresh seen l).filter (fun x => x ≠ p) := by
  induction l with
  | nil => intro seen _; simp [fresh]
  | cons a t ih =>
    intro seen hp
    by_cases ha : a ∈ seen
    · rw [fresh_cons_mem t ha, fresh_cons_mem t (List.mem_append_left _ ha)]
      exact ih seen hp
    · rw [fresh_cons_not_mem t ha]
      by_cases hap : a = p
      · subst hap
        rw [fresh_cons_mem t (by simp), List.filter_cons_of_neg (by simp)]
        symm
        rw [List.filter_eq_self]
        intro x hx
        have := fresh_not_mem_seen t _ x hx
        simpa using fun e => this (by simp [e])
      · rw [fresh_cons_not_mem t (by simp [ha, hap]), List.filter_cons_of_pos (by simpa using hap)]
        congr 1
        rw [← ih (seen ++ [a]) (by simp [hp]; exact fun e => hap e.symm)]
        apply fresh_congr
        intro x
        simp only [List.mem_append, List.mem_singleton]
        tauto

theorem distinct_pages_snoc_reverse (pre : List Int) (p : Int) :
    distinct_pages (pre ++ [p]).reverse =
      p :: (distinct_pages pre.reverse).filter (fun x => x ≠ p) := by
  rw [List.reverse_append, List.reverse_singleton, List.singleton_append]
  unfold distinct_pages
  rw [fresh_cons_not_mem _ (by simp)]
  congr 1
  exact fresh_snoc_seen pre.reverse p [] (by simp)

theorem touch_pages (p i : Int) (st : List (Int × Int)) :
    (touch p i st).map Prod.fst = p :: (st.map Prod.fst).filter (fun x => x ≠ p) := by
  unfold touch
  rw [List.map_cons, List.filter_map]
  rfl

theorem stackTs_touch {pre : List Int} {st : List (Int × Int)} (p : Int)
    (h : StackTs pre st) : StackTs (pre ++ [p]) (touch p (pre.length : Int) st) := by
  intro x hx
  unfold touch at hx
  rcases List.mem_cons.mp hx with e | hx2
  · subst e
    refine ⟨pre.length, rfl, by simp, ?_, ?_⟩
    · rw [List.getD_append_right _ _ _ _ (le_refl _)]; simp
    · intro t2 h1 h2
      simp at h2
      omega
  · rw [List.mem_filter] at hx2
    have hne : x.1 ≠ p := of_decide_eq_true hx2.2
    obtain ⟨t, ht, hlt, hget, hlater⟩ := h x hx2.1
    refine ⟨t, ht, by simp; omega, ?_, ?_⟩
    · rw [List.getD_append _ _ _ _ hlt]; exact hget
    · intro t2 h1 h2
      by_cases h3 : t2 < pre.length
      · rw [List.getD_append _ _ _ _ h3]; exact hlater t2 h1 h3
      · have h4 : t2 = pre.length := by simp at h2; omega
        rw [h4, List.getD_append_right _ _ _ _ (le_refl _)]
        simpa using fun e => hne e.symm

theorem lruFull_step {s : Nat} {pre : List Int} {c : LruState} {p : Int} (h1 : 1 ≤ s)
    (hp : 0 ≤ p) (h : LruFull s pre c) :
    ∃ c2, lru_step s c pre.length p = .ok c2 ∧ LruFull s (pre ++ [p]) c2 := by
  obtain ⟨st, hrel, hinv, hpages, hts⟩ := h
  obtain ⟨c2, hstep, hrel2, _⟩ := lru_step_rel h1 hp hinv hrel
  refine ⟨c2, hstep, touch p (pre.length : Int) st, hrel2, ?_, ?_, stackTs_touch p hts⟩
  · have := stackInv_touch hp hinv
    simpa using this
  · rw [touch_pages, hpages, distinct_pages_snoc_reverse]

theorem lruFull_run {s : Nat} (h1 : 1 ≤ s) (tr : List Int) :
    ∀ (pre : List Int) (c : LruState), LruFull s pre c → (∀ p ∈ tr, 0 ≤ p) →
      ∃ c2, lru_run s c pre.length tr = .ok c2 ∧ LruFull s (pre ++ tr) c2 := by
  induction tr with
  | nil => intro pre c h _; exact ⟨c, rfl, by simpa using h⟩
  | cons p t ih =>
    intro pre c h hnn
    obtain ⟨c1, hstep, h1'⟩ := lruFull_step h1 (hnn p (by simp)) h
    obtain ⟨c2, hrun, h2⟩ := ih (pre ++ [p]) c1 h1' (fun q hq => hnn q (by simp [hq]))
    refine ⟨c2, ?_, by simpa using h2⟩
    rw [lru_run, hstep]
    simpa using hrun

theorem lruFull_init (s : Nat) : LruFull s [] (lru_init s) :=
  ⟨[], lru_init_rel s, ⟨List.Pairwise.nil, fun x hx => by simp at hx⟩, rfl,
    fun x hx => by simp at hx⟩

theorem lru_scan_first (lu : List Int) :
    ∀ n j c, j + n = lu.length → c < j → (∀ k, k < j → lu.getD c 0 ≤ lu.getD k 0) →
      (∀ k, k < c → lu.getD c 0 < lu.getD k 0) →
      ∃ r, lru_scan lu n j c = .ok r ∧ r < lu.length ∧
        (∀ k, k < lu.length → lu.getD r 0 ≤ lu.getD k 0) ∧
        (∀ k, k < r → lu.getD r 0 < lu.getD k 0) := by
  intro n
  induction n with
  | zero =>
    intro j c hj hc hmin hfirst
    exact ⟨c, by simp [lru_scan], by omega, fun k hk => hmin k (by omega), hfirst⟩
  | succ n ih =>
    intro j c hj hc hmin hfirst
    have h1 : j < lu.length := by omega
    have h2 : c < lu.length := by omega
    rw [lru_scan, rd_getD h1, rd_getD h2]
    simp only [bind, Except.bind]
    by_cases hlt : lu.getD j 0 < lu.getD c 0
    · rw [if_pos hlt]
      apply ih (j + 1) j (by omega) (by omega)
      · intro k hk
        rcases Nat.lt_succ_iff_lt_or_eq.mp hk with h | h
        · have := hmin k h; omega
        · subst h; exact le_refl _
      · intro k hk
        have := hmin k hk
        omega
    · rw [if_neg hlt]
      apply ih (j + 1) c (by omega) (by omega)
      · intro k hk
        rcases Nat.lt_succ_iff_lt_or_eq.mp hk with h | h
        · exact hmin k h
        · subst h; omega
      · exact hfirst

theorem lru_step_miss_first {size : Nat} {s : LruState} (i : Nat) {p : Int}
    (hl : s.frames.length = size) (hu : s.last_used.length = size) (h1 : 1 ≤ size)
    (hm : p ∉ s.frames) :
    ∃ r, r < size ∧ (∀ k, k < size → s.last_used.getD r 0 ≤ s.last_used.getD k 0) ∧
      (∀ k, k < r → s.last_used.getD r 0 < s.last_used.getD k 0) ∧
      lru_step size s i p =
        .ok { frames := s.frames.set r p, last_used := s.last_used.set r (i : Int),
              page_faults := s.page_faults + 1 } := by
  subst hl
  obtain ⟨r, hr, hrl, hmin, hfirst⟩ := lru_scan_first s.last_used (s.frames.length - 1) 1 0
    (by omega) (by omega) (by
      intro k hk
      have : k = 0 := by omega
      subst this; exact le_refl _) (by intro k hk; omega)
  refine ⟨r, by omega, fun k hk => hmin k (by omega), hfirst, ?_⟩
  unfold lru_step
  have hr1 : r < s.frames.length := by omega
  simp [locate_not_mem hm, bind, Except.bind, hr, wr_eq hrl, wr_eq hr1]

theorem lru_run_snoc {size : Nat} (pre : List Int) (p : Int) :
    ∀ (s : LruState) (i : Nat) (c : LruState), lru_run size s i pre = .ok c →
      lru_run size s i (pre ++ [p]) = lru_step size c (i + pre.length) p := by
  induction pre with
  | nil =>
    intro s i c h
    have hc : s = c := by
      rw [lru_run] at h; injection h
    subst hc
    rw [List.nil_append, lru_run]
    simp only [List.length_nil, Nat.add_zero]
    cases lru_step size s i p <;> rfl
  | cons a t ih =>
    intro s i c h
    rw [lru_run] at h
    rw [List.cons_append, lru_run]
    cases hst : lru_step size s i a with
    | error e => simp [hst, bind, Except.bind] at h
    | ok s1 =>
      simp only [hst, bind, Except.bind] at h ⊢
      rw [ih s1 (i + 1) c h, List.length_cons]
      congr 1
      omega

theorem stack_min_is_last {i s : Nat} {st : List (Int × Int)} (x : Int × Int)
    (hst : StackInv i st) (h1 : 1 ≤ s) (hlen : s ≤ st.length) (hx : x ∈ st.take s)
    (hmin : ∀ y ∈ st.take s, x.2 ≤ y.2) : x = st.getD (s - 1) (0, 0) := by
  have hs : s - 1 + 1 = s := by omega
  have hlast : s - 1 < st.length := by omega
  have hT : st.take s = st.take (s - 1) ++ [st.getD (s - 1) (0, 0)] := by
    conv_lhs => rw [← hs]
    rw [List.take_succ, List.getElem?_eq_getElem hlast, List.getD_eq_getElem _ _ hlast]
    rfl
  have hpw : (st.take s).Pairwise (fun x y => x.1 ≠ y.1 ∧ y.2 < x.2) :=
    hst.1.sublist (List.take_sublist _ _)
  rw [hT, List.pairwise_append] at hpw
  have h2 := hmin (st.getD (s - 1) (0, 0)) (by
    rw [hT]; exact List.mem_append_right _ (List.mem_singleton.mpr rfl))
  rw [hT] at hx
  rcases List.mem_append.mp hx with h | h
  · have := (hpw.2.2 x h _ (List.mem_singleton.mpr rfl)).2
    omega
  · exact List.mem_singleton.mp h

theorem lruRel_slot {s : Nat} {c : LruState} {st : List (Int × Int)} (h : LruRel s c st)
    {j : Nat} (hj : j < s) :
    (c.frames.getD j 0, c.last_used.getD j 0) = (-1, -1) ∨
      (c.frames.getD j 0, c.last_used.getD j 0) ∈ st.take s := by
  obtain ⟨hl, hu, hperm⟩ := h
  have hmem := hperm.subset (getD_mem_zip c.frames c.last_used j (by omega) (by omega))
  unfold lru_target at hmem
  rcases List.mem_append.mp hmem with h2 | h2
  · exact Or.inr h2
  · exact Or.inl (List.mem_replicate.mp h2).2

theorem lruRel_frames_perm {s : Nat} {c : LruState} {st : List (Int × Int)}
    (h : LruRel s c st) :
    c.frames.Perm ((st.map Prod.fst).take s ++
      List.replicate (s - min s st.length) (-1)) := by
  obtain ⟨hl, hu, hperm⟩ := h
  have h1 := hperm.map Prod.fst
  rw [List.map_fst_zip _ _ (by omega)] at h1
  unfold lru_target at h1
  simpa [List.map_take] using h1

theorem getD_map_fst (st : List (Int × Int)) (k : Nat) :
    (st.map Prod.fst).getD k 0 = (st.getD k (0, 0)).1 := by
  simp only [List.getD_eq_getElem?_getD, List.getElem?_map]
  cases st[k]? <;> rfl

/-- C14: with at least one frame and a trace of non-negative pages, after `lru` has processed
the first `n` references (the prefix `pre`, with `d` distinct pages) the frames hold, up to
the order of the frames, the `min size d` most recently referenced distinct pages of `pre`
and are empty otherwise; the timestamp of a resident page is the index of its last reference
and that of an empty frame is `-1`.  A fault on the next reference replaces the first frame
with the smallest timestamp: the lowest-indexed empty frame if there is one, and otherwise
the frame of the least recently referenced resident page. -/
theorem lru_resident_most_recent (tr : List Int) (size n : Nat) (h1 : 1 ≤ size)
    (hnn : ∀ p ∈ tr, 0 ≤ p) :
    ∃ c pre, pre = tr.take n ∧ lru_run size (lru_init size) 0 pre = .ok c ∧
      c.frames.length = size ∧ c.last_used.length = size ∧
      c.frames.Perm ((distinct_pages pre.reverse).take size ++
        List.replicate (size - min size pre.toFinset.card) (-1)) ∧
      (∀ j, j < size →
        (c.frames.getD j 0 = -1 ∧ c.last_used.getD j 0 = -1) ∨
        (0 ≤ c.frames.getD j 0 ∧ ∃ t : Nat, c.last_used.getD j 0 = (t : Int) ∧
          t < pre.length ∧ pre.getD t 0 = c.frames.getD j 0 ∧
          ∀ t2, t < t2 → t2 < pre.length → pre.getD t2 0 ≠ c.frames.getD j 0)) ∧
      (∀ p, lru_run size (lru_init size) 0 (pre ++ [p]) = lru_step size c pre.length p) ∧
      (∀ p, 0 ≤ p → p ∉ c.frames →
        ∃ r, r < size ∧
          lru_step size c pre.length p =
            .ok ⟨c.frames.set r p, c.last_used.set r (pre.length : Int), c.page_faults + 1⟩ ∧
          (∀ k, k < size → c.last_used.getD r 0 ≤ c.last_used.getD k 0) ∧
          (∀ k, k < r → c.last_used.getD r 0 < c.last_used.getD k 0) ∧
          ((-1 : Int) ∈ c.frames →
            c.frames.getD r 0 = -1 ∧ ∀ k, k < r → c.frames.getD k 0 ≠ -1) ∧
          ((-1 : Int) ∉ c.frames →
            c.frames.getD r 0 = (distinct_pages pre.reverse).getD (size - 1) 0)) := by
  have hnt : ∀ p ∈ tr.take n, 0 ≤ p := fun p hp => hnn p (List.take_subset _ _ hp)
  generalize tr.take n = pre at hnt
  obtain ⟨c, hrun, st, hrel, hinv, hpages, hts⟩ :=
    lruFull_run h1 pre [] (lru_init size) (lruFull_init size) hnt
  rw [List.nil_append] at hinv hpages hts
  simp only [List.length_nil] at hrun
  have hl := hrel.1
  have hu := hrel.2.1
  have hstlen : st.length = pre.toFinset.card := by
    rw [← List.length_map st Prod.fst, hpages, distinct_pages_length, List.toFinset_reverse]
  -- every slot is empty or an entry of the top of the stack
  have hslot : ∀ j, j < size →
      (c.frames.getD j 0 = -1 ∧ c.last_used.getD j 0 = -1) ∨
      (c.frames.getD j 0, c.last_used.getD j 0) ∈ st.take size := by
    intro j hj
    rcases lruRel_slot hrel hj with h | h
    · exact Or.inl ⟨(Prod.mk.inj h).1, (Prod.mk.inj h).2⟩
    · exact Or.inr h
  refine ⟨c, pre, rfl, hrun, hl, hu, ?_, ?_, ?_, ?_⟩
  · have := lruRel_frames_perm hrel
    rwa [hpages, hstlen] at this
  · intro j hj
    rcases hslot j hj with h | h
    · exact Or.inl h
    · right
      have hmem := List.take_subset _ _ h
      obtain ⟨t, ht, hlt, hget, hlater⟩ := hts _ hmem
      exact ⟨(hinv.2 _ hmem).1, t, ht, hlt, hget, hlater⟩
  · intro p
    have := lru_run_snoc pre p (lru_init size) 0 c hrun
    rwa [Nat.zero_add] at this
  · intro p hp hm
    obtain ⟨r, hr, hmin, hfirst, hstep⟩ := lru_step_miss_first pre.length hl hu h1 hm
    refine ⟨r, hr, hstep, hmin, hfirst, ?_, ?_⟩
    · intro hempty
      obtain ⟨k0, hk0, hk0e⟩ := exists_getD_of_mem hempty
      have hk0s : k0 < size := by omega
      -- the empty frame has timestamp -1
      have hlu0 : c.last_used.getD k0 0 = -1 := by
        rcases hslot k0 hk0s with h | h
        · exact h.2
        · have := (hinv.2 _ (List.take_subset _ _ h)).1
          simp only [hk0e] at this
          omega
      have hlur : c.last_used.getD r 0 ≤ -1 := by
        have := hmin k0 hk0s; omega
      have hempty_of : ∀ k, k < size → c.last_used.getD k 0 ≤ -1 →
          c.frames.getD k 0 = -1 := by
        intro k hk hle
        rcases hslot k hk with h | h
        · exact h.1
        · have := (hinv.2 _ (List.take_subset _ _ h)).2.1
          simp only at this
          omega
      refine ⟨hempty_of r hr hlur, ?_⟩
      intro k hk hke
      have hkl : c.last_used.getD k 0 = -1 := by
        rcases hslot k (by omega) with h | h
        · exact h.2
        · have := (hinv.2 _ (List.take_subset _ _ h)).1
          simp only [hke] at this
          omega
      have := hfirst k hk
      have hge : -1 ≤ c.last_used.getD r 0 := by
        rcases hslot r hr with h | h
        · omega
        · have := (hinv.2 _ (List.take_subset _ _ h)).2.1
          simp only at this
          omega
      omega
    · intro hfull
      have hnotempty : ∀ j, j < size → c.frames.getD j 0 ≠ -1 := by
        intro j hj e
        apply hfull
        rw [← e]; exact getD_mem (by omega)
      have hin : ∀ j, j < size →
          (c.frames.getD j 0, c.last_used.getD j 0) ∈ st.take size := by
        intro j hj
        rcases hslot j hj with h | h
        · exact absurd h.1 (hnotempty j hj)
        · exact h
      -- the stack has at least `size` entries, else an empty frame would be left
      have hlen : size ≤ st.length := by
        by_contra hlt
        have hperm := hrel.2.2
        have hmem : ((-1 : Int), (-1 : Int)) ∈ lru_target size st := by
          unfold lru_target
          apply List.mem_append_right
          rw [List.mem_replicate]
          refine ⟨?_, rfl⟩
          rw [List.length_take]
          omega
        obtain ⟨k, hk1, _, hke⟩ := mem_zip_getD (hperm.symm.subset hmem)
        exact hnotempty k (by omega) (Prod.mk.inj hke).1.symm
      have hminT : ∀ y ∈ st.take size,
          (c.frames.getD r 0, c.last_used.getD r 0).2 ≤ y.2 := by
        intro y hy
        have hyt : y ∈ lru_target size st := by
          unfold lru_target; exact List.mem_append_left _ hy
        obtain ⟨k, hk1, _, hyk⟩ := mem_zip_getD (hrel.2.2.symm.subset hyt)
        rw [hyk]
        exact hmin k (by omega)
      have hx := stack_min_is_last _ hinv h1 hlen (hin r hr) hminT
      have h2 : c.frames.getD r 0 = (st.getD (size - 1) (0, 0)).1 := by
        rw [← hx]
      rw [h2, ← hpages, getD_map_fst]

/-! ## The lookahead scan of `optimal` -/

theorem testBit_clear (u v j : Nat) (hv : v < 32) :
    (u &&& (0xFFFFFFFF ^^^ (1 <<< v))).testBit j = true ↔
      (u.testBit j = true ∧ j < 32 ∧ j ≠ v) := by
  have hmask : (0xFFFFFFFF : Nat) = 2 ^ 32 - 1 := rfl
  rw [Nat.testBit_and, Nat.testBit_xor, hmask, Nat.testBit_two_pow_sub_one, Nat.one_shiftLeft,
    Nat.testBit_two_pow]
  by_cases h1 : j < 32 <;> by_cases h2 : v = j
  · subst h2; simp [h1]
  · have h3 : ¬ j = v := fun e => h2 e.symm
    simp [h1, h2, h3]
  · subst h2; omega
  · simp [h1, h2]

theorem maskInv_init (frames : List Int) (size : Nat) : MaskInv frames size (2 ^ size - 1) [] := by
  intro j
  rw [Nat.testBit_two_pow_sub_one]
  simp

theorem maskInv_zero {frames : List Int} {size u : Nat} {S : List Int}
    (h : MaskInv frames size u S) : u = 0 ↔ ∀ j, j < size → frames.getD j 0 ∈ S := by
  constructor
  · intro hu j hj
    by_contra hn
    have := (h j).mpr ⟨hj, hn⟩
    rw [hu, Nat.zero_testBit] at this
    exact Bool.noConfusion this
  · intro hall
    apply Nat.eq_of_testBit_eq
    intro j
    rw [Nat.zero_testBit]
    by_contra hn
    have ht : u.testBit j = true := by
      cases hb : u.testBit j
      · exact absurd hb hn
      · rfl
    obtain ⟨hj, hnot⟩ := (h j).mp ht
    exact hnot (hall j hj)

theorem getD_inj_of_nodup {frames : List Int} (hnd : frames.Nodup) {j k : Nat}
    (hj : j < frames.length) (hk : k < frames.length)
    (h : frames.getD j 0 = frames.getD k 0) : j = k := by
  rw [List.getD_eq_getElem _ _ hj, List.getD_eq_getElem _ _ hk] at h
  exact (hnd.getElem_inj_iff).mp h

theorem optimal_scan_step {frames : List Int} {size u : Nat} {S : List Int}
    (hl : frames.length = size) (h31 : size ≤ 31) (hnd : frames.Nodup)
    (hinv : MaskInv frames size u S) (hu : u ≠ 0) (n : Nat) (r : Int) (fut : List Int)
    (vic : Option Int) :
    ∃ u2 v2, optimal_scan frames size (n + 1) (r :: fut) u vic =
        optimal_scan frames size n fut u2 (some v2) ∧
      MaskInv frames size u2 (r :: S) ∧
      (r ∈ frames → v2 = (frames.indexOf r : Int)) ∧ (r ∉ frames → u2 = u) := by
  subst hl
  by_cases hm : r ∈ frames
  · have hk : frames.indexOf r < frames.length := List.indexOf_lt_length.mpr hm
    refine ⟨u &&& (0xFFFFFFFF ^^^ (1 <<< frames.indexOf r)), (frames.indexOf r : Int), ?_, ?_,
      fun _ => rfl, fun h => absurd hm h⟩
    · rw [optimal_scan, if_neg hu, locate_mem hm]
      simp [bind, Except.bind]
    · intro j
      rw [testBit_clear _ _ _ (by omega), hinv j]
      constructor
      · rintro ⟨⟨hj, hS⟩, _, hne⟩
        refine ⟨hj, ?_⟩
        rw [List.mem_cons, not_or]
        refine ⟨fun e => hne ?_, hS⟩
        exact getD_inj_of_nodup hnd hj hk (e.trans (getD_indexOf hm).symm)
      · rintro ⟨hj, hS⟩
        rw [List.mem_cons, not_or] at hS
        refine ⟨⟨hj, hS.2⟩, by omega, fun e => hS.1 ?_⟩
        rw [e]; exact getD_indexOf hm
  · refine ⟨u, -1, ?_, ?_, fun h => absurd h hm, fun _ => rfl⟩
    · rw [optimal_scan, if_neg hu, locate_not_mem hm]
      simp [bind, Except.bind]
    · intro j
      rw [hinv j]
      constructor
      · rintro ⟨hj, hS⟩
        refine ⟨hj, ?_⟩
        rw [List.mem_cons, not_or]
        exact ⟨fun e => hm (e ▸ getD_mem hj), hS⟩
      · rintro ⟨hj, hS⟩
        rw [List.mem_cons, not_or] at hS
        exact ⟨hj, hS.2⟩

theorem optimal_scan_full {frames : List Int} {size : Nat} (hl : frames.length = size)
    (h31 : size ≤ 31) (hnd : frames.Nodup) (fut : List Int) :
    ∀ (n : Nat) (S : List Int) (u : Nat) (vic : Option Int), MaskInv frames size u S →
      (∃ j, j < size ∧ frames.getD j 0 ∉ S ∧ frames.getD j 0 ∉ fut.take n) →
      ∃ u2 vic2, optimal_scan frames size n fut u vic = .ok (u2, vic2) ∧
        ∀ j, u2.testBit j = true ↔
          (j < size ∧ frames.getD j 0 ∉ S ∧ frames.getD j 0 ∉ fut.take n) := by
  induction fut with
  | nil =>
    intro n S u vic hinv _
    refine ⟨u, vic, by cases n <;> rfl, fun j => ?_⟩
    rw [hinv j]; simp
  | cons r fut ih =>
    intro n S u vic hinv hex
    cases n with
    | zero =>
      refine ⟨u, vic, rfl, fun j => ?_⟩
      rw [hinv j]; simp
    | succ n =>
      obtain ⟨j0, hj0, hS0, hW0⟩ := hex
      rw [List.take_succ_cons, List.mem_cons, not_or] at hW0
      have hu : u ≠ 0 := by
        intro e
        exact hS0 ((maskInv_zero hinv).mp e j0 hj0)
      obtain ⟨u1, v1, hstep, hinv1, _, _⟩ :=
        optimal_scan_step hl h31 hnd hinv hu n r fut vic
      obtain ⟨u2, vic2, hscan, hbits⟩ := ih n (r :: S) u1 (some v1) hinv1
        ⟨j0, hj0, by rw [List.mem_cons, not_or]; exact ⟨hW0.1, hS0⟩, hW0.2⟩
      refine ⟨u2, vic2, by rw [hstep, hscan], fun j => ?_⟩
      rw [hbits j, List.take_succ_cons]
      simp only [List.mem_cons, not_or]
      tauto

theorem optimal_scan_cover {frames : List Int} {size : Nat} (hl : frames.length = size)
    (h31 : size ≤ 31) (hnd : frames.Nodup) (fut : List Int) :
    ∀ (n : Nat) (S : List Int) (u : Nat) (vic : Option Int), MaskInv frames size u S →
      u ≠ 0 → (∀ j, j < size → frames.getD j 0 ∈ S ∨ frames.getD j 0 ∈ fut.take n) →
      ∃ v, v < size ∧ optimal_scan frames size n fut u vic = .ok (0, some (v : Int)) ∧
        frames.getD v 0 ∉ S ∧
        ∀ j, j < size → j ≠ v → frames.getD j 0 ∉ S →
          (fut.take n).indexOf (frames.getD j 0) < (fut.take n).indexOf (frames.getD v 0) := by
  induction fut with
  | nil =>
    intro n S u vic hinv hu hall
    exfalso
    apply hu
    rw [maskInv_zero hinv]
    intro j hj
    rcases hall j hj with h | h
    · exact h
    · simp at h
  | cons r fut ih =>
    intro n S u vic hinv hu hall
    cases n with
    | zero =>
      exfalso
      apply hu
      rw [maskInv_zero hinv]
      intro j hj
      rcases hall j hj with h | h
      · exact h
      · simp at h
    | succ n =>
      obtain ⟨u1, v1, hstep, hinv1, hv1, hu1⟩ :=
        optimal_scan_step hl h31 hnd hinv hu n r fut vic
      by_cases hz : u1 = 0
      · -- the reference just scanned was the last one missing
        have hm : r ∈ frames := by
          by_contra hm
          exact hu ((hu1 hm) ▸ hz)
        have hk : frames.indexOf r < size := hl ▸ List.indexOf_lt_length.mpr hm
        have hall1 := (maskInv_zero hinv1).mp hz
        have hcov : ∀ j, j < size → frames.getD j 0 ∉ S → j = frames.indexOf r := by
          intro j hj hS
          rcases List.mem_cons.mp (hall1 j hj) with e | e
          · exact getD_inj_of_nodup hnd (by omega) (by omega) (e.trans (getD_indexOf hm).symm)
          · exact absurd e hS
        refine ⟨frames.indexOf r, hk, ?_, ?_, ?_⟩
        · rw [hstep, hz, hv1 hm]
          exact optimal_scan_zero _ _ _ _ _
        · obtain ⟨j, hj⟩ : ∃ j, u.testBit j = true := by
            by_contra hno
            apply hu
            apply Nat.eq_of_testBit_eq
            intro j
            rw [Nat.zero_testBit]
            cases hb : u.testBit j
            · rfl
            · exact absurd ⟨j, hb⟩ hno
          obtain ⟨hjs, hjS⟩ := (hinv j).mp hj
          rw [← hcov j hjs hjS]
          exact hjS
        · intro j hj hne hS
          exact absurd (hcov j hj hS) hne
      · obtain ⟨v, hv, hscan, hvS, hord⟩ := ih n (r :: S) u1 (some v1) hinv1 hz (by
          intro j hj
          rcases hall j hj with h | h
          · exact Or.inl (List.mem_cons_of_mem _ h)
          · rw [List.take_succ_cons] at h
            rcases List.mem_cons.mp h with e | e
            · exact Or.inl (by rw [e]; exact List.mem_cons_self _ _)
            · exact Or.inr e)
        rw [List.mem_cons, not_or] at hvS
        refine ⟨v, hv, by rw [hstep, hscan], hvS.2, ?_⟩
        intro j hj hne hS
        rw [List.take_succ_cons, List.indexOf_cons_ne _ (fun e => hvS.1 e.symm)]
        by_cases hjr : frames.getD j 0 = r
        · rw [hjr, List.indexOf_cons_self]
          exact Nat.succ_pos _
        · rw [List.indexOf_cons_ne _ (fun e => hjr e.symm)]
          apply Nat.succ_lt_succ
          apply hord j hj hne
          rw [List.mem_cons, not_or]
          exact ⟨hjr, hS⟩

theorem optimal_first_unused_spec :
    ∀ (k fuel u v0 : Nat), u.testBit k = true → (∀ j, j < k → u.testBit j = false) →
      k < fuel → optimal_first_unused fuel u v0 = .ok (v0 + k) := by
  intro k
  induction k with
  | zero =>
    intro fuel u v0 hk _ hf
    obtain ⟨f, rfl⟩ : ∃ f, fuel = f + 1 := ⟨fuel - 1, by omega⟩
    rw [Nat.testBit_zero] at hk
    have h1 : u % 2 = 1 := of_decide_eq_true hk
    rw [optimal_first_unused, if_neg (by omega)]
    rfl
  | succ k ih =>
    intro fuel u v0 hk hlow hf
    obtain ⟨f, rfl⟩ : ∃ f, fuel = f + 1 := ⟨fuel - 1, by omega⟩
    have h0 := hlow 0 (Nat.succ_pos _)
    rw [Nat.testBit_zero] at h0
    have h1 : ¬ u % 2 = 1 := of_decide_eq_false h0
    have hsh : u >>> 1 = u / 2 := by
      rw [Nat.shiftRight_eq_div_pow, Nat.pow_one]
    rw [optimal_first_unused, if_pos (by omega), hsh]
    have := ih f (u / 2) (v0 + 1) (by rw [← Nat.testBit_succ]; exact hk)
      (fun j hj => by rw [← Nat.testBit_succ]; exact hlow (j + 1) (by omega)) (by omega)
    rw [this]
    congr 1
    omega

/-! ## The victim of `optimal` in the steady state -/

theorem optimal_step_cover {frames : List Int} {size : Nat} (limit : Int) (pf : Nat)
    {p : Int} (future : List Int) (hl : frames.length = size) (h1 : 1 ≤ size)
    (h31 : size ≤ 31) (hnd : frames.Nodup) (hm : p ∉ frames)
    (hall : ∀ q ∈ frames, q ∈ future.take limit.toNat) :
    ∃ v, v < size ∧
      (∀ j, j < size → j ≠ v →
        (future.take limit.toNat).indexOf (frames.getD j 0) <
          (future.take limit.toNat).indexOf (frames.getD v 0)) ∧
      optimal_scan frames size limit.toNat future (2 ^ size - 1) none = .ok (0, some (v : Int)) ∧
      optimal_step size limit frames pf p future = .ok (frames.set v p, pf + 1) := by
  have hu : 2 ^ size - 1 ≠ 0 := by
    have : 2 ^ 1 ≤ 2 ^ size := Nat.pow_le_pow_right (by decide) h1
    omega
  obtain ⟨v, hv, hscan, _, hord⟩ := optimal_scan_cover hl h31 hnd future limit.toNat []
    (2 ^ size - 1) none (maskInv_init frames size) hu
    (fun j hj => Or.inr (hall _ (getD_mem (by omega))))
  refine ⟨v, hv, fun j hj hne => hord j hj hne (by simp), hscan, ?_⟩
  have hloc := locate_not_mem hm
  rw [hl] at hloc
  unfold optimal_step
  simp [hloc, bind, Except.bind, show ¬ 32 ≤ size by omega, hscan, idx, wr_eq (hl ▸ hv)]

theorem optimal_step_absent {frames : List Int} {size : Nat} (limit : Int) (pf : Nat)
    {p : Int} (future : List Int) (hl : frames.length = size) (h1 : 1 ≤ size)
    (h31 : size ≤ 31) (hnd : frames.Nodup) (hm : p ∉ frames)
    (hex : ∃ j, j < size ∧ frames.getD j 0 ∉ future.take limit.toNat) :
    ∃ v, v < size ∧ frames.getD v 0 ∉ future.take limit.toNat ∧
      (∀ j, j < v → frames.getD j 0 ∈ future.take limit.toNat) ∧
      optimal_step size limit frames pf p future = .ok (frames.set v p, pf + 1) := by
  classical
  -- the lowest-indexed frame whose page is not referenced in the window
  have hex2 : ∃ j, j < size ∧ frames.getD j 0 ∉ future.take limit.toNat := hex
  obtain ⟨v, ⟨hv, hvW⟩, hleast⟩ : ∃ v, (v < size ∧ frames.getD v 0 ∉ future.take limit.toNat) ∧
      ∀ j, j < v → ¬ (j < size ∧ frames.getD j 0 ∉ future.take limit.toNat) :=
    ⟨Nat.find hex2, Nat.find_spec hex2, fun j hj => Nat.find_min hex2 hj⟩
  have hlow : ∀ j, j < v → frames.getD j 0 ∈ future.take limit.toNat := by
    intro j hj
    by_contra hn
    exact hleast j hj ⟨by omega, hn⟩
  obtain ⟨u2, vic2, hscan, hbits⟩ := optimal_scan_full hl h31 hnd future limit.toNat []
    (2 ^ size - 1) none (maskInv_init frames size)
    (by obtain ⟨j, hj, hjW⟩ := hex; exact ⟨j, hj, by simp, hjW⟩)
  have hbv : u2.testBit v = true := (hbits v).mpr ⟨hv, by simp, hvW⟩
  have hblow : ∀ j, j < v → u2.testBit j = false := by
    intro j hj
    cases hb : u2.testBit j
    · rfl
    · exact absurd (hlow j hj) ((hbits j).mp hb).2.2
  have hu2 : u2 ≠ 0 := by
    intro e
    rw [e, Nat.zero_testBit] at hbv
    exact Bool.noConfusion hbv
  have hfirst := optimal_first_unused_spec v 32 u2 0 hbv hblow (by omega)
  rw [Nat.zero_add] at hfirst
  refine ⟨v, hv, hvW, hlow, ?_⟩
  have hloc := locate_not_mem hm
  rw [hl] at hloc
  unfold optimal_step
  simp [hloc, bind, Except.bind, show ¬ 32 ≤ size by omega, hscan, hu2, hfirst,
    wr_eq (hl ▸ hv)]

theorem optimal_step_shape {frames : List Int} {size : Nat} (limit : Int) (pf : Nat)
    {p : Int} (future : List Int) (hl : frames.length = size) (h1 : 1 ≤ size)
    (h31 : size ≤ 31) (hnd : frames.Nodup) (hm : p ∉ frames) :
    ∃ v, v < size ∧ optimal_step size limit frames pf p future = .ok (frames.set v p, pf + 1) := by
  by_cases hall : ∀ q ∈ frames, q ∈ future.take limit.toNat
  · obtain ⟨v, hv, _, _, hs⟩ := optimal_step_cover limit pf future hl h1 h31 hnd hm hall
    exact ⟨v, hv, hs⟩
  · have hex : ∃ j, j < size ∧ frames.getD j 0 ∉ future.take limit.toNat := by
      by_contra hno
      apply hall
      intro q hq
      obtain ⟨j, hj, e⟩ := exists_getD_of_mem hq
      by_contra hqW
      exact hno ⟨j, by omega, by rw [e]; exact hqW⟩
    obtain ⟨v, hv, _, _, hs⟩ := optimal_step_absent limit pf future hl h1 h31 hnd hm hex
    exact ⟨v, hv, hs⟩

theorem optimal_step_hit {frames : List Int} {size : Nat} (limit : Int) (pf : Nat)
    {p : Int} (future : List Int) (hl : frames.length = size) (hm : p ∈ frames) :
    optimal_step size limit frames pf p future = .ok (frames, pf) := by
  have hloc := locate_mem hm
  rw [hl] at hloc
  unfold optimal_step
  simp [hloc, bind, Except.bind]

/-! ## The loops of `optimal`, one reference at a time -/

theorem optimal_upto_add (size : Nat) (limit : Int) :
    ∀ (a b : Nat) (tr : List Int) (s : OptState),
      optimal_upto size limit (a + b) tr s =
        (optimal_upto size limit a tr s).bind
          (fun s2 => optimal_upto size limit b (tr.drop a) s2) := by
  intro a
  induction a with
  | zero =>
    intro b tr s
    rw [Nat.zero_add]
    rfl
  | succ a ih =>
    intro b tr s
    rw [show a + 1 + b = (a + b) + 1 by omega]
    cases tr with
    | nil =>
      rw [optimal_upto, optimal_upto]
      cases b <;> rfl
    | cons p t =>
      rw [optimal_upto, optimal_upto]
      cases hit : optimal_iter size limit s p t with
      | error e => rfl
      | ok s1 =>
        simp only [bind, Except.bind]
        rw [ih b t s1]
        rfl

theorem warmup_upto (size : Nat) (limit : Int) (rest : List Int) :
    ∀ (i cur : Nat) (frames : List Int) (pf : Nat) (w : WarmState),
      optimal_warmup size rest i cur frames pf = .ok w →
      ∃ c i2, c ≤ rest.length ∧ w.cur = cur + c ∧ ¬ i2 < size ∧
        optimal_upto size limit c rest ⟨frames, i, cur, pf⟩ =
          .ok ⟨w.frames, i2, w.cur, w.page_faults⟩ := by
  induction rest with
  | nil =>
    intro i cur frames pf w h
    rw [optimal_warmup] at h
    by_cases hlt : i < size
    · rw [if_pos hlt] at h; exact Except.noConfusion h
    · rw [if_neg hlt] at h
      injection h with h
      subst h
      exact ⟨0, i, le_refl _, rfl, hlt, rfl⟩
  | cons p t ih =>
    intro i cur frames pf w h
    rw [optimal_warmup] at h
    by_cases hlt : i < size
    · rw [if_pos hlt] at h
      cases hloc : locate frames size p with
      | error e => simp [hloc, bind, Except.bind] at h
      | ok f =>
        by_cases hf : f ≥ 0
        · simp only [hloc, bind, Except.bind, hf, if_true] at h
          obtain ⟨c, i2, hc, hcur, hi2, hpre⟩ := ih i (cur + 1) frames pf w h
          refine ⟨c + 1, i2, by simpa using hc, by omega, hi2, ?_⟩
          rw [optimal_upto]
          simp only [optimal_iter, hlt, if_true, hloc, bind, Except.bind, hf]
          exact hpre
        · simp only [hloc, bind, Except.bind, hf, if_false] at h
          cases hwr : wr frames i p with
          | error e => simp [hwr] at h
          | ok frames2 =>
            simp only [hwr] at h
            obtain ⟨c, i2, hc, hcur, hi2, hpre⟩ := ih (i + 1) (cur + 1) frames2 (pf + 1) w h
            refine ⟨c + 1, i2, by simpa using hc, by omega, hi2, ?_⟩
            rw [optimal_upto]
            simp only [optimal_iter, hlt, if_true, hloc, bind, Except.bind, hf, if_false, hwr]
            exact hpre
    · rw [if_neg hlt] at h
      injection h with h
      subst h
      exact ⟨0, i, Nat.zero_le _, rfl, hlt, rfl⟩

theorem steady_upto (size : Nat) (limit : Int) (fut : List Int) :
    ∀ (frames : List Int) (pf f i cur : Nat), ¬ i < size →
      optimal_steady size limit fut frames pf = .ok f →
      ∃ s2, optimal_upto size limit fut.length fut ⟨frames, i, cur, pf⟩ = .ok s2 ∧
        s2.page_faults = f := by
  induction fut with
  | nil =>
    intro frames pf f i cur _ h
    rw [optimal_steady] at h
    injection h with h
    exact ⟨_, rfl, h⟩
  | cons p t ih =>
    intro frames pf f i cur hi h
    rw [optimal_steady] at h
    cases hst : optimal_step size limit frames pf p t with
    | error e => simp [hst, bind, Except.bind] at h
    | ok r =>
      obtain ⟨frames2, pf2⟩ := r
      simp only [hst, bind, Except.bind] at h
      obtain ⟨s2, hpre, hpf⟩ := ih frames2 pf2 f i (cur + 1) hi h
      refine ⟨s2, ?_, hpf⟩
      rw [List.length_cons, optimal_upto]
      simp only [optimal_iter, hi, if_false, hst, bind, Except.bind]
      exact hpre

/-- The iteration-by-iteration account of `optimal` agrees with the function itself: when
`optimal` returns a count, processing all references one at a time ends with that count. -/
theorem optimal_upto_consistent (tr : List Int) (size : Nat) (limit : Int) (f : Nat)
    (h : optimal tr size limit = .ok f) :
    ∃ s, optimal_upto size limit tr.length tr (optimal_init size) = .ok s ∧
      s.page_faults = f := by
  unfold optimal at h
  cases hw : optimal_warmup size tr 0 0 (List.replicate size (-1)) 0 with
  | error e => simp [hw, bind, Except.bind] at h
  | ok w =>
    simp only [hw, bind, Except.bind] at h
    obtain ⟨c, i2, hc, hcur, hi2, hpre⟩ := warmup_upto size limit tr 0 0 _ 0 w hw
    rw [Nat.zero_add] at hcur
    obtain ⟨s2, hpre2, hpf⟩ := steady_upto size limit (tr.drop w.cur) w.frames
      w.page_faults f i2 w.cur hi2 h
    refine ⟨s2, ?_, hpf⟩
    have hlen : tr.length = c + (tr.drop w.cur).length := by
      rw [List.length_drop, hcur]; omega
    rw [hlen, optimal_upto_add]
    have hinit : optimal_init size = ⟨List.replicate size (-1), 0, 0, 0⟩ := rfl
    rw [hinit, hpre, ← hcur]
    exact hpre2

theorem optimal_upto_succ (size : Nat) (limit : Int) (tr : List Int) (n : Nat) (p : Int)
    (s0 s : OptState) (hp : tr[n]? = some p)
    (hs : optimal_upto size limit n tr s0 = .ok s) :
    optimal_upto size limit (n + 1) tr s0 = optimal_iter size limit s p (tr.drop (n + 1)) := by
  have hn : n < tr.length := by
    by_contra hge
    rw [List.getElem?_eq_none (by omega)] at hp
    exact Option.noConfusion hp
  have hd : tr.drop n = p :: tr.drop (n + 1) := by
    rw [List.drop_eq_getElem_cons hn]
    congr 1
    rw [List.getElem?_eq_getElem hn] at hp
    injection hp
  rw [optimal_upto_add, hs]
  show optimal_upto size limit 1 (tr.drop n) s = _
  rw [hd, optimal_upto]
  cases optimal_iter size limit s p (tr.drop (n + 1)) <;> rfl

/-! ## No page is resident twice -/

theorem residentOnce_replicate (size : Nat) : ResidentOnce (List.replicate size (-1)) := by
  intro j k hj _ _ hne
  exfalso
  apply hne
  rw [List.getD_eq_getElem _ _ hj]
  simp

theorem residentOnce_set {frames : List Int} {v : Nat} {p : Int} (h : ResidentOnce frames)
    (hv : v < frames.length) (hm : p ∉ frames) : ResidentOnce (frames.set v p) := by
  intro j k hj hk hjk hne
  rw [List.length_set] at hj hk
  rw [getD_set _ _ _ _ hv] at hne ⊢
  rw [getD_set _ _ _ _ hv]
  by_cases h1 : j = v
  · rw [if_pos h1, if_neg (fun e => hjk (h1.trans e.symm))]
    exact fun e => hm (e ▸ getD_mem hk)
  · rw [if_neg h1] at hne ⊢
    by_cases h2 : k = v
    · rw [if_pos h2]
      exact fun e => hm (e ▸ getD_mem hj)
    · rw [if_neg h2]
      exact h j k hj hk hjk hne

theorem pageRun_once {size : Nat} {fr fr2 : List Int} {pf pf2 : Nat} {tr : List Int}
    (h : PageRun size fr pf tr fr2 pf2) :
    fr.length = size → ResidentOnce fr → fr2.length = size ∧ ResidentOnce fr2 ∧
      ∀ p, tr.getLast? = some p → p ∈ fr2 := by
  induction h with
  | nil fr pf => intro hl h; exact ⟨hl, h, fun p hp => by simp at hp⟩
  | @cons fr fr1 fr2 pf pf1 pf2 p t hstep hrun ih =>
    intro hl h
    obtain ⟨hl1, hcase⟩ := hstep
    have hp1 : p ∈ fr1 ∧ ResidentOnce fr1 := by
      rcases hcase with ⟨hm, he, _⟩ | ⟨hm, ⟨v, hv, he⟩, _⟩
      · rw [he]; exact ⟨hm, h⟩
      · rw [he]
        exact ⟨List.mem_set _ _ (by omega) _, residentOnce_set h (by omega) hm⟩
    obtain ⟨hl2, h2, hlast⟩ := ih hl1 hp1.2
    refine ⟨hl2, h2, ?_⟩
    intro q hq
    cases hrun with
    | nil =>
      have : q = p := by simpa using hq.symm
      rw [this]; exact hp1.1
    | @cons _ _ _ _ _ _ p2 t2 _ _ =>
      apply hlast
      rw [← hq]
      simp [List.getLast?_cons_cons]

theorem getLast_take {tr : List Int} {n : Nat} (h1 : 1 ≤ n) (hn : n ≤ tr.length) :
    (tr.take n).getLast? = some (tr.getD (n - 1) 0) := by
  rw [List.getLast?_eq_getElem?, List.length_take, Nat.min_eq_left hn,
    List.getElem?_take_of_lt (by omega), List.getD_eq_getElem?_getD,
    List.getElem?_eq_getElem (by omega)]
  rfl

theorem optInv_init (size : Nat) : OptInv size (optimal_init size) :=
  ⟨Nat.zero_le _, [], rfl, by simp [optimal_init], List.nodup_nil, fun q hq => by simp at hq⟩

theorem optInv_length {size : Nat} {s : OptState} (h : OptInv size s) :
    s.frames.length = size := by
  obtain ⟨hi, F, hF, he, _, _⟩ := h
  rw [he, List.length_append, List.length_replicate, hF]
  omega

theorem optInv_once {size : Nat} {s : OptState} (h : OptInv size s) :
    ResidentOnce s.frames := by
  obtain ⟨hi, F, hF, he, hnd, hnn⟩ := h
  have hfull : ∀ j, j < F.length → s.frames.getD j 0 = F.getD j 0 := by
    intro j hj
    rw [he, List.getD_append _ _ _ _ hj]
  intro j k hj hk hjk hne
  have hlen : s.frames.length = size := by
    rw [he, List.length_append, List.length_replicate, hF]; omega
  have hempty2 : ∀ j, j < s.frames.length → F.length ≤ j → s.frames.getD j 0 = -1 := by
    intro j hj1 hj2
    rw [he, List.getD_append_right _ _ _ _ hj2, List.getD_eq_getElem _ _ (by
      rw [he, List.length_append] at hj1; omega)]
    simp
  have hjF : j < F.length := by
    by_contra hge
    exact hne (hempty2 j hj (by omega))
  by_cases hkF : k < F.length
  · rw [hfull j hjF, hfull k hkF]
    exact fun e => hjk (getD_inj_of_nodup hnd hjF hkF e)
  · rw [hempty2 k hk (by omega)]
    exact hne

theorem optimal_iter_inv {size : Nat} (limit : Int) {s : OptState} {p : Int}
    (fut : List Int) (h1 : 1 ≤ size) (h31 : size ≤ 31) (hp : 0 ≤ p) (h : OptInv size s) :
    ∃ s2, optimal_iter size limit s p fut = .ok s2 ∧ OptInv size s2 ∧ p ∈ s2.frames ∧
      s2.cur = s.cur + 1 := by
  have hlen := optInv_length h
  obtain ⟨hi, F, hF, he, hnd, hnn⟩ := h
  by_cases hlt : s.i < size
  · by_cases hm : p ∈ F
    · have hm2 : p ∈ s.frames := by rw [he]; exact List.mem_append_left _ hm
      have hloc := locate_mem hm2
      rw [hlen] at hloc
      refine ⟨{ s with cur := s.cur + 1 }, ?_, ⟨hi, F, hF, he, hnd, hnn⟩, hm2, rfl⟩
      simp [optimal_iter, hlt, hloc, bind, Except.bind]
    · have hm2 : p ∉ s.frames := by
        rw [he]; exact fun h => hm ((mem_frames_iff F _ hp).mp h)
      have hloc := locate_not_mem hm2
      rw [hlen] at hloc
      obtain ⟨n, hn⟩ : ∃ n, size - s.i = n + 1 := ⟨size - s.i - 1, by omega⟩
      have hset : s.frames.set s.i p = (F ++ [p]) ++ List.replicate n (-1) := by
        rw [he, hn, ← hF, set_frames]
      refine ⟨⟨s.frames.set s.i p, s.i + 1, s.cur + 1, s.page_faults + 1⟩, ?_, ?_, ?_, rfl⟩
      · simp [optimal_iter, hlt, hloc, bind, Except.bind, wr_eq (show s.i < s.frames.length by omega)]
      · refine ⟨by simp only; omega, F ++ [p], by simp [hF], ?_, ?_, ?_⟩
        · simp only
          rw [hset, show size - (s.i + 1) = n by omega]
        · exact List.Nodup.append hnd (List.nodup_singleton p)
            (by intro x hx hx2; exact hm (List.mem_singleton.mp hx2 ▸ hx))
        · intro q hq
          rcases List.mem_append.mp hq with h2 | h2
          · exact hnn q h2
          · rw [List.mem_singleton.mp h2]; exact hp
      · simp only
        exact List.mem_set _ _ (by omega) _
  · have hiF : s.i = size := by omega
    have heF : s.frames = F := by rw [he, hiF]; simp
    have hndf : s.frames.Nodup := heF ▸ hnd
    by_cases hm : p ∈ s.frames
    · refine ⟨{ s with cur := s.cur + 1 }, ?_, ⟨hi, F, hF, he, hnd, hnn⟩, hm, rfl⟩
      simp [optimal_iter, hlt, optimal_step_hit limit s.page_faults fut hlen hm, bind,
        Except.bind]
    · obtain ⟨v, hv, hstep⟩ :=
        optimal_step_shape limit s.page_faults fut hlen h1 h31 hndf hm
      refine ⟨⟨s.frames.set v p, s.i, s.cur + 1, s.page_faults + 1⟩, ?_, ?_, ?_, rfl⟩
      · simp [optimal_iter, hlt, hstep, bind, Except.bind]
      · refine ⟨hi, F.set v p, by simp [hF], ?_, ?_, ?_⟩
        · simp only
          rw [heF, hiF]; simp
        · exact List.Nodup.set hnd (heF ▸ hm)
        · intro q hq
          rcases List.mem_or_eq_of_mem_set hq with h2 | h2
          · exact hnn q h2
          · rw [h2]; exact hp
      · simp only
        exact List.mem_set _ _ (by omega) _

theorem optimal_upto_inv {size : Nat} (limit : Int) (h1 : 1 ≤ size) (h31 : size ≤ 31) :
    ∀ (n : Nat) (tr : List Int) (s : OptState), OptInv size s → (∀ p ∈ tr, 0 ≤ p) →
      n ≤ tr.length →
      ∃ s2, optimal_upto size limit n tr s = .ok s2 ∧ OptInv size s2 ∧
        s2.cur = s.cur + n ∧ (1 ≤ n → tr.getD (n - 1) 0 ∈ s2.frames) := by
  intro n
  induction n with
  | zero =>
    intro tr s h _ _
    exact ⟨s, rfl, h, rfl, fun h0 => absurd h0 (by decide)⟩
  | succ n ih =>
    intro tr s h hnn hn
    cases tr with
    | nil => simp at hn
    | cons p t =>
      have hp : 0 ≤ p := hnn p (by simp)
      have hnt : ∀ q ∈ t, 0 ≤ q := fun q hq => hnn q (by simp [hq])
      obtain ⟨s1, hit, hinv1, hmem1, hcur1⟩ := optimal_iter_inv limit t h1 h31 hp h
      obtain ⟨s2, hpre, hinv2, hcur2, hlast⟩ := ih t s1 hinv1 hnt (by simpa using hn)
      refine ⟨s2, ?_, hinv2, by omega, fun _ => ?_⟩
      · rw [optimal_upto, hit]; exact hpre
      · cases n with
        | zero =>
          rw [optimal_upto] at hpre
          injection hpre with hpre
          rw [← hpre]
          simpa using hmem1
        | succ m =>
          have := hlast (by omega)
          simpa using this

theorem optInv_steady {size : Nat} {s : OptState} (h : OptInv size s) (hs : ¬ s.i < size) :
    s.frames.Nodup := by
  obtain ⟨hi, F, hF, he, hnd, _⟩ := h
  have hiF : s.i = size := by omega
  have heF : s.frames = F := by rw [he, hiF]; simp
  exact heF ▸ hnd

theorem optimal_iter_steady_miss {size : Nat} (limit : Int) {s : OptState} {p : Int}
    {fut : List Int} {v : Nat} (hs : ¬ s.i < size)
    (hstep : optimal_step size limit s.frames s.page_faults p fut =
      .ok (s.frames.set v p, s.page_faults + 1)) :
    optimal_iter size limit s p fut =
      .ok ⟨s.frames.set v p, s.i, s.cur + 1, s.page_faults + 1⟩ := by
  simp [optimal_iter, hs, hstep, bind, Except.bind]

/-- C12: for `1 ≤ size ≤ 31` and a trace of non-negative pages, let `s` be the state of
`optimal` after `n` references, in the steady state (`i = size`, all frames in use), and let
the next reference `p = ref_str[n]` be a fault.  If every resident page occurs among the next
`min limit (N - 1 - n)` references, the lookahead scan ends with `unused = 0` and `victim = v`,
the frame whose page has its first occurrence in that window at the largest offset, and the
page is written into frame `v`, every other frame being unchanged. -/
theorem optimal_evicts_last_found (tr : List Int) (size n : Nat) (limit : Int) (p : Int)
    (h1 : 1 ≤ size) (h31 : size ≤ 31) (hnn : ∀ q ∈ tr, 0 ≤ q) (hp : tr[n]? = some p) :
    ∃ s, optimal_upto size limit n tr (optimal_init size) = .ok s ∧ s.cur = n ∧
      s.frames.length = size ∧
      (¬ s.i < size → p ∉ s.frames →
        (∀ q ∈ s.frames, q ∈ (tr.drop (n + 1)).take limit.toNat) →
        ∃ v, v < size ∧
          (∀ j, j < size → j ≠ v →
            ((tr.drop (n + 1)).take limit.toNat).indexOf (s.frames.getD j 0) <
              ((tr.drop (n + 1)).take limit.toNat).indexOf (s.frames.getD v 0)) ∧
          optimal_scan s.frames size limit.toNat (tr.drop (n + 1)) (2 ^ size - 1) none =
            .ok (0, some (v : Int)) ∧
          optimal_step size limit s.frames s.page_faults p (tr.drop (n + 1)) =
            .ok (s.frames.set v p, s.page_faults + 1) ∧
          optimal_upto size limit (n + 1) tr (optimal_init size) =
            .ok ⟨s.frames.set v p, s.i, n + 1, s.page_faults + 1⟩) := by
  have hn : n < tr.length := by
    by_contra hge
    rw [List.getElem?_eq_none (by omega)] at hp
    exact Option.noConfusion hp
  obtain ⟨s, hpre, hinv, hcur, _⟩ :=
    optimal_upto_inv limit h1 h31 n tr _ (optInv_init size) hnn (by omega)
  have hcur2 : s.cur = n := by simpa [optimal_init] using hcur
  have hlen := optInv_length hinv
  refine ⟨s, hpre, hcur2, hlen, fun hs hm hall => ?_⟩
  obtain ⟨v, hv, hord, hscan, hstep⟩ := optimal_step_cover limit s.page_faults
    (tr.drop (n + 1)) hlen h1 h31 (optInv_steady hinv hs) hm hall
  refine ⟨v, hv, hord, hscan, hstep, ?_⟩
  rw [optimal_upto_succ size limit tr n p _ s hp hpre, optimal_iter_steady_miss limit hs hstep,
    hcur2]

/-- C13: for `1 ≤ size ≤ 31` and a trace of non-negative pages, let `s` be the state of
`optimal` after `n` references, in the steady state (`i = size`, all frames in use), and let
the next reference `p = ref_str[n]` be a fault.  If some resident page does not occur among
the next `min limit (N - 1 - n)` references (the window ends with the trace), the page is
written into the lowest-indexed frame `v` whose page does not occur in that window, every
other frame being unchanged. -/
theorem optimal_evicts_lowest_absent (tr : List Int) (size n : Nat) (limit : Int) (p : Int)
    (h1 : 1 ≤ size) (h31 : size ≤ 31) (hnn : ∀ q ∈ tr, 0 ≤ q) (hp : tr[n]? = some p) :
    ∃ s, optimal_upto size limit n tr (optimal_init size) = .ok s ∧ s.cur = n ∧
      s.frames.length = size ∧
      (¬ s.i < size → p ∉ s.frames →
        (∃ j, j < size ∧ s.frames.getD j 0 ∉ (tr.drop (n + 1)).take limit.toNat) →
        ∃ v, v < size ∧ s.frames.getD v 0 ∉ (tr.drop (n + 1)).take limit.toNat ∧
          (∀ j, j < v → s.frames.getD j 0 ∈ (tr.drop (n + 1)).take limit.toNat) ∧
          optimal_step size limit s.frames s.page_faults p (tr.drop (n + 1)) =
            .ok (s.frames.set v p, s.page_faults + 1) ∧
          optimal_upto size limit (n + 1) tr (optimal_init size) =
            .ok ⟨s.frames.set v p, s.i, n + 1, s.page_faults + 1⟩) := by
  have hn : n < tr.length := by
    by_contra hge
    rw [List.getElem?_eq_none (by omega)] at hp
    exact Option.noConfusion hp
  obtain ⟨s, hpre, hinv, hcur, _⟩ :=
    optimal_upto_inv limit h1 h31 n tr _ (optInv_init size) hnn (by omega)
  have hcur2 : s.cur = n := by simpa [optimal_init] using hcur
  have hlen := optInv_length hinv
  refine ⟨s, hpre, hcur2, hlen, fun hs hm hex => ?_⟩
  obtain ⟨v, hv, hvW, hlow, hstep⟩ := optimal_step_absent limit s.page_faults
    (tr.drop (n + 1)) hlen h1 h31 (optInv_steady hinv hs) hm hex
  refine ⟨v, hv, hvW, hlow, hstep, ?_⟩
  rw [optimal_upto_succ size limit tr n p _ s hp hpre, optimal_iter_steady_miss limit hs hstep,
    hcur2]

/-- C20: with at least one frame and a trace of non-negative pages, after each of `optimal`
(for at most 31 frames), `fifo`, `lru` and `second_chance` has processed the first `n ≥ 1`
references, no page is resident in two frames (a frame that is not empty differs from every
other frame) and the page just referenced, `ref_str[n - 1]`, is resident. -/
theorem no_page_resident_twice (tr : List Int) (size n : Nat) (limit : Int) (h1 : 1 ≤ size)
    (hnn : ∀ q ∈ tr, 0 ≤ q) (hn1 : 1 ≤ n) (hn : n ≤ tr.length) :
    (size ≤ 31 →
      ∃ s, optimal_upto size limit n tr (optimal_init size) = .ok s ∧
        ResidentOnce s.frames ∧ tr.getD (n - 1) 0 ∈ s.frames) ∧
    (∃ s, fifo_run size (fifo_init size) (tr.take n) = .ok s ∧
      ResidentOnce s.frames ∧ tr.getD (n - 1) 0 ∈ s.frames) ∧
    (∃ s, lru_run size (lru_init size) 0 (tr.take n) = .ok s ∧
      ResidentOnce s.frames ∧ tr.getD (n - 1) 0 ∈ s.frames) ∧
    (∃ s, (∀ fuel, size ≤ fuel → sc_run fuel size (sc_init size) (tr.take n) = .ok s) ∧
      ResidentOnce s.frames ∧ tr.getD (n - 1) 0 ∈ s.frames) := by
  have hlast := getLast_take hn1 hn
  have hrep : (List.replicate size (-1 : Int)).length = size := List.length_replicate _ _
  refine ⟨?_, ?_, ?_, ?_⟩
  · intro h31
    obtain ⟨s, hpre, hinv, _, hmem⟩ :=
      optimal_upto_inv limit h1 h31 n tr _ (optInv_init size) hnn hn
    exact ⟨s, hpre, optInv_once hinv, hmem hn1⟩
  · obtain ⟨s, hr, hrun⟩ := fifo_run_pageRun (tr.take n) _ (fifo_init_inv h1)
    obtain ⟨_, honce, hl⟩ := pageRun_once hrun hrep (residentOnce_replicate size)
    exact ⟨s, hr, honce, hl _ hlast⟩
  · obtain ⟨s, hr, hrun⟩ := lru_run_pageRun h1 (tr.take n) _ 0 (lru_init_inv size)
    obtain ⟨_, honce, hl⟩ := pageRun_once hrun hrep (residentOnce_replicate size)
    exact ⟨s, hr, honce, hl _ hlast⟩
  · obtain ⟨s, hr, hrun⟩ := sc_run_pageRun h1 (tr.take n) _ (sc_init_inv h1)
    obtain ⟨_, honce, hl⟩ := pageRun_once hrun hrep (residentOnce_replicate size)
    exact ⟨s, fun fuel hf => sc_run_mono hf _ _ _ hr, honce, hl _ hlast⟩

/-! ## Further instances on concrete inputs -/

theorem generator_unchecked_parameters_witness :
    ((0 : Int) = 0 →
      gen_iterate 32767 (fun k => 6 * k) (fun _ => false) 5 0 1 (2 + 1) (gen_init [0, 0, 0]) =
        .error .divByZero) ∧
    ((0 : Int) ≠ 0 → (1 : Int) = 0 →
      gen_iterate 32767 (fun k => 6 * k) (fun _ => false) 5 0 1 (2 + 1) (gen_init [0, 0, 0]) =
        .error .divByZero) ∧
    ((0 : Int) < 0 → (0 : Int) ≤ 5 → (0 : Int) < 1 →
      ∃ s, gen_iterate 32767 (fun k => 6 * k) (fun _ => false) 5 0 1 2 (gen_init [0, 0, 0]) =
        .ok s) :=
  generator_unchecked_parameters 32767 (fun k => 6 * k) (fun _ => false) 5 0 1 [0, 0, 0] 2
    (by decide)

theorem optimal_evicts_last_found_witness :
    ∃ v, v < 2 ∧
      optimal_step 2 5 [0, 1] 2 2 [0, 1] = .ok (([0, 1] : List Int).set v 2, 3) ∧
      optimal_upto 2 5 3 [0, 1, 2, 0, 1] (optimal_init 2) =
        .ok ⟨([0, 1] : List Int).set v 2, 2, 3, 3⟩ := by
  obtain ⟨s, hs, _, _, h⟩ :=
    optimal_evicts_last_found [0, 1, 2, 0, 1] 2 2 5 2 (by decide) (by decide) (by decide) rfl
  have hs2 : optimal_upto 2 5 2 [0, 1, 2, 0, 1] (optimal_init 2) = .ok ⟨[0, 1], 2, 2, 2⟩ :=
    rfl
  rw [hs2] at hs
  injection hs with hs
  subst hs
  obtain ⟨v, hv, _, _, hstep, hpre⟩ := h (by decide) (by decide) (by decide)
  exact ⟨v, hv, hstep, hpre⟩

theorem optimal_evicts_lowest_absent_witness :
    ∃ v, v < 2 ∧ ([0, 1] : List Int).getD v 0 ∉ ([0] : List Int) ∧
      optimal_step 2 5 [0, 1] 2 2 [0] = .ok (([0, 1] : List Int).set v 2, 3) ∧
      optimal_upto 2 5 3 [0, 1, 2, 0] (optimal_init 2) =
        .ok ⟨([0, 1] : List Int).set v 2, 2, 3, 3⟩ := by
  obtain ⟨s, hs, _, _, h⟩ :=
    optimal_evicts_lowest_absent [0, 1, 2, 0] 2 2 5 2 (by decide) (by decide) (by decide) rfl
  have hs2 : optimal_upto 2 5 2 [0, 1, 2, 0] (optimal_init 2) = .ok ⟨[0, 1], 2, 2, 2⟩ := rfl
  rw [hs2] at hs
  injection hs with hs
  subst hs
  obtain ⟨v, hv, hvW, _, hstep, hpre⟩ := h (by decide) (by decide) ⟨1, by decide, by decide⟩
  exact ⟨v, hv, hvW, hstep, hpre⟩

theorem fault_count_bounds_witness :
    (∃ n, fifo [0, 1, 0, 2, 1] 2 = .ok n ∧ ([0, 1, 0, 2, 1] : List Int).toFinset.card ≤ n ∧
        n ≤ ([0, 1, 0, 2, 1] : List Int).length) ∧
      (∃ n, lru [0, 1, 0, 2, 1] 2 = .ok n ∧ ([0, 1, 0, 2, 1] : List Int).toFinset.card ≤ n ∧
        n ≤ ([0, 1, 0, 2, 1] : List Int).length) ∧
      (∃ n, (∀ fuel, 2 ≤ fuel → second_chance fuel [0, 1, 0, 2, 1] 2 = .ok n) ∧
        ([0, 1, 0, 2, 1] : List Int).toFinset.card ≤ n ∧
        n ≤ ([0, 1, 0, 2, 1] : List Int).length) :=
  fault_count_bounds [0, 1, 0, 2, 1] 2 (by decide) (by decide)

theorem fault_count_fits_witness :
    fifo [0, 1, 0, 2, 1] 3 = .ok ([0, 1, 0, 2, 1] : List Int).toFinset.card ∧
      lru [0, 1, 0, 2, 1] 3 = .ok ([0, 1, 0, 2, 1] : List Int).toFinset.card ∧
      ∀ fuel, 3 ≤ fuel →
        second_chance fuel [0, 1, 0, 2, 1] 3 = .ok ([0, 1, 0, 2, 1] : List Int).toFinset.card :=
  fault_count_fits [0, 1, 0, 2, 1] 3 (by decide) (by decide) (by decide)

theorem lru_resident_most_recent_witness :
    ∃ c, lru_run 2 (lru_init 2) 0 (List.take 3 [0, 1, 2, 0]) = .ok c ∧
      c.frames.Perm ((distinct_pages (List.take 3 [0, 1, 2, 0]).reverse).take 2 ++
        List.replicate (2 - min 2 (List.take 3 ([0, 1, 2, 0] : List Int)).toFinset.card) (-1)) ∧
      ∀ p, lru_run 2 (lru_init 2) 0 (List.take 3 [0, 1, 2, 0] ++ [p]) =
        lru_step 2 c (List.take 3 ([0, 1, 2, 0] : List Int)).length p := by
  obtain ⟨c, pre, hpre, hrun, _, _, hperm, _, hsnoc, _⟩ :=
    lru_resident_most_recent [0, 1, 2, 0] 2 3 (by decide) (by decide)
  subst hpre
  exact ⟨c, hrun, hperm, hsnoc⟩

theorem fifo_frames_by_fault_number_witness :
    fifo_queue_faults 2 [] (List.take 4 [0, 1, 0, 2, 1]) = [0, 1, 2] ∧
      fifo_run 2 (fifo_init 2) (List.take 4 [0, 1, 0, 2, 1]) = .ok ⟨[2, 1], 1, 3⟩ ∧
      fifo_run 2 (fifo_init 2) (List.take 4 [0, 1, 0, 2, 1] ++ [0]) =
        fifo_step 2 ⟨[2, 1], 1, 3⟩ 0 ∧
      fifo_step 2 ⟨[2, 1], 1, 3⟩ 0 = .ok ⟨[2, 0], 0, 4⟩ ∧
      fifo_step 2 ⟨[2, 1], 1, 3⟩ 1 = .ok ⟨[2, 1], 1, 3⟩ := by
  obtain ⟨s, L, hrun, hL, _, _, _, _, _, _, hnext, hhit, hmiss⟩ :=
    fifo_frames_by_fault_number [0, 1, 0, 2, 1] 2 4 (by decide) (by decide)
  have hs2 : fifo_run 2 (fifo_init 2) (List.take 4 [0, 1, 0, 2, 1]) = .ok ⟨[2, 1], 1, 3⟩ := rfl
  have hs := hrun
  rw [hs2] at hs
  injection hs with hs
  subst hs
  exact ⟨by decide, hrun, hnext 0, hmiss 0 (by decide), hhit 1 (by decide)⟩

theorem second_chance_step_spec_witness :
    ∃ d v s2, d ≤ 2 ∧ v = (0 + d) % 2 ∧
      sc_step 2 2 ⟨[0, 1], [1, 1], 0, 2⟩ 2 = .ok s2 ∧ (d = 2 → v = 0) ∧
      s2.frames = ([0, 1] : List Int).set v 2 ∧ s2.pointer = (v + 1) % 2 ∧
      s2.page_faults = 2 + 1 := by
  obtain ⟨s, hs, _, _, hfault, _⟩ :=
    second_chance_step_spec [0, 1] 2 2 2 (by decide) (by decide)
  have hs2 : sc_run 2 2 (sc_init 2) [0, 1] = .ok ⟨[0, 1], [1, 1], 0, 2⟩ := rfl
  rw [hs2] at hs
  injection hs with hs
  subst hs
  obtain ⟨d, v, s2, hd, hv, hstep, _, _, _, hvp, hfr, _, _, _, hptr, hpf⟩ := hfault (by decide)
  exact ⟨d, v, s2, hd, hv, hstep, hvp, hfr, hptr, hpf⟩

theorem no_page_resident_twice_witness :
    (2 ≤ 31 →
      ∃ s, optimal_upto 2 5 3 [0, 1, 2, 0] (optimal_init 2) = .ok s ∧
        ResidentOnce s.frames ∧ ([0, 1, 2, 0] : List Int).getD (3 - 1) 0 ∈ s.frames) ∧
    (∃ s, fifo_run 2 (fifo_init 2) (List.take 3 [0, 1, 2, 0]) = .ok s ∧
      ResidentOnce s.frames ∧ ([0, 1, 2, 0] : List Int).getD (3 - 1) 0 ∈ s.frames) ∧
    (∃ s, lru_run 2 (lru_init 2) 0 (List.take 3 [0, 1, 2, 0]) = .ok s ∧
      ResidentOnce s.frames ∧ ([0, 1, 2, 0] : List Int).getD (3 - 1) 0 ∈ s.frames) ∧
    (∃ s, (∀ fuel, 2 ≤ fuel → sc_run fuel 2 (sc_init 2) (List.take 3 [0, 1, 2, 0]) = .ok s) ∧
      ResidentOnce s.frames ∧ ([0, 1, 2, 0] : List Int).getD (3 - 1) 0 ∈ s.frames) :=
  no_page_resident_twice [0, 1, 2, 0] 2 3 5 (by decide) (by decide) (by decide) (by decide)

end Paging
